import Mathlib

/-!
# CachingTLB: address decoder, TLB, page tables, MMU and statistics

A shallow embedding of the translation engine of the repository
(`vm_memory.h`, `utils.c`, `tlb.c`, `simple_page_table.c`,
`two_level_page_table.c`, `mmu.c`).

Conventions of the embedding:

* `uint32_t` values are naturals below `2 ^ 32`; an operation that can leave
  that range in C (`<<`, `++` on a `uint32_t`) is reduced `% 2 ^ 32`.
* the `uint64_t` event counters (`accesses`, `hits`, `misses`, `faults`,
  `total_cycles`) are naturals that are only ever incremented; they are not
  reduced, since wrapping them takes more than `2 ^ 60` calls. The `uint64_t`
  subtractions of `run_simulation` are reduced `% 2 ^ 64`.
* a C array is the map from index to contents (`Nat → α`), its length being
  the `size` field stored next to it; a pointer that may be `NULL` is an
  `Option`.
* a function that writes through pointers returns the new contents; a
  function-local `static` is an argument and a result of the function.
* a `double` is an exact rational (rounding is left out), or `none` for the
  non-finite result of a division by zero.
* `translate_two_level_page_table` and `mmu_translate` return `none` where the
  C call has no defined result: a `NULL` block is dereferenced, or
  `tlb_insert` is reached with the cursor outside the array (an out-of-bounds
  write and, for `size = 0`, a division by zero).
-/

namespace CachingTLB

/-! ## Constants of `vm_memory.h` -/

def NUM_PHYSICAL_FRAMES : Nat := 256
def PAGE_OFFSET_BITS : Nat := 12
def PAGE_NUMBER_BITS : Nat := 20
def TLB_SIZE : Nat := 8
def L1_BITS : Nat := 10
def L2_BITS : Nat := 10
def L1_SIZE : Nat := 1 <<< L1_BITS
def L2_SIZE : Nat := 1 <<< L2_BITS
def PAGE_OFFSET_MASK : Nat := (1 <<< PAGE_OFFSET_BITS) - 1
def PAGE_NUMBER_MASK : Nat := (1 <<< PAGE_NUMBER_BITS) - 1
def L1_INDEX_MASK : Nat := (1 <<< L1_BITS) - 1
def L2_INDEX_MASK : Nat := (1 <<< L2_BITS) - 1

/-- Width of `uint32_t`: values are kept below `UINT32_MOD`. -/
def UINT32_MOD : Nat := 2 ^ 32

/-! ## Address decoder (`utils.c`) -/

def get_page_number (virtual_addr : Nat) : Nat :=
  virtual_addr >>> PAGE_OFFSET_BITS

def get_page_offset (virtual_addr : Nat) : Nat :=
  virtual_addr &&& PAGE_OFFSET_MASK

def get_l1_index (virtual_addr : Nat) : Nat :=
  (virtual_addr >>> (PAGE_OFFSET_BITS + L2_BITS)) &&& L1_INDEX_MASK

def get_l2_index (virtual_addr : Nat) : Nat :=
  (virtual_addr >>> PAGE_OFFSET_BITS) &&& L2_INDEX_MASK

/-- The expression `(frame << PAGE_OFFSET_BITS) | page_offset` on `uint32_t`
operands, as written in every translation routine. -/
def make_physical_addr (frame page_offset : Nat) : Nat :=
  ((frame <<< PAGE_OFFSET_BITS) % UINT32_MOD) ||| page_offset


/-! ## Entries (`vm_memory.h`) -/

structure PageTableEntry where
  valid : Bool
  frame_number : Nat
  referenced : Bool
  dirty : Bool
deriving DecidableEq

structure TLBEntry where
  valid : Bool
  virtual_page : Nat
  physical_frame : Nat
  referenced : Bool
  dirty : Bool
deriving DecidableEq

/-- A `PageTableEntry` as `calloc` returns it: every byte zero. -/
def zeroed_pte : PageTableEntry :=
  { valid := false, frame_number := 0, referenced := false, dirty := false }

/-- A `TLBEntry` as `calloc` returns it: every byte zero. -/
def zeroed_tlb_entry : TLBEntry :=
  { valid := false, virtual_page := 0, physical_frame := 0, referenced := false,
    dirty := false }

/-! ## TLB (`tlb.c`) -/

structure TLB where
  entries : Nat → TLBEntry
  size : Nat
  next_replace : Nat
  accesses : Nat
  hits : Nat
  misses : Nat

/-- `init_tlb`: every field is assigned, so the result does not depend on the
previous contents of `*tlb`; `calloc` is taken to succeed. -/
def init_tlb : TLB :=
  { size := TLB_SIZE
    entries := fun _ => zeroed_tlb_entry
    next_replace := 0
    accesses := 0
    hits := 0
    misses := 0 }

/-- The `for` loop of `tlb_lookup` standing at index `i` with `n` iterations
left (`n = size - i`): the index at which the loop body returns, if any. -/
def tlb_lookup_loop (entries : Nat → TLBEntry) (virtual_page : Nat) :
    Nat → Nat → Option Nat
  | _, 0 => none
  | i, n + 1 =>
    if (entries i).valid && (entries i).virtual_page == virtual_page then some i
    else tlb_lookup_loop entries virtual_page (i + 1) n

/-- `tlb_lookup`. The first component is `some f` when the C function returns
`true` having stored `f` in `*physical_frame`, and `none` when it returns
`false` (the out-parameter is then not written). -/
def tlb_lookup (tlb : TLB) (virtual_page : Nat) : Option Nat × TLB :=
  let tlb := { tlb with accesses := tlb.accesses + 1 }
  match tlb_lookup_loop tlb.entries virtual_page 0 tlb.size with
  | some i =>
    let entry := tlb.entries i
    (some entry.physical_frame,
      { tlb with
        hits := tlb.hits + 1
        entries := fun j => if j = i then { entry with referenced := true }
          else tlb.entries j })
  | none => (none, { tlb with misses := tlb.misses + 1 })

/-- `tlb_insert`. The slot written is `entries[next_replace]`; the cursor
update is the `uint32_t` expression `(next_replace + 1) % size`. This is what
the C function does when `next_replace < size`; outside that domain the C
writes outside the array and, for `size = 0`, divides by zero, and the value
given here has no counterpart (see `tlb_insert_checked`). -/
def tlb_insert (tlb : TLB) (virtual_page physical_frame : Nat) : TLB :=
  { tlb with
    entries := fun j =>
      if j = tlb.next_replace then
        { valid := true
          virtual_page := virtual_page
          physical_frame := physical_frame
          referenced := true
          dirty := false }
      else tlb.entries j
    next_replace := ((tlb.next_replace + 1) % UINT32_MOD) % tlb.size }

/-- `tlb_insert` on an arbitrary TLB: `none` when the cursor is not inside
the array (`next_replace >= size`), where the C writes `entries[next_replace]`
out of bounds and, for `size = 0`, traps on `% tlb->size`. -/
def tlb_insert_checked (tlb : TLB) (virtual_page physical_frame : Nat) : Option TLB :=
  if tlb.next_replace < tlb.size then some (tlb_insert tlb virtual_page physical_frame)
  else none

/-- The `for` loop of `tlb_invalidate_all` standing at index `i` with `n`
iterations left. -/
def tlb_invalidate_loop (entries : Nat → TLBEntry) : Nat → Nat → (Nat → TLBEntry)
  | _, 0 => entries
  | i, n + 1 =>
    tlb_invalidate_loop
      (fun j => if j = i then { entries i with valid := false } else entries j)
      (i + 1) n

def tlb_invalidate_all (tlb : TLB) : TLB :=
  { tlb with entries := tlb_invalidate_loop tlb.entries 0 tlb.size }

/-- One call made by a client of the TLB. -/
inductive TLBOp where
  | insert (virtual_page physical_frame : Nat)
  | lookup (virtual_page : Nat)

/-- The TLB after one client call (the result of a lookup is dropped). -/
def tlb_step (tlb : TLB) : TLBOp → TLB
  | .insert vp f => tlb_insert tlb vp f
  | .lookup vp => (tlb_lookup tlb vp).2

/-- The TLB after a sequence of client calls, first call first. -/
def tlb_run (tlb : TLB) (ops : List TLBOp) : TLB :=
  ops.foldl tlb_step tlb

/-- The `(virtual_page, physical_frame)` pairs inserted by a sequence of
calls, in order. -/
def inserted_pairs : List TLBOp → List (Nat × Nat)
  | [] => []
  | .insert vp f :: ops => (vp, f) :: inserted_pairs ops
  | .lookup _ :: ops => inserted_pairs ops

/-- State of the TLB after the pairs `ins` have been inserted into a fresh
TLB, in this order: the cursor is `ins.length mod 8`, each of the last eight
pairs sits in the slot given by its position mod 8, and the slots not yet
reached are invalid. -/
def round_robin_inv (ins : List (Nat × Nat)) (t : TLB) : Prop :=
  t.size = 8 ∧
  t.next_replace = ins.length % 8 ∧
  (∀ m p, ins[m]? = some p → ins.length ≤ m + 8 →
    (t.entries (m % 8)).valid = true ∧
    (t.entries (m % 8)).virtual_page = p.1 ∧
    (t.entries (m % 8)).physical_frame = p.2) ∧
  (∀ j, ins.length ≤ j → j < 8 → (t.entries j).valid = false)


/-- Nine distinct pages are inserted; the first one is looked up just before
the ninth insertion. -/
def nine_page_ops : List TLBOp :=
  [.insert 0x100 0x10, .insert 0x101 0x11, .insert 0x102 0x12, .insert 0x103 0x13,
   .insert 0x104 0x14, .insert 0x105 0x15, .insert 0x106 0x16, .insert 0x107 0x17,
   .lookup 0x100, .insert 0x108 0x18]


/-! ## Two-level page table (`two_level_page_table.c`) -/

/-- `l1_table[i]` is `none` for a `NULL` pointer and `some block` for a
pointer to an L2 block with contents `block`. -/
structure TwoLevelPageTable where
  l1_table : Nat → Option (Nat → PageTableEntry)
  l1_valid : Nat → Bool
  l1_size : Nat
  accesses : Nat
  hits : Nat
  faults : Nat

/-- The two function-local `static uint32_t next_frame` variables of
`translate_two_level_page_table`: `next_frame_l1` is the one declared in the
branch taken when the L1 slot is not valid, `next_frame_l2` the one declared
in the branch taken when the L2 entry is not valid. Being `static`, they
belong to the process and not to a table. -/
structure TwoLevelStatics where
  next_frame_l1 : Nat
  next_frame_l2 : Nat
deriving DecidableEq

/-- Both statics at their initialiser `0` (program start). -/
def statics_at_start : TwoLevelStatics :=
  { next_frame_l1 := 0, next_frame_l2 := 0 }

/-- `init_two_level_page_table`: `calloc` gives `NULL` pointers and `false`
flags; every field is assigned. -/
def init_two_level_page_table : TwoLevelPageTable :=
  { l1_size := L1_SIZE
    l1_table := fun _ => none
    l1_valid := fun _ => false
    accesses := 0
    hits := 0
    faults := 0 }

/-- What one call of `translate_two_level_page_table` leaves behind: the
returned address, `*fault`, the table and the statics. -/
structure TranslateResult where
  physical_addr : Nat
  fault : Bool
  pt : TwoLevelPageTable
  statics : TwoLevelStatics

/-- `translate_two_level_page_table`. The result is `none` when the call
dereferences a `NULL` L2 pointer (a slot flagged in `l1_valid` whose
`l1_table` pointer is `NULL`); `calloc` is taken to succeed. -/
def translate_two_level_page_table (pt : TwoLevelPageTable) (st : TwoLevelStatics)
    (virtual_addr : Nat) : Option TranslateResult :=
  let l1_index := get_l1_index virtual_addr
  let l2_index := get_l2_index virtual_addr
  let page_offset := get_page_offset virtual_addr
  let pt := { pt with accesses := pt.accesses + 1 }
  if !pt.l1_valid l1_index then
    let pt := { pt with faults := pt.faults + 1 }
    let entry : PageTableEntry :=
      { frame_number := st.next_frame_l1 % NUM_PHYSICAL_FRAMES
        valid := true
        referenced := true
        dirty := false }
    let block : Nat → PageTableEntry :=
      fun j => if j = l2_index then entry else zeroed_pte
    some
      { physical_addr := make_physical_addr entry.frame_number page_offset
        fault := true
        pt := { pt with
          l1_table := fun i => if i = l1_index then some block else pt.l1_table i
          l1_valid := fun i => if i = l1_index then true else pt.l1_valid i }
        statics := { st with next_frame_l1 := (st.next_frame_l1 + 1) % UINT32_MOD } }
  else
    match pt.l1_table l1_index with
    | none => none
    | some block =>
      if !(block l2_index).valid then
        let pt := { pt with faults := pt.faults + 1 }
        let entry : PageTableEntry :=
          { frame_number := st.next_frame_l2 % NUM_PHYSICAL_FRAMES
            valid := true
            referenced := true
            dirty := false }
        some
          { physical_addr := make_physical_addr entry.frame_number page_offset
            fault := true
            pt := { pt with
              l1_table := fun i =>
                if i = l1_index then
                  some (fun j => if j = l2_index then entry else block j)
                else pt.l1_table i }
            statics :=
              { st with next_frame_l2 := (st.next_frame_l2 + 1) % UINT32_MOD } }
      else
        let entry : PageTableEntry := { block l2_index with referenced := true }
        some
          { physical_addr := make_physical_addr entry.frame_number page_offset
            fault := false
            pt := { pt with
              hits := pt.hits + 1
              l1_table := fun i =>
                if i = l1_index then
                  some (fun j => if j = l2_index then entry else block j)
                else pt.l1_table i }
            statics := st }

/-- The result of feeding a trace of addresses to one table, first address
first (the loop of `test_two_level_page_table`): the `(physical_addr, fault)`
of every call, the final table and the final statics. -/
def run_two_level (pt : TwoLevelPageTable) (st : TwoLevelStatics) :
    List Nat → Option (List (Nat × Bool) × TwoLevelPageTable × TwoLevelStatics)
  | [] => some ([], pt, st)
  | a :: rest =>
    match translate_two_level_page_table pt st a with
    | none => none
    | some r =>
      match run_two_level r.pt r.statics rest with
      | none => none
      | some (outs, pt1, st1) => some ((r.physical_addr, r.fault) :: outs, pt1, st1)

/-- The trace `0x0000, 0x1000, ..., 0x100000`: pages `0 .. 256`, the first 257
pages of the address space; all of them lie in L1 slot 0. -/
def first_257_pages : List Nat :=
  (List.range 257).map (fun i => i * 4096)


/-- The frame stored for page `(i, j)`, when the L1 slot `i` is valid, its L2
block exists and the entry `j` of the block is valid. -/
def mapped_frame (pt : TwoLevelPageTable) (i j : Nat) : Option Nat :=
  if pt.l1_valid i then
    match pt.l1_table i with
    | some block => if (block j).valid then some (block j).frame_number else none
    | none => none
  else none

/-- No slot flagged valid holds a `NULL` pointer. -/
def TwoLevelPageTable.wf (pt : TwoLevelPageTable) : Prop :=
  ∀ i, pt.l1_valid i = true → (pt.l1_table i).isSome = true

/-- State of a table that has translated the addresses `hist` since
`init_two_level_page_table`: no dangling slot, and the pages with a valid
entry are exactly the pages of `hist`. -/
def history_inv (hist : List Nat) (pt : TwoLevelPageTable) : Prop :=
  pt.wf ∧
  ∀ i j, (mapped_frame pt i j).isSome = true ↔
    ∃ b ∈ hist, get_l1_index b = i ∧ get_l2_index b = j


/-! ## Flat page table (`simple_page_table.c`) -/

def VIRTUAL_ADDRESS_SPACE_SIZE : Nat := 1 <<< 32
def PAGE_SIZE : Nat := 4096
def NUM_PAGES : Nat := VIRTUAL_ADDRESS_SPACE_SIZE / PAGE_SIZE

structure SimplePageTable where
  entries : Nat → PageTableEntry
  size : Nat
  accesses : Nat
  hits : Nat
  faults : Nat

/-- `init_simple_page_table`: `size` is the `uint32_t` holding `NUM_PAGES`;
`calloc` (taken to succeed) zeroes the entries; every field is assigned. -/
def init_simple_page_table : SimplePageTable :=
  { size := NUM_PAGES % UINT32_MOD
    entries := fun _ => zeroed_pte
    accesses := 0
    hits := 0
    faults := 0 }

/-- What one call of `translate_simple_page_table` leaves behind: the returned
address, `*fault`, the table, and the function-local
`static uint32_t next_frame` of `translate_simple_page_table`. -/
structure SimpleResult where
  physical_addr : Nat
  fault : Bool
  pt : SimplePageTable
  next_frame : Nat

/-- `translate_simple_page_table`; `next_frame` is the value of its static
counter at the call. -/
def translate_simple_page_table (pt : SimplePageTable) (next_frame : Nat)
    (virtual_addr : Nat) : SimpleResult :=
  let page_number := get_page_number virtual_addr
  let page_offset := get_page_offset virtual_addr
  let pt := { pt with accesses := pt.accesses + 1 }
  if page_number ≥ pt.size then
    { physical_addr := 0
      fault := true
      pt := { pt with faults := pt.faults + 1 }
      next_frame := next_frame }
  else if !(pt.entries page_number).valid then
    let entry : PageTableEntry :=
      { frame_number := next_frame % NUM_PHYSICAL_FRAMES
        valid := true
        referenced := true
        dirty := false }
    { physical_addr := make_physical_addr entry.frame_number page_offset
      fault := true
      pt := { pt with
        faults := pt.faults + 1
        entries := fun i => if i = page_number then entry else pt.entries i }
      next_frame := (next_frame + 1) % UINT32_MOD }
  else
    let entry : PageTableEntry := { pt.entries page_number with referenced := true }
    { physical_addr := make_physical_addr entry.frame_number page_offset
      fault := false
      pt := { pt with
        hits := pt.hits + 1
        entries := fun i => if i = page_number then entry else pt.entries i }
      next_frame := next_frame }

/-- The result of feeding a trace of addresses to one flat table, first
address first (the loop of `test_simple_page_table`): the
`(physical_addr, fault)` of every call, the final table and the final value
of the static counter. -/
def run_simple (pt : SimplePageTable) (next_frame : Nat) :
    List Nat → List (Nat × Bool) × SimplePageTable × Nat
  | [] => ([], pt, next_frame)
  | a :: rest =>
    let r := translate_simple_page_table pt next_frame a
    let x := run_simple r.pt r.next_frame rest
    ((r.physical_addr, r.fault) :: x.1, x.2.1, x.2.2)

/-! ## MMU (`mmu.c`) -/

def TLB_HIT_TIME : Nat := 1
def PAGE_TABLE_ACCESS_TIME : Nat := 10
def PAGE_FAULT_TIME : Nat := 1000

structure MMU where
  tlb : TLB
  page_table : TwoLevelPageTable
  physical_memory : Nat → Nat
  frame_allocated : Nat → Bool
  next_free_frame : Nat
  total_cycles : Nat

/-- `init_mmu`: both `calloc`s are taken to succeed. -/
def init_mmu : MMU :=
  { tlb := init_tlb
    page_table := init_two_level_page_table
    physical_memory := fun _ => 0
    frame_allocated := fun _ => false
    next_free_frame := 0
    total_cycles := 0 }

/-- What one call of `mmu_translate` leaves behind: the returned address, the
MMU, and the statics of `translate_two_level_page_table`. -/
structure MMUResult where
  physical_addr : Nat
  mmu : MMU
  statics : TwoLevelStatics

/-- `mmu_translate`; `none` when the call has no defined result: the
page-table walk dereferences a `NULL` block (see
`translate_two_level_page_table`), or `tlb_insert` is reached with the cursor
outside the array (see `tlb_insert_checked`). -/
def mmu_translate (mmu : MMU) (st : TwoLevelStatics) (virtual_addr : Nat) :
    Option MMUResult :=
  let virtual_page := get_page_number virtual_addr
  let page_offset := get_page_offset virtual_addr
  match tlb_lookup mmu.tlb virtual_page with
  | (some physical_frame, tlb) =>
    some
      { physical_addr := make_physical_addr physical_frame page_offset
        mmu := { mmu with tlb := tlb, total_cycles := mmu.total_cycles + TLB_HIT_TIME }
        statics := st }
  | (none, tlb) =>
    match translate_two_level_page_table mmu.page_table st virtual_addr with
    | none => none
    | some r =>
      if r.fault then
        let physical_frame := get_page_number r.physical_addr
        match tlb_insert_checked tlb virtual_page physical_frame with
        | none => none
        | some tlb1 =>
          some
            { physical_addr := r.physical_addr
              mmu := { mmu with
                tlb := tlb1
                page_table := r.pt
                total_cycles := mmu.total_cycles + PAGE_FAULT_TIME }
              statics := r.statics }
      else
        let physical_frame := get_page_number r.physical_addr
        match tlb_insert_checked tlb virtual_page physical_frame with
        | none => none
        | some tlb1 =>
          some
            { physical_addr := r.physical_addr
              mmu := { mmu with
                tlb := tlb1
                page_table := r.pt
                total_cycles := mmu.total_cycles + PAGE_TABLE_ACCESS_TIME }
              statics := r.statics }

/-- The `for` loop of `run_simulation`: `mmu_translate` on every address in
turn; the returned addresses are collected (the C loop drops them). -/
def mmu_run (mmu : MMU) (st : TwoLevelStatics) :
    List Nat → Option (List Nat × MMU × TwoLevelStatics)
  | [] => some ([], mmu, st)
  | a :: rest =>
    match mmu_translate mmu st a with
    | none => none
    | some r =>
      match mmu_run r.mmu r.statics rest with
      | none => none
      | some (outs, mmu1, st1) => some (r.physical_addr :: outs, mmu1, st1)

/-- One call made by a client of the MMU. -/
inductive MMUOp where
  | translate (virtual_addr : Nat)
  | invalidate_tlb

/-- The MMU after a sequence of `mmu_translate` and
`tlb_invalidate_all (&mmu->tlb)` calls, first call first. -/
def mmu_ops (mmu : MMU) (st : TwoLevelStatics) :
    List MMUOp → Option (MMU × TwoLevelStatics)
  | [] => some (mmu, st)
  | .translate a :: rest =>
    match mmu_translate mmu st a with
    | none => none
    | some r => mmu_ops r.mmu r.statics rest
  | .invalidate_tlb :: rest =>
    mmu_ops { mmu with tlb := tlb_invalidate_all mmu.tlb } st rest

/-! ## Statistics (`run_simulation` of `utils.c`) -/

/-- Width of `uint64_t`. -/
def UINT64_MOD : Nat := 2 ^ 64

/-- The `uint64_t` subtraction `a - b`. -/
def uint64_sub (a b : Nat) : Nat :=
  (a % UINT64_MOD + UINT64_MOD - b % UINT64_MOD) % UINT64_MOD

/-- The `double` division `x / y` with rounding left out: the exact quotient,
and `none` for the non-finite result (NaN or an infinity) of a division by
zero. -/
def double_div (x y : ℚ) : Option ℚ :=
  if y = 0 then none else some (x / y)

/-- `MemoryStats`; the three `double` fields are exact rationals, `none`
being a non-finite `double`. -/
structure MemoryStats where
  total_accesses : Nat
  tlb_hits : Nat
  tlb_misses : Nat
  page_hits : Nat
  page_faults : Nat
  total_cycles : Nat
  tlb_hit_rate : Option ℚ
  page_hit_rate : Option ℚ
  avg_access_time : Option ℚ

/-- The statistics part of `run_simulation`, from the MMU before the loop,
the MMU after it and `count`. -/
def compute_stats (start : MMU) (mmu : MMU) (count : Nat) : MemoryStats :=
  let start_cycles := start.total_cycles
  let start_tlb_hits := start.tlb.hits
  let start_page_faults := start.page_table.faults
  let total_accesses := count
  let tlb_hits := uint64_sub mmu.tlb.hits start_tlb_hits
  let tlb_misses := uint64_sub total_accesses tlb_hits
  let page_faults := uint64_sub mmu.page_table.faults start_page_faults
  let page_hits := uint64_sub total_accesses page_faults
  let total_cycles := uint64_sub mmu.total_cycles start_cycles
  { total_accesses := total_accesses
    tlb_hits := tlb_hits
    tlb_misses := tlb_misses
    page_hits := page_hits
    page_faults := page_faults
    total_cycles := total_cycles
    tlb_hit_rate := (double_div tlb_hits total_accesses).map (fun x => x * 100)
    page_hit_rate := (double_div page_hits total_accesses).map (fun x => x * 100)
    avg_access_time := double_div total_cycles total_accesses }

/-- `run_simulation` on the first `count = addresses.length` addresses:
the statistics written to `*stats`, the MMU and the statics afterwards. -/
def run_simulation (mmu : MMU) (st : TwoLevelStatics) (addresses : List Nat) :
    Option (MemoryStats × MMU × TwoLevelStatics) :=
  match mmu_run mmu st addresses with
  | none => none
  | some (_, mmu1, st1) => some (compute_stats mmu mmu1 addresses.length, mmu1, st1)

/-- A flat table configured with 16 entries only (pages 0 to 15). -/
def small_simple_page_table : SimplePageTable :=
  { init_simple_page_table with size := 16 }

/-- State of an MMU reached from `init_mmu`: a TLB of capacity 8 with its
cursor inside the array, and a page table without dangling slots. -/
def mmu_inv (m : MMU) : Prop :=
  m.tlb.size = 8 ∧ m.tlb.next_replace < 8 ∧ m.page_table.wf

/-! ## Invariants of reachable tables and MMUs -/

/-- Every valid entry of every L2 block holds a frame number below
`NUM_PHYSICAL_FRAMES`. -/
def frames_bounded (pt : TwoLevelPageTable) : Prop :=
  ∀ i block j, pt.l1_table i = some block → (block j).valid = true →
    (block j).frame_number < NUM_PHYSICAL_FRAMES

/-- The sequence of `mmu_translate` and `tlb_invalidate_all (&mmu->tlb)` calls
`ops` on an MMU, first call first: the addresses returned by the
`mmu_translate` calls, the MMU and the statics afterwards. -/
def mmu_trace (mmu : MMU) (st : TwoLevelStatics) :
    List MMUOp → Option (List Nat × MMU × TwoLevelStatics)
  | [] => some ([], mmu, st)
  | .translate a :: rest =>
    match mmu_translate mmu st a with
    | none => none
    | some r =>
      match mmu_trace r.mmu r.statics rest with
      | none => none
      | some (outs, mmu1, st1) => some (r.physical_addr :: outs, mmu1, st1)
  | .invalidate_tlb :: rest =>
    mmu_trace { mmu with tlb := tlb_invalidate_all mmu.tlb } st rest

/-- The addresses translated by a sequence of MMU calls, in order. -/
def translated_addresses : List MMUOp → List Nat
  | [] => []
  | .translate a :: rest => a :: translated_addresses rest
  | .invalidate_tlb :: rest => translated_addresses rest

/-- TLB coherence: capacity 8 with the cursor inside; no two valid entries
with the same tag; every valid entry carries a 20-bit page number whose
page-table entry (L1 index `vp / 1024`, L2 index `vp mod 1024`) is valid with
the cached frame; the page table has no dangling slot and only frames below
256. -/
def tlb_coherent (m : MMU) : Prop :=
  m.tlb.size = 8 ∧
  m.tlb.next_replace < 8 ∧
  m.page_table.wf ∧
  frames_bounded m.page_table ∧
  (∀ k1 k2, k1 < 8 → k2 < 8 →
    (m.tlb.entries k1).valid = true → (m.tlb.entries k2).valid = true →
    (m.tlb.entries k1).virtual_page = (m.tlb.entries k2).virtual_page → k1 = k2) ∧
  ∀ k, k < 8 → (m.tlb.entries k).valid = true →
    (m.tlb.entries k).virtual_page < 2 ^ 20 ∧
    mapped_frame m.page_table ((m.tlb.entries k).virtual_page / 1024)
        ((m.tlb.entries k).virtual_page % 1024)
      = some (m.tlb.entries k).physical_frame

/-- An MMU and a bare two-level table that have seen the same addresses: the
MMU is coherent, the bare table has no dangling slot and only frames below
256, and the page table of the MMU has the same flagged slots and the same
page-to-frame mapping as the bare table. -/
def same_mapping (m : MMU) (pt : TwoLevelPageTable) : Prop :=
  tlb_coherent m ∧
  pt.wf ∧
  frames_bounded pt ∧
  (∀ i, m.page_table.l1_valid i = pt.l1_valid i) ∧
  ∀ i j, mapped_frame m.page_table i j = mapped_frame pt i j

/-- The counter identities of an MMU. -/
def accounting (m : MMU) : Prop :=
  m.tlb.accesses = m.tlb.hits + m.tlb.misses ∧
  m.page_table.accesses = m.tlb.misses ∧
  m.tlb.misses = m.page_table.hits + m.page_table.faults ∧
  m.total_cycles
    = TLB_HIT_TIME * m.tlb.hits + PAGE_TABLE_ACCESS_TIME * m.page_table.hits
      + PAGE_FAULT_TIME * m.page_table.faults

/-! ## Arithmetic form of the decoder -/

theorem get_page_number_eq_div (a : Nat) : get_page_number a = a / 4096 := by
  simp [get_page_number, PAGE_OFFSET_BITS, Nat.shiftRight_eq_div_pow]

theorem get_page_offset_eq_mod (a : Nat) : get_page_offset a = a % 4096 := by
  have h : PAGE_OFFSET_MASK = 2 ^ 12 - 1 := by decide
  rw [get_page_offset, h, Nat.and_pow_two_sub_one_eq_mod]

theorem get_l1_index_eq (a : Nat) : get_l1_index a = a / 4194304 % 1024 := by
  have h : L1_INDEX_MASK = 2 ^ 10 - 1 := by decide
  rw [get_l1_index, h, Nat.and_pow_two_sub_one_eq_mod]
  simp [PAGE_OFFSET_BITS, L2_BITS, Nat.shiftRight_eq_div_pow]

theorem get_l2_index_eq (a : Nat) : get_l2_index a = a / 4096 % 1024 := by
  have h : L2_INDEX_MASK = 2 ^ 10 - 1 := by decide
  rw [get_l2_index, h, Nat.and_pow_two_sub_one_eq_mod]
  simp [PAGE_OFFSET_BITS, Nat.shiftRight_eq_div_pow]

theorem make_physical_addr_eq (f off : Nat) (hf : f < 2 ^ 20) (ho : off < 4096) :
    make_physical_addr f off = f * 4096 + off := by
  have h1 : (f <<< PAGE_OFFSET_BITS) % UINT32_MOD = 2 ^ 12 * f := by
    have : f <<< PAGE_OFFSET_BITS = 2 ^ 12 * f := by
      simp [PAGE_OFFSET_BITS, Nat.shiftLeft_eq, Nat.mul_comm]
    rw [this, UINT32_MOD]
    apply Nat.mod_eq_of_lt
    omega
  rw [make_physical_addr, h1, ← Nat.mul_add_lt_is_or (by simpa using ho)]
  omega

/-! ## C1, C2: decoder -/

/-- C1. For every 32-bit address `a`: `get_page_offset a` is `a mod 4096`
and `a & 0xFFF`, `get_page_number a` is `a >> 12`, and
`(get_page_number a << 12) | get_page_offset a` gives back `a`. -/
theorem decoder_round_trip (a : Nat) (ha : a < 2 ^ 32) :
    get_page_offset a = a % 4096 ∧
    get_page_offset a = a &&& 0xFFF ∧
    get_page_number a = a >>> 12 ∧
    ((get_page_number a <<< 12) % 2 ^ 32) ||| get_page_offset a = a ∧
    (get_page_number a <<< 12) ||| get_page_offset a = a := by
  have hpn : get_page_number a < 2 ^ 20 := by
    rw [get_page_number_eq_div]; omega
  have hoff : get_page_offset a < 4096 := by
    rw [get_page_offset_eq_mod]; omega
  have hmk := make_physical_addr_eq _ _ hpn hoff
  have hsum : get_page_number a * 4096 + get_page_offset a = a := by
    rw [get_page_number_eq_div, get_page_offset_eq_mod]; omega
  have hlt : get_page_number a <<< 12 < 2 ^ 32 := by
    rw [Nat.shiftLeft_eq]; omega
  have h32 : ((get_page_number a <<< 12) % 2 ^ 32) ||| get_page_offset a
      = get_page_number a * 4096 + get_page_offset a := hmk
  refine ⟨get_page_offset_eq_mod a, rfl, rfl, h32.trans hsum, ?_⟩
  rw [← Nat.mod_eq_of_lt hlt]
  exact h32.trans hsum

theorem decoder_round_trip_witness :
    0x12345678 < 2 ^ 32 ∧
    get_page_offset 0x12345678 = 0x12345678 % 4096 ∧
    get_page_offset 0x12345678 = 0x12345678 &&& 0xFFF ∧
    get_page_number 0x12345678 = 0x12345678 >>> 12 ∧
    ((get_page_number 0x12345678 <<< 12) % 2 ^ 32) ||| get_page_offset 0x12345678
      = 0x12345678 ∧
    (get_page_number 0x12345678 <<< 12) ||| get_page_offset 0x12345678 = 0x12345678 :=
  ⟨by decide, decoder_round_trip 0x12345678 (by decide)⟩


/-- C2. For every 32-bit address `a`: `get_l1_index a = (a >> 22) & 0x3FF` and
`get_l2_index a = (a >> 12) & 0x3FF` are below 1024, `get_page_number a` is
below `2 ^ 20` and equals `get_l1_index a * 1024 + get_l2_index a`; hence two
32-bit addresses have the same index pair iff they have the same page number. -/
theorem index_decomposition (a : Nat) (ha : a < 2 ^ 32) :
    get_l1_index a = (a >>> 22) &&& 0x3FF ∧
    get_l2_index a = (a >>> 12) &&& 0x3FF ∧
    get_l1_index a < 1024 ∧
    get_l2_index a < 1024 ∧
    get_page_number a < 2 ^ 20 ∧
    get_page_number a = get_l1_index a * 1024 + get_l2_index a ∧
    ∀ b, b < 2 ^ 32 →
      ((get_l1_index a = get_l1_index b ∧ get_l2_index a = get_l2_index b) ↔
        get_page_number a = get_page_number b) := by
  refine ⟨rfl, rfl, ?_, ?_, ?_, ?_, ?_⟩
  · rw [get_l1_index_eq]; omega
  · rw [get_l2_index_eq]; omega
  · rw [get_page_number_eq_div]; omega
  · rw [get_page_number_eq_div, get_l1_index_eq, get_l2_index_eq]; omega
  · intro b hb
    simp only [get_page_number_eq_div, get_l1_index_eq, get_l2_index_eq]
    omega

theorem index_decomposition_witness :
    0x87654321 < 2 ^ 32 ∧
    get_l1_index 0x87654321 = (0x87654321 >>> 22) &&& 0x3FF ∧
    get_l2_index 0x87654321 = (0x87654321 >>> 12) &&& 0x3FF ∧
    get_l1_index 0x87654321 < 1024 ∧
    get_l2_index 0x87654321 < 1024 ∧
    get_page_number 0x87654321 < 2 ^ 20 ∧
    get_page_number 0x87654321
      = get_l1_index 0x87654321 * 1024 + get_l2_index 0x87654321 ∧
    ∀ b, b < 2 ^ 32 →
      ((get_l1_index 0x87654321 = get_l1_index b ∧
          get_l2_index 0x87654321 = get_l2_index b) ↔
        get_page_number 0x87654321 = get_page_number b) :=
  ⟨by decide, index_decomposition 0x87654321 (by decide)⟩


/-! ## C3, C4, C6: single TLB operations -/

theorem tlb_lookup_loop_some (e : Nat → TLBEntry) (vp : Nat) :
    ∀ n i k, tlb_lookup_loop e vp i n = some k →
      i ≤ k ∧ k < i + n ∧ (e k).valid = true ∧ (e k).virtual_page = vp ∧
      ∀ j, i ≤ j → j < k → ¬((e j).valid = true ∧ (e j).virtual_page = vp) := by
  intro n
  induction n with
  | zero => intro i k h; simp [tlb_lookup_loop] at h
  | succ n ih =>
    intro i k h
    rw [tlb_lookup_loop] at h
    by_cases hc : ((e i).valid && (e i).virtual_page == vp) = true
    · rw [if_pos hc] at h
      cases h
      simp only [Bool.and_eq_true, beq_iff_eq] at hc
      exact ⟨le_refl _, by omega, hc.1, hc.2, fun j h1 h2 => by omega⟩
    · rw [if_neg hc] at h
      obtain ⟨h1, h2, h3, h4, h5⟩ := ih (i + 1) k h
      refine ⟨by omega, by omega, h3, h4, ?_⟩
      intro j hj1 hj2
      by_cases hji : j = i
      · subst hji
        simpa only [Bool.and_eq_true, beq_iff_eq] using hc
      · exact h5 j (by omega) hj2

theorem tlb_lookup_loop_none (e : Nat → TLBEntry) (vp : Nat) :
    ∀ n i, tlb_lookup_loop e vp i n = none →
      ∀ j, i ≤ j → j < i + n → ¬((e j).valid = true ∧ (e j).virtual_page = vp) := by
  intro n
  induction n with
  | zero => intro i _ j h1 h2; omega
  | succ n ih =>
    intro i h j hj1 hj2
    rw [tlb_lookup_loop] at h
    by_cases hc : ((e i).valid && (e i).virtual_page == vp) = true
    · rw [if_pos hc] at h; cases h
    · rw [if_neg hc] at h
      by_cases hji : j = i
      · subst hji
        simpa only [Bool.and_eq_true, beq_iff_eq] using hc
      · exact ih (i + 1) h j (by omega) (by omega)

/-- What `tlb_lookup` does when the scan stops at index `i`. -/
theorem tlb_lookup_of_loop_some (t : TLB) (vp i : Nat)
    (h : tlb_lookup_loop t.entries vp 0 t.size = some i) :
    tlb_lookup t vp =
      (some (t.entries i).physical_frame,
        { t with
          accesses := t.accesses + 1
          hits := t.hits + 1
          entries := fun j => if j = i then { t.entries i with referenced := true }
            else t.entries j }) := by
  simp only [tlb_lookup, h]

/-- What `tlb_lookup` does when the scan finds nothing. -/
theorem tlb_lookup_of_loop_none (t : TLB) (vp : Nat)
    (h : tlb_lookup_loop t.entries vp 0 t.size = none) :
    tlb_lookup t vp =
      (none, { t with accesses := t.accesses + 1, misses := t.misses + 1 }) := by
  simp only [tlb_lookup, h]

/-- Frame conditions of `tlb_lookup`, whatever the outcome. -/
theorem tlb_lookup_frame (t : TLB) (vp : Nat) :
    (tlb_lookup t vp).2.accesses = t.accesses + 1 ∧
    (tlb_lookup t vp).2.next_replace = t.next_replace ∧
    (tlb_lookup t vp).2.size = t.size ∧
    ∀ j, ((tlb_lookup t vp).2.entries j).valid = (t.entries j).valid ∧
      ((tlb_lookup t vp).2.entries j).virtual_page = (t.entries j).virtual_page ∧
      ((tlb_lookup t vp).2.entries j).physical_frame = (t.entries j).physical_frame ∧
      ((tlb_lookup t vp).2.entries j).dirty = (t.entries j).dirty := by
  cases h : tlb_lookup_loop t.entries vp 0 t.size with
  | none =>
    rw [tlb_lookup_of_loop_none t vp h]
    exact ⟨rfl, rfl, rfl, fun j => ⟨rfl, rfl, rfl, rfl⟩⟩
  | some i =>
    rw [tlb_lookup_of_loop_some t vp i h]
    refine ⟨rfl, rfl, rfl, fun j => ?_⟩
    by_cases hj : j = i
    · subst hj; simp
    · simp [hj]

/-- The outcome of `tlb_lookup` in terms of the entries. -/
theorem tlb_lookup_result (t : TLB) (vp : Nat) :
    (∀ f, (tlb_lookup t vp).1 = some f →
      ∃ i, i < t.size ∧ (t.entries i).valid = true ∧ (t.entries i).virtual_page = vp ∧
        (∀ j, j < i → ¬((t.entries j).valid = true ∧ (t.entries j).virtual_page = vp)) ∧
        f = (t.entries i).physical_frame ∧
        ((tlb_lookup t vp).2.entries i).referenced = true ∧
        (tlb_lookup t vp).2.hits = t.hits + 1 ∧
        (tlb_lookup t vp).2.misses = t.misses) ∧
    ((tlb_lookup t vp).1 = none →
      (∀ j, j < t.size → ¬((t.entries j).valid = true ∧ (t.entries j).virtual_page = vp)) ∧
        (tlb_lookup t vp).2.misses = t.misses + 1 ∧
        (tlb_lookup t vp).2.hits = t.hits ∧
        (tlb_lookup t vp).2.entries = t.entries) := by
  cases h : tlb_lookup_loop t.entries vp 0 t.size with
  | none =>
    rw [tlb_lookup_of_loop_none t vp h]
    refine ⟨fun f hf => (by cases hf), fun _ => ⟨?_, rfl, rfl, rfl⟩⟩
    intro j hj
    exact tlb_lookup_loop_none t.entries vp t.size 0 h j (Nat.zero_le _) (by omega)
  | some i =>
    rw [tlb_lookup_of_loop_some t vp i h]
    obtain ⟨_, h2, h3, h4, h5⟩ := tlb_lookup_loop_some t.entries vp t.size 0 i h
    refine ⟨fun f hf => ?_, fun hn => (by cases hn)⟩
    simp only [Option.some.injEq] at hf
    refine ⟨i, by omega, h3, h4, fun j hj => h5 j (Nat.zero_le _) hj, hf.symm, ?_, rfl, rfl⟩
    simp

/-- C3. `tlb_lookup` returns true iff some entry below `size` is valid with
tag `vp`; on a hit the frame written out is that of the lowest-indexed such
entry, `hits` grows by one (`misses` stays) and that entry has `referenced`
set; on a miss `misses` grows by one (`hits` and the entries stay); in both
cases `accesses` grows by exactly one and no entry's `valid`, `virtual_page`,
`physical_frame` or `dirty`, nor `next_replace` or `size`, changes. -/
theorem tlb_lookup_contract (t : TLB) (vp : Nat) :
    ((tlb_lookup t vp).1.isSome = true ↔
      ∃ i, i < t.size ∧ (t.entries i).valid = true ∧ (t.entries i).virtual_page = vp) ∧
    (∀ f, (tlb_lookup t vp).1 = some f →
      ∃ i, i < t.size ∧ (t.entries i).valid = true ∧ (t.entries i).virtual_page = vp ∧
        (∀ j, j < i → ¬((t.entries j).valid = true ∧ (t.entries j).virtual_page = vp)) ∧
        f = (t.entries i).physical_frame ∧
        ((tlb_lookup t vp).2.entries i).referenced = true ∧
        (tlb_lookup t vp).2.hits = t.hits + 1 ∧
        (tlb_lookup t vp).2.misses = t.misses) ∧
    ((tlb_lookup t vp).1 = none →
      (tlb_lookup t vp).2.misses = t.misses + 1 ∧
        (tlb_lookup t vp).2.hits = t.hits ∧
        (tlb_lookup t vp).2.entries = t.entries) ∧
    (tlb_lookup t vp).2.accesses = t.accesses + 1 ∧
    (tlb_lookup t vp).2.next_replace = t.next_replace ∧
    (tlb_lookup t vp).2.size = t.size ∧
    ∀ j, ((tlb_lookup t vp).2.entries j).valid = (t.entries j).valid ∧
      ((tlb_lookup t vp).2.entries j).virtual_page = (t.entries j).virtual_page ∧
      ((tlb_lookup t vp).2.entries j).physical_frame = (t.entries j).physical_frame ∧
      ((tlb_lookup t vp).2.entries j).dirty = (t.entries j).dirty := by
  obtain ⟨hs, hn⟩ := tlb_lookup_result t vp
  refine ⟨⟨fun h => ?_, fun h => ?_⟩, hs, fun h => (hn h).2, tlb_lookup_frame t vp⟩
  · obtain ⟨f, hf⟩ := Option.isSome_iff_exists.mp h
    obtain ⟨i, h1, h2, h3, _⟩ := hs f hf
    exact ⟨i, h1, h2, h3⟩
  · obtain ⟨i, h1, h2, h3⟩ := h
    cases hr : (tlb_lookup t vp).1 with
    | some f => rfl
    | none => exact absurd ⟨h2, h3⟩ ((hn hr).1 i h1)

/-- What `tlb_insert` writes, given a cursor inside the array. -/
theorem tlb_insert_effect (t : TLB) (vp f : Nat)
    (hcur : t.next_replace < t.size) (hsize : t.size < 2 ^ 32) :
    (tlb_insert t vp f).entries t.next_replace =
      { valid := true, virtual_page := vp, physical_frame := f, referenced := true,
        dirty := false } ∧
    (∀ j, j ≠ t.next_replace → (tlb_insert t vp f).entries j = t.entries j) ∧
    (tlb_insert t vp f).accesses = t.accesses ∧
    (tlb_insert t vp f).hits = t.hits ∧
    (tlb_insert t vp f).misses = t.misses ∧
    (tlb_insert t vp f).size = t.size ∧
    (tlb_insert t vp f).next_replace = (t.next_replace + 1) % t.size ∧
    (tlb_insert t vp f).next_replace < t.size := by
  have hmod : (t.next_replace + 1) % UINT32_MOD = t.next_replace + 1 := by
    apply Nat.mod_eq_of_lt
    simp only [UINT32_MOD]
    omega
  refine ⟨by simp [tlb_insert], fun j hj => by simp [tlb_insert, hj], rfl, rfl, rfl, rfl,
    ?_, ?_⟩
  · simp only [tlb_insert, hmod]
  · simp only [tlb_insert, hmod]
    exact Nat.mod_lt _ (by omega)

/-- C4. With `next_replace < size` (and `size` a `uint32_t`), `tlb_insert`
overwrites the entry at `next_replace` with `(valid, vp, f, referenced, not
dirty)`, leaves every other entry and the three counters and `size` unchanged
and moves `next_replace` to `(next_replace + 1) mod size`; the previous
contents of the overwritten entry play no part. -/
theorem tlb_insert_contract (t : TLB) (vp f : Nat)
    (hcur : t.next_replace < t.size) (hsize : t.size < 2 ^ 32) :
    (tlb_insert t vp f).entries t.next_replace =
      { valid := true, virtual_page := vp, physical_frame := f, referenced := true,
        dirty := false } ∧
    (∀ j, j ≠ t.next_replace → (tlb_insert t vp f).entries j = t.entries j) ∧
    (tlb_insert t vp f).accesses = t.accesses ∧
    (tlb_insert t vp f).hits = t.hits ∧
    (tlb_insert t vp f).misses = t.misses ∧
    (tlb_insert t vp f).size = t.size ∧
    (tlb_insert t vp f).next_replace = (t.next_replace + 1) % t.size ∧
    (tlb_insert t vp f).next_replace < t.size :=
  tlb_insert_effect t vp f hcur hsize

theorem tlb_insert_contract_witness :
    init_tlb.next_replace < init_tlb.size ∧ init_tlb.size < 2 ^ 32 ∧
    (tlb_insert init_tlb 0x123 0x45).entries init_tlb.next_replace =
      { valid := true, virtual_page := 0x123, physical_frame := 0x45, referenced := true,
        dirty := false } ∧
    (∀ j, j ≠ init_tlb.next_replace →
      (tlb_insert init_tlb 0x123 0x45).entries j = init_tlb.entries j) ∧
    (tlb_insert init_tlb 0x123 0x45).accesses = init_tlb.accesses ∧
    (tlb_insert init_tlb 0x123 0x45).hits = init_tlb.hits ∧
    (tlb_insert init_tlb 0x123 0x45).misses = init_tlb.misses ∧
    (tlb_insert init_tlb 0x123 0x45).size = init_tlb.size ∧
    (tlb_insert init_tlb 0x123 0x45).next_replace
      = (init_tlb.next_replace + 1) % init_tlb.size ∧
    (tlb_insert init_tlb 0x123 0x45).next_replace < init_tlb.size :=
  ⟨by decide, by decide,
    tlb_insert_contract init_tlb 0x123 0x45 (by decide) (by decide)⟩


theorem tlb_invalidate_loop_apply (n : Nat) :
    ∀ (e : Nat → TLBEntry) (i j : Nat),
      tlb_invalidate_loop e i n j =
        if i ≤ j ∧ j < i + n then { e j with valid := false } else e j := by
  induction n with
  | zero =>
    intro e i j
    have : ¬(i ≤ j ∧ j < i + 0) := by omega
    rw [tlb_invalidate_loop, if_neg this]
  | succ n ih =>
    intro e i j
    rw [tlb_invalidate_loop, ih]
    by_cases hji : j = i
    · subst hji
      have h1 : ¬(j + 1 ≤ j ∧ j < j + 1 + n) := by omega
      have h2 : j ≤ j ∧ j < j + (n + 1) := by omega
      simp [h1, h2]
    · by_cases hr : i + 1 ≤ j ∧ j < i + 1 + n
      · have h2 : i ≤ j ∧ j < i + (n + 1) := by omega
        simp [hr, h2, hji]
      · have h2 : ¬(i ≤ j ∧ j < i + (n + 1)) := by omega
        simp [hr, h2, hji]

/-- C6. After `tlb_invalidate_all` every entry below `size` has
`valid = false`; every entry keeps its `virtual_page`, `physical_frame`,
`referenced` and `dirty`; nothing at or beyond `size` is written; the counters,
`next_replace` and `size` are unchanged; so the next `tlb_lookup` of any
virtual page misses. -/
theorem tlb_invalidate_all_contract (t : TLB) :
    (∀ i, i < t.size → ((tlb_invalidate_all t).entries i).valid = false) ∧
    (∀ i, ((tlb_invalidate_all t).entries i).virtual_page = (t.entries i).virtual_page ∧
      ((tlb_invalidate_all t).entries i).physical_frame = (t.entries i).physical_frame ∧
      ((tlb_invalidate_all t).entries i).referenced = (t.entries i).referenced ∧
      ((tlb_invalidate_all t).entries i).dirty = (t.entries i).dirty) ∧
    (∀ i, t.size ≤ i → (tlb_invalidate_all t).entries i = t.entries i) ∧
    (tlb_invalidate_all t).accesses = t.accesses ∧
    (tlb_invalidate_all t).hits = t.hits ∧
    (tlb_invalidate_all t).misses = t.misses ∧
    (tlb_invalidate_all t).next_replace = t.next_replace ∧
    (tlb_invalidate_all t).size = t.size ∧
    ∀ vp, (tlb_lookup (tlb_invalidate_all t) vp).1 = none ∧
      (tlb_lookup (tlb_invalidate_all t) vp).2.misses = t.misses + 1 := by
  have key : ∀ i, (tlb_invalidate_all t).entries i =
      if 0 ≤ i ∧ i < 0 + t.size then { t.entries i with valid := false }
      else t.entries i :=
    fun i => tlb_invalidate_loop_apply t.size t.entries 0 i
  have hval : ∀ i, i < t.size → ((tlb_invalidate_all t).entries i).valid = false := by
    intro i hi
    have h : 0 ≤ i ∧ i < 0 + t.size := by omega
    rw [key, if_pos h]
  refine ⟨hval, ?_, ?_, rfl, rfl, rfl, rfl, rfl, ?_⟩
  · intro i
    by_cases h : 0 ≤ i ∧ i < 0 + t.size
    · rw [key, if_pos h]
      exact ⟨rfl, rfl, rfl, rfl⟩
    · rw [key, if_neg h]
      exact ⟨rfl, rfl, rfl, rfl⟩
  · intro i hi
    have h : ¬(0 ≤ i ∧ i < 0 + t.size) := by omega
    rw [key, if_neg h]
  · intro vp
    cases hr : (tlb_lookup (tlb_invalidate_all t) vp).1 with
    | none =>
      exact ⟨rfl, ((tlb_lookup_result (tlb_invalidate_all t) vp).2 hr).2.1⟩
    | some f =>
      obtain ⟨i, h1, h2, _⟩ := (tlb_lookup_result (tlb_invalidate_all t) vp).1 f hr
      have h3 := hval i h1
      rw [h2] at h3
      cases h3

/-! ## C5: round-robin eviction -/

theorem round_robin_inv_init : round_robin_inv [] init_tlb := by
  refine ⟨rfl, rfl, ?_, ?_⟩
  · intro m p h; simp at h
  · intro j _ _; rfl

theorem round_robin_inv_lookup (ins : List (Nat × Nat)) (t : TLB) (vp : Nat)
    (h : round_robin_inv ins t) : round_robin_inv ins (tlb_lookup t vp).2 := by
  obtain ⟨h1, h2, h3, h4⟩ := h
  obtain ⟨_, g2, g3, g4⟩ := tlb_lookup_frame t vp
  refine ⟨g3.trans h1, g2.trans h2, ?_, ?_⟩
  · intro m p hm hk
    obtain ⟨a, b, c⟩ := h3 m p hm hk
    obtain ⟨a1, b1, c1, _⟩ := g4 (m % 8)
    exact ⟨a1.trans a, b1.trans b, c1.trans c⟩
  · intro j hj1 hj2
    exact (g4 j).1.trans (h4 j hj1 hj2)

theorem round_robin_inv_insert (ins : List (Nat × Nat)) (t : TLB) (vp f : Nat)
    (h : round_robin_inv ins t) :
    round_robin_inv (ins ++ [(vp, f)]) (tlb_insert t vp f) := by
  obtain ⟨h1, h2, h3, h4⟩ := h
  have hcur : t.next_replace < t.size := by rw [h1, h2]; omega
  obtain ⟨e1, e2, _, _, _, e6, e7, _⟩ := tlb_insert_effect t vp f hcur (by omega)
  refine ⟨e6.trans h1, ?_, ?_, ?_⟩
  · rw [e7, h1, h2, List.length_append, List.length_singleton]
    omega
  · intro m p hm hk
    rw [List.length_append, List.length_singleton] at hk
    by_cases hlt : m < ins.length
    · rw [List.getElem?_append_left hlt] at hm
      have hne : m % 8 ≠ t.next_replace := by rw [h2]; omega
      rw [e2 _ hne]
      exact h3 m p hm (by omega)
    · have hml : m = ins.length := by
        have := List.getElem?_eq_some.mp hm
        obtain ⟨hb, _⟩ := this
        rw [List.length_append, List.length_singleton] at hb
        omega
      subst hml
      rw [List.getElem?_append_right (le_refl _)] at hm
      simp at hm
      subst hm
      rw [← h2, e1]
      exact ⟨rfl, rfl, rfl⟩
  · intro j hj1 hj2
    rw [List.length_append, List.length_singleton] at hj1
    have hne : j ≠ t.next_replace := by rw [h2]; omega
    rw [e2 _ hne]
    exact h4 j (by omega) hj2

theorem round_robin_inv_run (ops : List TLBOp) :
    ∀ (ins : List (Nat × Nat)) (t : TLB), round_robin_inv ins t →
      round_robin_inv (ins ++ inserted_pairs ops) (tlb_run t ops) := by
  induction ops with
  | nil => intro ins t h; simpa [inserted_pairs, tlb_run] using h
  | cons op ops ih =>
    intro ins t h
    cases op with
    | insert vp f =>
      have := ih (ins ++ [(vp, f)]) (tlb_insert t vp f) (round_robin_inv_insert ins t vp f h)
      simpa [inserted_pairs, tlb_run, tlb_step] using this
    | lookup vp =>
      have := ih ins (tlb_lookup t vp).2 (round_robin_inv_lookup ins t vp h)
      simpa [inserted_pairs, tlb_run, tlb_step] using this


/-- Under the round-robin invariant every valid slot holds one of the last
eight inserted pairs. -/
theorem round_robin_inv_valid_slot (ins : List (Nat × Nat)) (t : TLB)
    (h : round_robin_inv ins t) (j : Nat) (hj : j < 8)
    (hv : (t.entries j).valid = true) :
    ∃ m q, ins[m]? = some q ∧ ins.length ≤ m + 8 ∧
      (t.entries j).virtual_page = q.1 ∧ (t.entries j).physical_frame = q.2 := by
  obtain ⟨_, _, h3, h4⟩ := h
  have hjk : j < ins.length := by
    by_contra hc
    have := h4 j (by omega) hj
    rw [hv] at this
    cases this
  have hm : ins.length - 1 - (ins.length - 1 - j) % 8 < ins.length := by omega
  have hmod : (ins.length - 1 - (ins.length - 1 - j) % 8) % 8 = j := by omega
  obtain ⟨_, b, c⟩ := h3 _ _ (List.getElem?_eq_getElem hm) (by omega)
  rw [hmod] at b c
  exact ⟨_, _, List.getElem?_eq_getElem hm, by omega, b, c⟩

/-- Lookup of an inserted page under the round-robin invariant, the inserted
pages being pairwise distinct. -/
theorem round_robin_lookup (ins : List (Nat × Nat)) (t : TLB)
    (h : round_robin_inv ins t) (hd : (ins.map Prod.fst).Nodup)
    (i : Nat) (p : Nat × Nat) (hi : ins[i]? = some p) :
    ((tlb_lookup t p.1).1 = some p.2 ↔ ins.length < i + 1 + 8) ∧
    (¬ins.length < i + 1 + 8 → (tlb_lookup t p.1).1 = none) := by
  have hsize : t.size = 8 := h.1
  have hil : i < ins.length := (List.getElem?_eq_some.mp hi).1
  have hsome : ∀ f, (tlb_lookup t p.1).1 = some f → f = p.2 ∧ ins.length < i + 1 + 8 := by
    intro f hf
    obtain ⟨j, hj, hv, htag, _, hfr, _⟩ := (tlb_lookup_result t p.1).1 f hf
    rw [hsize] at hj
    obtain ⟨m, q, hm, hwin, hq1, hq2⟩ := round_robin_inv_valid_slot ins t h j hj hv
    have hmi : i = m := by
      apply List.getElem?_inj (by simpa using hil) hd
      rw [List.getElem?_map, List.getElem?_map, hi, hm]
      simp only [Option.map_some']
      rw [← hq1, htag]
    subst hmi
    rw [hi] at hm
    cases hm
    exact ⟨hfr.trans hq2, by omega⟩
  have hnone : (tlb_lookup t p.1).1 = none → ¬ins.length < i + 1 + 8 := by
    intro hn hlt
    obtain ⟨a, b, _⟩ := h.2.2.1 i p hi (by omega)
    exact ((tlb_lookup_result t p.1).2 hn).1 (i % 8) (by rw [hsize]; omega) ⟨a, b⟩
  refine ⟨⟨fun hf => (hsome _ hf).2, fun hlt => ?_⟩, fun hge => ?_⟩
  · cases hr : (tlb_lookup t p.1).1 with
    | none => exact absurd hlt (hnone hr)
    | some f => rw [(hsome f hr).1]
  · cases hr : (tlb_lookup t p.1).1 with
    | none => rfl
    | some f => exact absurd (hsome f hr).2 hge

/-- C5. Let `ops` be any sequence of `tlb_insert` and `tlb_lookup` calls on a
freshly initialised TLB (capacity 8) whose inserted virtual pages are pairwise
distinct, `k` the number of inserted pairs. Then looking up the page of the
`i`-th inserted pair (`i` counted from 0) hits and returns its frame iff
`k < i + 1 + 8`, and misses otherwise; for `k = 9` it misses exactly for the
first inserted page, wherever the lookups were placed. -/
theorem round_robin_eviction (ops : List TLBOp)
    (hd : ((inserted_pairs ops).map Prod.fst).Nodup) :
    (∀ i p, (inserted_pairs ops)[i]? = some p →
      ((tlb_lookup (tlb_run init_tlb ops) p.1).1 = some p.2 ↔
        (inserted_pairs ops).length < i + 1 + 8) ∧
      (¬(inserted_pairs ops).length < i + 1 + 8 →
        (tlb_lookup (tlb_run init_tlb ops) p.1).1 = none)) ∧
    ((inserted_pairs ops).length = 9 →
      ∀ i p, (inserted_pairs ops)[i]? = some p →
        (i = 0 → (tlb_lookup (tlb_run init_tlb ops) p.1).1 = none) ∧
        (i ≠ 0 → (tlb_lookup (tlb_run init_tlb ops) p.1).1 = some p.2)) := by
  have hinv : round_robin_inv (inserted_pairs ops) (tlb_run init_tlb ops) := by
    simpa using round_robin_inv_run ops [] init_tlb round_robin_inv_init
  refine ⟨fun i p hi => round_robin_lookup _ _ hinv hd i p hi, fun h9 i p hi => ?_⟩
  obtain ⟨h1, h2⟩ := round_robin_lookup _ _ hinv hd i p hi
  refine ⟨fun h0 => h2 (by omega), fun h0 => h1.mpr (by omega)⟩


theorem round_robin_eviction_witness :
    ((inserted_pairs nine_page_ops).map Prod.fst).Nodup ∧
    ((∀ i p, (inserted_pairs nine_page_ops)[i]? = some p →
      ((tlb_lookup (tlb_run init_tlb nine_page_ops) p.1).1 = some p.2 ↔
        (inserted_pairs nine_page_ops).length < i + 1 + 8) ∧
      (¬(inserted_pairs nine_page_ops).length < i + 1 + 8 →
        (tlb_lookup (tlb_run init_tlb nine_page_ops) p.1).1 = none)) ∧
    ((inserted_pairs nine_page_ops).length = 9 →
      ∀ i p, (inserted_pairs nine_page_ops)[i]? = some p →
        (i = 0 → (tlb_lookup (tlb_run init_tlb nine_page_ops) p.1).1 = none) ∧
        (i ≠ 0 → (tlb_lookup (tlb_run init_tlb nine_page_ops) p.1).1 = some p.2))) :=
  ⟨by decide, round_robin_eviction nine_page_ops (by decide)⟩

/-! ## Two-level table: one call -/

theorem translate_l1_absent (pt : TwoLevelPageTable) (st : TwoLevelStatics) (a : Nat)
    (h : pt.l1_valid (get_l1_index a) = false) :
    translate_two_level_page_table pt st a = some
      { physical_addr :=
          make_physical_addr (st.next_frame_l1 % NUM_PHYSICAL_FRAMES) (get_page_offset a)
        fault := true
        pt := { pt with
          accesses := pt.accesses + 1
          faults := pt.faults + 1
          l1_table := fun i =>
            if i = get_l1_index a then
              some (fun j =>
                if j = get_l2_index a then
                  { frame_number := st.next_frame_l1 % NUM_PHYSICAL_FRAMES, valid := true,
                    referenced := true, dirty := false }
                else zeroed_pte)
            else pt.l1_table i
          l1_valid := fun i => if i = get_l1_index a then true else pt.l1_valid i }
        statics := { st with next_frame_l1 := (st.next_frame_l1 + 1) % UINT32_MOD } } := by
  simp [translate_two_level_page_table, h]

theorem translate_l2_invalid (pt : TwoLevelPageTable) (st : TwoLevelStatics) (a : Nat)
    (block : Nat → PageTableEntry)
    (h1 : pt.l1_valid (get_l1_index a) = true)
    (h2 : pt.l1_table (get_l1_index a) = some block)
    (h3 : (block (get_l2_index a)).valid = false) :
    translate_two_level_page_table pt st a = some
      { physical_addr :=
          make_physical_addr (st.next_frame_l2 % NUM_PHYSICAL_FRAMES) (get_page_offset a)
        fault := true
        pt := { pt with
          accesses := pt.accesses + 1
          faults := pt.faults + 1
          l1_table := fun i =>
            if i = get_l1_index a then
              some (fun j =>
                if j = get_l2_index a then
                  { frame_number := st.next_frame_l2 % NUM_PHYSICAL_FRAMES, valid := true,
                    referenced := true, dirty := false }
                else block j)
            else pt.l1_table i }
        statics := { st with next_frame_l2 := (st.next_frame_l2 + 1) % UINT32_MOD } } := by
  simp [translate_two_level_page_table, h1, h2, h3]

theorem translate_hit (pt : TwoLevelPageTable) (st : TwoLevelStatics) (a : Nat)
    (block : Nat → PageTableEntry)
    (h1 : pt.l1_valid (get_l1_index a) = true)
    (h2 : pt.l1_table (get_l1_index a) = some block)
    (h3 : (block (get_l2_index a)).valid = true) :
    translate_two_level_page_table pt st a = some
      { physical_addr :=
          make_physical_addr (block (get_l2_index a)).frame_number (get_page_offset a)
        fault := false
        pt := { pt with
          accesses := pt.accesses + 1
          hits := pt.hits + 1
          l1_table := fun i =>
            if i = get_l1_index a then
              some (fun j =>
                if j = get_l2_index a then
                  { block (get_l2_index a) with referenced := true }
                else block j)
            else pt.l1_table i }
        statics := st } := by
  simp [translate_two_level_page_table, h1, h2, h3]


/-- One call of `translate_two_level_page_table` on a table without dangling
slots: it returns, it faults exactly when the addressed page has no valid
entry, it moves the counters accordingly, afterwards the addressed page is
mapped to the frame of the returned address (the frame it had before, if it
had one), and the mapping of no other page changes. -/
theorem translate_step (pt : TwoLevelPageTable) (st : TwoLevelStatics) (a : Nat)
    (hwf : pt.wf) :
    ∃ r, translate_two_level_page_table pt st a = some r ∧
      r.pt.wf ∧
      r.fault = (mapped_frame pt (get_l1_index a) (get_l2_index a)).isNone ∧
      r.pt.accesses = pt.accesses + 1 ∧
      r.pt.hits = pt.hits + (if r.fault then 0 else 1) ∧
      r.pt.faults = pt.faults + (if r.fault then 1 else 0) ∧
      r.pt.l1_size = pt.l1_size ∧
      (∃ f, mapped_frame r.pt (get_l1_index a) (get_l2_index a) = some f ∧
        r.physical_addr = make_physical_addr f (get_page_offset a) ∧
        ∀ g, mapped_frame pt (get_l1_index a) (get_l2_index a) = some g → f = g) ∧
      ∀ i j, ¬(i = get_l1_index a ∧ j = get_l2_index a) →
        mapped_frame r.pt i j = mapped_frame pt i j := by
  by_cases h1 : pt.l1_valid (get_l1_index a) = true
  · have hsome := hwf _ h1
    obtain ⟨block, h2⟩ := Option.isSome_iff_exists.mp hsome
    by_cases h3 : (block (get_l2_index a)).valid = true
    · refine ⟨_, translate_hit pt st a block h1 h2 h3, ?_, ?_, rfl, rfl, rfl, rfl, ?_, ?_⟩
      · intro i hi
        by_cases hia : i = get_l1_index a
        · simp [hia]
        · simpa [hia] using hwf i (by simpa [hia] using hi)
      · simp [mapped_frame, h1, h2, h3]
      · refine ⟨(block (get_l2_index a)).frame_number, ?_, rfl, ?_⟩
        · simp [mapped_frame, h1, h3]
        · intro g hg
          simpa [mapped_frame, h1, h2, h3] using hg
      · intro i j hij
        by_cases hia : i = get_l1_index a
        · subst hia
          have hja : j ≠ get_l2_index a := fun hj => hij ⟨rfl, hj⟩
          simp [mapped_frame, h1, h2, hja]
        · simp [mapped_frame, hia]
    · have h3f : (block (get_l2_index a)).valid = false := by simpa using h3
      refine ⟨_, translate_l2_invalid pt st a block h1 h2 h3f, ?_, ?_, rfl, rfl, rfl, rfl,
        ?_, ?_⟩
      · intro i hi
        by_cases hia : i = get_l1_index a
        · simp [hia]
        · simpa [hia] using hwf i (by simpa [hia] using hi)
      · simp [mapped_frame, h1, h2, h3f]
      · refine ⟨st.next_frame_l2 % NUM_PHYSICAL_FRAMES, ?_, rfl, ?_⟩
        · simp [mapped_frame, h1]
        · intro g hg
          simp [mapped_frame, h1, h2, h3f] at hg
      · intro i j hij
        by_cases hia : i = get_l1_index a
        · subst hia
          have hja : j ≠ get_l2_index a := fun hj => hij ⟨rfl, hj⟩
          simp [mapped_frame, h1, h2, hja]
        · simp [mapped_frame, hia]
  · have h1f : pt.l1_valid (get_l1_index a) = false := by simpa using h1
    refine ⟨_, translate_l1_absent pt st a h1f, ?_, ?_, rfl, rfl, rfl, rfl, ?_, ?_⟩
    · intro i hi
      by_cases hia : i = get_l1_index a
      · simp [hia]
      · simpa [hia] using hwf i (by simpa [hia] using hi)
    · simp [mapped_frame, h1f]
    · refine ⟨st.next_frame_l1 % NUM_PHYSICAL_FRAMES, ?_, rfl, ?_⟩
      · simp [mapped_frame]
      · intro g hg
        simp [mapped_frame, h1f] at hg
    · intro i j hij
      by_cases hia : i = get_l1_index a
      · subst hia
        have hja : j ≠ get_l2_index a := fun hj => hij ⟨rfl, hj⟩
        simp [mapped_frame, h1f, hja, zeroed_pte]
      · simp [mapped_frame, hia]


/-! ## Two-level table: traces -/

theorem same_indices_iff_same_page (a b : Nat) (ha : a < 2 ^ 32) (hb : b < 2 ^ 32) :
    (get_l1_index b = get_l1_index a ∧ get_l2_index b = get_l2_index a) ↔
      get_page_number b = get_page_number a := by
  simp only [get_page_number_eq_div, get_l1_index_eq, get_l2_index_eq]
  omega

theorem run_two_level_snoc (tr : List Nat) (a : Nat) :
    ∀ (pt : TwoLevelPageTable) (st : TwoLevelStatics),
      run_two_level pt st (tr ++ [a]) =
        match run_two_level pt st tr with
        | none => none
        | some (outs, pt1, st1) =>
          match translate_two_level_page_table pt1 st1 a with
          | none => none
          | some r => some (outs ++ [(r.physical_addr, r.fault)], r.pt, r.statics) := by
  induction tr with
  | nil =>
    intro pt st
    cases h : translate_two_level_page_table pt st a <;>
      simp [run_two_level, h]
  | cons b tr ih =>
    intro pt st
    have hl : run_two_level pt st (b :: (tr ++ [a])) =
        match translate_two_level_page_table pt st b with
        | none => none
        | some r =>
          match run_two_level r.pt r.statics (tr ++ [a]) with
          | none => none
          | some (outs, pt1, st1) =>
            some ((r.physical_addr, r.fault) :: outs, pt1, st1) := rfl
    have hr : run_two_level pt st (b :: tr) =
        match translate_two_level_page_table pt st b with
        | none => none
        | some r =>
          match run_two_level r.pt r.statics tr with
          | none => none
          | some (outs, pt1, st1) =>
            some ((r.physical_addr, r.fault) :: outs, pt1, st1) := rfl
    rw [List.cons_append, hl, hr]
    cases translate_two_level_page_table pt st b with
    | none => rfl
    | some r =>
      simp only
      rw [ih]
      cases run_two_level r.pt r.statics tr with
      | none => rfl
      | some x =>
        obtain ⟨outs, pt1, st1⟩ := x
        simp only
        cases translate_two_level_page_table pt1 st1 a <;> rfl

theorem history_inv_init : history_inv [] init_two_level_page_table := by
  refine ⟨fun i hi => ?_, fun i j => ?_⟩
  · simp [init_two_level_page_table] at hi
  · simp [mapped_frame, init_two_level_page_table]

/-- Under the history invariant a call faults exactly on a page that is not
in the history (32-bit addresses). -/
theorem fault_iff_fresh (hist : List Nat) (pt : TwoLevelPageTable) (a : Nat)
    (h : history_inv hist pt) (hh : ∀ b ∈ hist, b < 2 ^ 32) (ha : a < 2 ^ 32) :
    (mapped_frame pt (get_l1_index a) (get_l2_index a)).isNone = true ↔
      ∀ b ∈ hist, get_page_number b ≠ get_page_number a := by
  have h2 := h.2 (get_l1_index a) (get_l2_index a)
  constructor
  · intro hn b hb hpn
    have : (mapped_frame pt (get_l1_index a) (get_l2_index a)).isSome = true :=
      h2.mpr ⟨b, hb, (same_indices_iff_same_page a b ha (hh b hb)).mpr hpn⟩
    cases hm : mapped_frame pt (get_l1_index a) (get_l2_index a) with
    | none => rw [hm] at this; cases this
    | some f => rw [hm] at hn; cases hn
  · intro hf
    cases hm : mapped_frame pt (get_l1_index a) (get_l2_index a) with
    | none => rfl
    | some f =>
      have : (mapped_frame pt (get_l1_index a) (get_l2_index a)).isSome = true := by
        rw [hm]; rfl
      obtain ⟨b, hb, hidx⟩ := h2.mp this
      exact absurd ((same_indices_iff_same_page a b ha (hh b hb)).mp hidx) (hf b hb)

theorem history_inv_step (hist : List Nat) (pt : TwoLevelPageTable) (a : Nat) (h : history_inv hist pt) (r : TranslateResult)
    (hwf : r.pt.wf)
    (hnew : ∃ f, mapped_frame r.pt (get_l1_index a) (get_l2_index a) = some f)
    (hold : ∀ i j, ¬(i = get_l1_index a ∧ j = get_l2_index a) →
      mapped_frame r.pt i j = mapped_frame pt i j) :
    history_inv (hist ++ [a]) r.pt := by
  refine ⟨hwf, fun i j => ?_⟩
  by_cases hij : i = get_l1_index a ∧ j = get_l2_index a
  · obtain ⟨f, hf⟩ := hnew
    rw [hij.1, hij.2, hf]
    simp only [Option.isSome_some, true_iff]
    exact ⟨a, List.mem_append_right _ (List.mem_singleton.mpr rfl), rfl, rfl⟩
  · rw [hold i j hij, h.2 i j]
    constructor
    · rintro ⟨b, hb, hidx⟩
      exact ⟨b, List.mem_append_left _ hb, hidx⟩
    · rintro ⟨b, hb, hidx⟩
      rcases List.mem_append.mp hb with hb | hb
      · exact ⟨b, hb, hidx⟩
      · rw [List.mem_singleton] at hb
        subst hb
        exact absurd ⟨hidx.1.symm, hidx.2.symm⟩ hij


/-- A trace of 32-bit addresses through a freshly initialised table: every
call returns, the final table satisfies the history invariant, the counters
count the calls, the faulting calls and the others, call `k` faults exactly
when its page is absent from the first `k` addresses, and the faults are as
many as the distinct pages. -/
theorem run_from_init (st0 : TwoLevelStatics) (tr : List Nat)
    (htr : ∀ b ∈ tr, b < 2 ^ 32) :
    ∃ outs pt st,
      run_two_level init_two_level_page_table st0 tr = some (outs, pt, st) ∧
      history_inv tr pt ∧
      outs.length = tr.length ∧
      pt.accesses = tr.length ∧
      pt.faults = outs.countP (fun o => o.2) ∧
      pt.hits = outs.countP (fun o => !o.2) ∧
      outs.countP (fun o => o.2) = ((tr.map get_page_number).toFinset).card ∧
      ∀ k a, tr[k]? = some a →
        ∃ o, outs[k]? = some o ∧
          (o.2 = true ↔ ∀ b ∈ tr.take k, get_page_number b ≠ get_page_number a) := by
  induction tr using List.reverseRecOn with
  | nil =>
    refine ⟨[], init_two_level_page_table, st0, rfl, history_inv_init, rfl, rfl, rfl, rfl,
      rfl, ?_⟩
    intro k a h
    simp at h
  | append_singleton tr a ih =>
    have htr1 : ∀ b ∈ tr, b < 2 ^ 32 := fun b hb => htr b (List.mem_append_left _ hb)
    have ha : a < 2 ^ 32 := htr a (List.mem_append_right _ (List.mem_singleton.mpr rfl))
    obtain ⟨outs, pt, st, hrun, hinv, hlen, hacc, hfl, hhit, hcard, hidx⟩ := ih htr1
    obtain ⟨r, hr, hwf, hfault, racc, rhits, rfaults, _, ⟨f, hf, _, _⟩, hold⟩ :=
      translate_step pt st a hinv.1
    have hfresh := fault_iff_fresh tr pt a hinv htr1 ha
    rw [← hfault] at hfresh
    refine ⟨outs ++ [(r.physical_addr, r.fault)], r.pt, r.statics, ?_, ?_, ?_, ?_, ?_, ?_,
      ?_, ?_⟩
    · rw [run_two_level_snoc, hrun]
      simp only [hr]
    · exact history_inv_step tr pt a hinv r hwf ⟨f, hf⟩ hold
    · simp [hlen]
    · rw [racc, hacc]; simp
    · rw [rfaults, hfl, List.countP_append]
      cases r.fault <;> simp [List.countP_cons]
    · rw [rhits, hhit, List.countP_append]
      cases r.fault <;> simp [List.countP_cons]
    · have hset : ((tr ++ [a]).map get_page_number).toFinset
          = insert (get_page_number a) (tr.map get_page_number).toFinset := by
        ext x
        simp only [List.map_append, List.map_cons, List.map_nil, List.toFinset_append,
          List.toFinset_cons, List.toFinset_nil, Finset.mem_union, Finset.mem_insert,
          Finset.not_mem_empty, or_false]
        exact or_comm
      rw [hset, List.countP_append, hcard]
      by_cases hmem : get_page_number a ∈ (tr.map get_page_number).toFinset
      · rw [Finset.insert_eq_of_mem hmem]
        have : r.fault = false := by
          cases hrf : r.fault with
          | false => rfl
          | true =>
            obtain ⟨b, hb, hbe⟩ := List.mem_map.mp (List.mem_toFinset.mp hmem)
            exact absurd hbe (hfresh.mp hrf b hb)
        simp [List.countP_cons, this]
      · rw [Finset.card_insert_of_not_mem hmem]
        have : r.fault = true := by
          apply hfresh.mpr
          intro b hb hbe
          exact hmem (List.mem_toFinset.mpr (List.mem_map.mpr ⟨b, hb, hbe⟩))
        simp [List.countP_cons, this]
    · intro k x hk
      by_cases hlt : k < tr.length
      · rw [List.getElem?_append_left hlt] at hk
        obtain ⟨o, ho, hiff⟩ := hidx k x hk
        refine ⟨o, ?_, ?_⟩
        · rw [List.getElem?_append_left (by omega)]
          exact ho
        · rw [List.take_append_of_le_length (by omega)]
          exact hiff
      · have hkl : k = tr.length := by
          have := (List.getElem?_eq_some.mp hk).1
          rw [List.length_append, List.length_singleton] at this
          omega
        subst hkl
        rw [List.getElem?_append_right (le_refl _)] at hk
        simp at hk
        subst hk
        refine ⟨(r.physical_addr, r.fault), ?_, ?_⟩
        · rw [List.getElem?_append_right (by omega), hlen]
          simp
        · rw [List.take_append_of_le_length (le_refl _), List.take_length]
          exact hfresh


/-! ## C7, C9: fault then hit, counters -/

/-- C7. In the table reached from `init_two_level_page_table` by any trace of
32-bit addresses (whatever the statics were at the start), translating a
32-bit address whose page is not in the trace sets `fault = true`, and
translating the same address again right away sets `fault = false` and
returns the same physical address. -/
theorem fault_then_hit (st0 : TwoLevelStatics) (tr : List Nat) (a : Nat)
    (htr : ∀ b ∈ tr, b < 2 ^ 32) (ha : a < 2 ^ 32)
    (hfresh : ∀ b ∈ tr, get_page_number b ≠ get_page_number a) :
    ∃ outs pt st,
      run_two_level init_two_level_page_table st0 tr = some (outs, pt, st) ∧
      ∃ r1, translate_two_level_page_table pt st a = some r1 ∧ r1.fault = true ∧
        ∃ r2, translate_two_level_page_table r1.pt r1.statics a = some r2 ∧
          r2.fault = false ∧ r2.physical_addr = r1.physical_addr := by
  obtain ⟨outs, pt, st, hrun, hinv, _⟩ := run_from_init st0 tr htr
  obtain ⟨r1, hr1, hwf1, hfault1, _, _, _, _, ⟨f1, hf1, hpa1, _⟩, _⟩ :=
    translate_step pt st a hinv.1
  obtain ⟨r2, hr2, _, hfault2, _, _, _, _, ⟨f2, _, hpa2, hsame⟩, _⟩ :=
    translate_step r1.pt r1.statics a hwf1
  refine ⟨outs, pt, st, hrun, r1, hr1, ?_, r2, hr2, ?_, ?_⟩
  · rw [hfault1]
    exact (fault_iff_fresh tr pt a hinv htr ha).mpr hfresh
  · rw [hfault2, hf1]
    rfl
  · rw [hpa2, hpa1, hsame f1 hf1]

theorem fault_then_hit_witness :
    (∀ b ∈ [0x1000, 0x2000], b < 2 ^ 32) ∧ 0x3000 < 2 ^ 32 ∧
    (∀ b ∈ [0x1000, 0x2000], get_page_number b ≠ get_page_number 0x3000) ∧
    ∃ outs pt st,
      run_two_level init_two_level_page_table statics_at_start [0x1000, 0x2000]
        = some (outs, pt, st) ∧
      ∃ r1, translate_two_level_page_table pt st 0x3000 = some r1 ∧ r1.fault = true ∧
        ∃ r2, translate_two_level_page_table r1.pt r1.statics 0x3000 = some r2 ∧
          r2.fault = false ∧ r2.physical_addr = r1.physical_addr :=
  ⟨by decide, by decide, by decide,
    fault_then_hit statics_at_start [0x1000, 0x2000] 0x3000 (by decide) (by decide)
      (by decide)⟩

/-- The counters after a call that returns, on any table. -/
theorem translate_counters (pt : TwoLevelPageTable) (st : TwoLevelStatics) (a : Nat)
    (r : TranslateResult) (h : translate_two_level_page_table pt st a = some r) :
    r.pt.accesses = pt.accesses + 1 ∧
    (r.fault = true → r.pt.faults = pt.faults + 1 ∧ r.pt.hits = pt.hits) ∧
    (r.fault = false → r.pt.hits = pt.hits + 1 ∧ r.pt.faults = pt.faults) := by
  by_cases h1 : pt.l1_valid (get_l1_index a) = true
  · cases h2 : pt.l1_table (get_l1_index a) with
    | none => simp [translate_two_level_page_table, h1, h2] at h
    | some block =>
      by_cases h3 : (block (get_l2_index a)).valid = true
      · rw [translate_hit pt st a block h1 h2 h3] at h
        cases h
        exact ⟨rfl, fun hf => (by cases hf), fun _ => ⟨rfl, rfl⟩⟩
      · have h3f : (block (get_l2_index a)).valid = false := by simpa using h3
        rw [translate_l2_invalid pt st a block h1 h2 h3f] at h
        cases h
        exact ⟨rfl, fun _ => ⟨rfl, rfl⟩, fun hf => (by cases hf)⟩
  · have h1f : pt.l1_valid (get_l1_index a) = false := by simpa using h1
    rw [translate_l1_absent pt st a h1f] at h
    cases h
    exact ⟨rfl, fun _ => ⟨rfl, rfl⟩, fun hf => (by cases hf)⟩

/-- C9. Every call of `translate_two_level_page_table` that returns adds
exactly 1 to `accesses` and exactly 1 to exactly one of `hits` and `faults`:
to `faults` iff it sets `fault = true`, to `hits` iff it sets `fault = false`;
and the call does return on every table without dangling slots. Every trace
from `init_two_level_page_table` returns and ends in such a table, with
`accesses = hits + faults` (and `accesses` the number of calls). -/
theorem two_level_counters :
    (∀ (pt : TwoLevelPageTable) (st : TwoLevelStatics) (a : Nat) (r : TranslateResult),
      translate_two_level_page_table pt st a = some r →
        r.pt.accesses = pt.accesses + 1 ∧
        (r.fault = true → r.pt.faults = pt.faults + 1 ∧ r.pt.hits = pt.hits) ∧
        (r.fault = false → r.pt.hits = pt.hits + 1 ∧ r.pt.faults = pt.faults)) ∧
    (∀ (pt : TwoLevelPageTable) (st : TwoLevelStatics) (a : Nat), pt.wf →
      ∃ r, translate_two_level_page_table pt st a = some r ∧ r.pt.wf) ∧
    (∀ (st0 : TwoLevelStatics) (tr : List Nat),
      ∃ outs pt st,
        run_two_level init_two_level_page_table st0 tr = some (outs, pt, st) ∧
        pt.wf ∧
        pt.accesses = tr.length ∧
        pt.accesses = pt.hits + pt.faults) := by
  refine ⟨translate_counters, fun pt st a hwf => ?_, fun st0 tr => ?_⟩
  · obtain ⟨r, hr, hwf1, _⟩ := translate_step pt st a hwf
    exact ⟨r, hr, hwf1⟩
  · induction tr using List.reverseRecOn with
    | nil =>
      exact ⟨[], init_two_level_page_table, st0, rfl, history_inv_init.1, rfl, rfl⟩
    | append_singleton tr a ih =>
      obtain ⟨outs, pt, st, hrun, hwf, hacc, hsum⟩ := ih
      obtain ⟨r, hr, hwf1, _, racc, rhits, rfaults, _⟩ := translate_step pt st a hwf
      refine ⟨outs ++ [(r.physical_addr, r.fault)], r.pt, r.statics, ?_, hwf1, ?_, ?_⟩
      · rw [run_two_level_snoc, hrun]
        simp only [hr]
      · rw [racc, hacc]; simp
      · rw [racc, rhits, rfaults, hsum]
        cases r.fault <;> simp <;> omega

/-! ## C8: fault pattern of a trace -/

/-- C8. For every trace of 32-bit addresses fed to a freshly initialised
two-level table (whatever the statics at the start), every call returns, call
`k` reports `fault = true` iff its page differs from the page of each of the
first `k` addresses, and the number of faults (in the outputs and in the
`faults` counter) is the number of distinct pages of the trace, the rest being
hits. `[0x1000, 0x2000, 0x1000, 0x3000]` yields faults
`[true, true, false, true]`, 3 faults and 1 hit, the third address returned
being the first one; the trace of `test_two_level_page_table` yields 3 faults
and 2 hits. -/
theorem fault_pattern (st0 : TwoLevelStatics) :
    (∀ tr : List Nat, (∀ b ∈ tr, b < 2 ^ 32) →
      ∃ outs pt st,
        run_two_level init_two_level_page_table st0 tr = some (outs, pt, st) ∧
        outs.length = tr.length ∧
        (∀ k a, tr[k]? = some a →
          ∃ o, outs[k]? = some o ∧
            (o.2 = true ↔ ∀ b ∈ tr.take k, get_page_number b ≠ get_page_number a)) ∧
        outs.countP (fun o => o.2) = ((tr.map get_page_number).toFinset).card ∧
        pt.faults = ((tr.map get_page_number).toFinset).card ∧
        pt.hits + pt.faults = tr.length) ∧
    (∃ p1 p2 p4,
      (run_two_level init_two_level_page_table st0 [0x1000, 0x2000, 0x1000, 0x3000]).map
          (fun x => (x.1, x.2.1.faults, x.2.1.hits))
        = some ([(p1, true), (p2, true), (p1, false), (p4, true)], 3, 1)) ∧
    (∃ p1 p2 p4,
      (run_two_level init_two_level_page_table st0
          [0x00001000, 0x40002000, 0x00001000, 0x80003000, 0x40002000]).map
          (fun x => (x.1, x.2.1.faults, x.2.1.hits))
        = some ([(p1, true), (p2, true), (p1, false), (p4, true), (p2, false)], 3, 2)) := by
  have e1 : get_l1_index 0x1000 = 0 := by decide
  have e2 : get_l2_index 0x1000 = 1 := by decide
  have e3 : get_l1_index 0x2000 = 0 := by decide
  have e4 : get_l2_index 0x2000 = 2 := by decide
  have e5 : get_l1_index 0x3000 = 0 := by decide
  have e6 : get_l2_index 0x3000 = 3 := by decide
  have e7 : get_l1_index 0x40002000 = 256 := by decide
  have e8 : get_l2_index 0x40002000 = 2 := by decide
  have e9 : get_l1_index 0x80003000 = 512 := by decide
  have e10 : get_l2_index 0x80003000 = 3 := by decide
  refine ⟨fun tr htr => ?_, ?_, ?_⟩
  · obtain ⟨outs, pt, st, hrun, _, hlen, hacc, hfl, hhit, hcard, hidx⟩ :=
      run_from_init st0 tr htr
    refine ⟨outs, pt, st, hrun, hlen, hidx, hcard, hfl.trans hcard, ?_⟩
    rw [hhit, hfl, ← hlen]
    clear hrun hlen hacc hfl hhit hcard hidx
    induction outs with
    | nil => rfl
    | cons o outs ih =>
      cases ho : o.2 <;> simp [List.countP_cons, ho] <;> omega
  · refine ⟨make_physical_addr (st0.next_frame_l1 % NUM_PHYSICAL_FRAMES)
        (get_page_offset 0x1000),
      make_physical_addr (st0.next_frame_l2 % NUM_PHYSICAL_FRAMES) (get_page_offset 0x2000),
      make_physical_addr ((st0.next_frame_l2 + 1) % UINT32_MOD % NUM_PHYSICAL_FRAMES)
        (get_page_offset 0x3000), ?_⟩
    simp [run_two_level, translate_two_level_page_table, init_two_level_page_table,
      e1, e2, e3, e4, e5, e6, zeroed_pte]
  · refine ⟨make_physical_addr (st0.next_frame_l1 % NUM_PHYSICAL_FRAMES)
        (get_page_offset 0x1000),
      make_physical_addr ((st0.next_frame_l1 + 1) % UINT32_MOD % NUM_PHYSICAL_FRAMES)
        (get_page_offset 0x40002000),
      make_physical_addr ((st0.next_frame_l1 + 1 + 1) % UINT32_MOD % NUM_PHYSICAL_FRAMES)
        (get_page_offset 0x80003000), ?_⟩
    simp [run_two_level, translate_two_level_page_table, init_two_level_page_table,
      e1, e2, e7, e8, e9, e10, zeroed_pte]

/-! ## C10: frame numbers after 257 distinct pages -/

set_option maxRecDepth 100000 in
/-- C10 (the code at the failing input). The 257 addresses of
`first_257_pages` are 32-bit and have pairwise distinct pages. Fed to a
freshly initialised table with both statics at 0, the first page gets frame 0
(from the static of the L1 branch), the second page gets frame 0 again (from
the static of the L2 branch), and the 257th page gets frame 255, not frame
0. -/
theorem frames_after_257_pages :
    first_257_pages.length = 257 ∧
    (first_257_pages.map get_page_number).Nodup ∧
    (∀ b ∈ first_257_pages, b < 2 ^ 32) ∧
    (run_two_level init_two_level_page_table statics_at_start first_257_pages).map
        (fun x => (x.1[0]?, x.1[1]?, x.1[256]?))
      = some (some (0, true), some (0, true), some (255 * 4096, true)) ∧
    (run_two_level init_two_level_page_table statics_at_start first_257_pages).map
        (fun x => (mapped_frame x.2.1 0 0, mapped_frame x.2.1 0 1, mapped_frame x.2.1 0 256))
      = some (some 0, some 0, some 255) ∧
    (run_two_level init_two_level_page_table statics_at_start first_257_pages).map
        (fun x => (x.2.2.next_frame_l1, x.2.2.next_frame_l2))
      = some (1, 256) := by
  refine ⟨by decide, by decide, by decide, by decide, by decide, by decide⟩

/-! ## Flat table: one call -/

theorem make_physical_addr_mod (f off : Nat) (ho : off < 4096) :
    make_physical_addr f off = f % 2 ^ 20 * 4096 + off := by
  have h1 : (f <<< PAGE_OFFSET_BITS) % UINT32_MOD = 2 ^ 12 * (f % 2 ^ 20) := by
    have : f <<< PAGE_OFFSET_BITS = f * 4096 := by
      simp [PAGE_OFFSET_BITS, Nat.shiftLeft_eq]
    rw [this, UINT32_MOD]
    omega
  rw [make_physical_addr, h1, ← Nat.mul_add_lt_is_or (by simpa using ho)]
  omega

theorem get_page_offset_lt (a : Nat) : get_page_offset a < 4096 := by
  rw [get_page_offset_eq_mod]; omega

/-- The frame of a returned address is the stored frame (below `2 ^ 20`). -/
theorem get_page_number_make (f off : Nat) (hf : f < 2 ^ 20) (ho : off < 4096) :
    get_page_number (make_physical_addr f off) = f := by
  rw [make_physical_addr_eq f off hf ho, get_page_number_eq_div]
  omega

theorem shift_or_eq_make (f off : Nat) (hf : f < 2 ^ 20) :
    (f <<< 12) ||| off = make_physical_addr f off := by
  have : (f <<< PAGE_OFFSET_BITS) % UINT32_MOD = f <<< 12 := by
    simp only [PAGE_OFFSET_BITS, UINT32_MOD, Nat.shiftLeft_eq]
    omega
  rw [make_physical_addr, this]

theorem translate_simple_out_of_range (pt : SimplePageTable) (nf a : Nat)
    (h : pt.size ≤ get_page_number a) :
    translate_simple_page_table pt nf a =
      { physical_addr := 0
        fault := true
        pt := { pt with accesses := pt.accesses + 1, faults := pt.faults + 1 }
        next_frame := nf } := by
  have h' : get_page_number a ≥ pt.size := h
  simp [translate_simple_page_table, h']

theorem translate_simple_invalid (pt : SimplePageTable) (nf a : Nat)
    (h : get_page_number a < pt.size)
    (hv : (pt.entries (get_page_number a)).valid = false) :
    translate_simple_page_table pt nf a =
      { physical_addr := make_physical_addr (nf % NUM_PHYSICAL_FRAMES) (get_page_offset a)
        fault := true
        pt := { pt with
          accesses := pt.accesses + 1
          faults := pt.faults + 1
          entries := fun i =>
            if i = get_page_number a then
              { frame_number := nf % NUM_PHYSICAL_FRAMES, valid := true, referenced := true,
                dirty := false }
            else pt.entries i }
        next_frame := (nf + 1) % UINT32_MOD } := by
  have h' : ¬get_page_number a ≥ pt.size := by omega
  simp [translate_simple_page_table, h', hv]

theorem translate_simple_hit (pt : SimplePageTable) (nf a : Nat)
    (h : get_page_number a < pt.size)
    (hv : (pt.entries (get_page_number a)).valid = true) :
    translate_simple_page_table pt nf a =
      { physical_addr :=
          make_physical_addr (pt.entries (get_page_number a)).frame_number
            (get_page_offset a)
        fault := false
        pt := { pt with
          accesses := pt.accesses + 1
          hits := pt.hits + 1
          entries := fun i =>
            if i = get_page_number a then
              { pt.entries (get_page_number a) with referenced := true }
            else pt.entries i }
        next_frame := nf } := by
  have h' : ¬get_page_number a ≥ pt.size := by omega
  simp [translate_simple_page_table, h', hv]

/-- One in-range call of `translate_simple_page_table`. -/
theorem translate_simple_step (pt : SimplePageTable) (nf a : Nat)
    (h : get_page_number a < pt.size) :
    (translate_simple_page_table pt nf a).fault
      = !(pt.entries (get_page_number a)).valid ∧
    (translate_simple_page_table pt nf a).pt.size = pt.size ∧
    (translate_simple_page_table pt nf a).pt.accesses = pt.accesses + 1 ∧
    (translate_simple_page_table pt nf a).pt.hits
      = pt.hits + (if (translate_simple_page_table pt nf a).fault then 0 else 1) ∧
    (translate_simple_page_table pt nf a).pt.faults
      = pt.faults + (if (translate_simple_page_table pt nf a).fault then 1 else 0) ∧
    ((translate_simple_page_table pt nf a).pt.entries (get_page_number a)).valid = true ∧
    (translate_simple_page_table pt nf a).physical_addr
      = make_physical_addr
          ((translate_simple_page_table pt nf a).pt.entries (get_page_number a)).frame_number
          (get_page_offset a) ∧
    ((pt.entries (get_page_number a)).valid = true →
      ((translate_simple_page_table pt nf a).pt.entries (get_page_number a)).frame_number
        = (pt.entries (get_page_number a)).frame_number ∧
      (translate_simple_page_table pt nf a).next_frame = nf) ∧
    ((pt.entries (get_page_number a)).valid = false →
      ((translate_simple_page_table pt nf a).pt.entries (get_page_number a)).frame_number
        = nf % 256 ∧
      (translate_simple_page_table pt nf a).next_frame = (nf + 1) % 2 ^ 32) ∧
    ∀ p, p ≠ get_page_number a →
      (translate_simple_page_table pt nf a).pt.entries p = pt.entries p := by
  by_cases hv : (pt.entries (get_page_number a)).valid = true
  · rw [translate_simple_hit pt nf a h hv]
    refine ⟨by simp [hv], rfl, rfl, rfl, rfl, by simp [hv], by simp, fun _ => ⟨by simp, rfl⟩,
      fun hf => ?_, fun p hp => by simp [hp]⟩
    rw [hv] at hf; cases hf
  · have hvf : (pt.entries (get_page_number a)).valid = false := by simpa using hv
    rw [translate_simple_invalid pt nf a h hvf]
    refine ⟨by simp [hvf], rfl, rfl, rfl, rfl, by simp, by simp, fun hf => ?_,
      fun _ => ⟨by simp [NUM_PHYSICAL_FRAMES], by simp [UINT32_MOD]⟩, fun p hp => by simp [hp]⟩
    rw [hvf] at hf; cases hf

theorem run_simple_snoc (tr : List Nat) (a : Nat) :
    ∀ (pt : SimplePageTable) (nf : Nat),
      run_simple pt nf (tr ++ [a]) =
        ((run_simple pt nf tr).1 ++
          [((translate_simple_page_table (run_simple pt nf tr).2.1
              (run_simple pt nf tr).2.2 a).physical_addr,
            (translate_simple_page_table (run_simple pt nf tr).2.1
              (run_simple pt nf tr).2.2 a).fault)],
          (translate_simple_page_table (run_simple pt nf tr).2.1
            (run_simple pt nf tr).2.2 a).pt,
          (translate_simple_page_table (run_simple pt nf tr).2.1
            (run_simple pt nf tr).2.2 a).next_frame) := by
  induction tr with
  | nil => intro pt nf; rfl
  | cons b tr ih =>
    intro pt nf
    have hl : run_simple pt nf (b :: (tr ++ [a])) =
        (((translate_simple_page_table pt nf b).physical_addr,
            (translate_simple_page_table pt nf b).fault) ::
          (run_simple (translate_simple_page_table pt nf b).pt
            (translate_simple_page_table pt nf b).next_frame (tr ++ [a])).1,
          (run_simple (translate_simple_page_table pt nf b).pt
            (translate_simple_page_table pt nf b).next_frame (tr ++ [a])).2.1,
          (run_simple (translate_simple_page_table pt nf b).pt
            (translate_simple_page_table pt nf b).next_frame (tr ++ [a])).2.2) := rfl
    rw [List.cons_append, hl, ih]
    rfl

/-! ## Flat table: traces -/

/-- A trace of 32-bit addresses through a freshly initialised flat table,
the static counter starting at `nf0`: the counters count the calls, the faults
and the hits; the valid entries are the pages of the trace, with frames below
256; call `k` faults exactly when its page is absent from the first `k`
addresses, returns the frame now stored for its page, and that frame is
`(nf0 + j) mod 2^32 mod 256` when the call is the `j`-th faulting one. -/
theorem run_simple_from_init (nf0 : Nat) (hnf : nf0 < 2 ^ 32) (tr : List Nat)
    (htr : ∀ b ∈ tr, b < 2 ^ 32) :
    ∃ outs pt nf,
      run_simple init_simple_page_table nf0 tr = (outs, pt, nf) ∧
      outs.length = tr.length ∧
      pt.size = 2 ^ 20 ∧
      nf = (nf0 + outs.countP (fun o => o.2)) % 2 ^ 32 ∧
      pt.accesses = tr.length ∧
      pt.faults = outs.countP (fun o => o.2) ∧
      pt.hits = outs.countP (fun o => !o.2) ∧
      (∀ p, (pt.entries p).valid = true ↔ ∃ b ∈ tr, get_page_number b = p) ∧
      (∀ p, (pt.entries p).valid = true → (pt.entries p).frame_number < 256) ∧
      ∀ k a, tr[k]? = some a →
        ∃ o, outs[k]? = some o ∧
          (o.2 = true ↔ ∀ b ∈ tr.take k, get_page_number b ≠ get_page_number a) ∧
          o.1 = make_physical_addr (pt.entries (get_page_number a)).frame_number
            (get_page_offset a) ∧
          (o.2 = true → (pt.entries (get_page_number a)).frame_number
            = (nf0 + (outs.take k).countP (fun o => o.2)) % 2 ^ 32 % 256) := by
  induction tr using List.reverseRecOn with
  | nil =>
    refine ⟨[], init_simple_page_table, nf0, rfl, rfl, by decide, ?_, rfl, rfl, rfl, ?_, ?_, ?_⟩
    · simp only [List.countP_nil, Nat.add_zero]
      omega
    · intro p
      simp [init_simple_page_table, zeroed_pte]
    · intro p hp
      simp [init_simple_page_table, zeroed_pte] at hp
    · intro k a h
      simp at h
  | append_singleton tr a ih =>
    have htr1 : ∀ b ∈ tr, b < 2 ^ 32 := fun b hb => htr b (List.mem_append_left _ hb)
    have ha : a < 2 ^ 32 := htr a (List.mem_append_right _ (List.mem_singleton.mpr rfl))
    obtain ⟨outs, pt, nf, hrun, hlen, hsize, hnfe, hacc, hfl, hhit, hval, hfr, hidx⟩ := ih htr1
    have hin : get_page_number a < pt.size := by
      rw [hsize, get_page_number_eq_div]; omega
    obtain ⟨sfault, ssize, sacc, shits, sfaults, svalid, spa, skeep, snew, sother⟩ :=
      translate_simple_step pt nf a hin
    generalize hr : translate_simple_page_table pt nf a = r at *
    have hcnt : List.countP (fun o : Nat × Bool => o.2) [(r.physical_addr, r.fault)]
        = if r.fault then 1 else 0 := by
      cases r.fault <;> simp [List.countP_cons]
    have hfresh : r.fault = true ↔
        ∀ b ∈ tr, get_page_number b ≠ get_page_number a := by
      rw [sfault]
      constructor
      · intro h b hb hpn
        have := (hval (get_page_number a)).mpr ⟨b, hb, hpn⟩
        rw [this] at h
        cases h
      · intro h
        cases hv : (pt.entries (get_page_number a)).valid with
        | false => rfl
        | true =>
          obtain ⟨b, hb, hpn⟩ := (hval _).mp hv
          exact absurd hpn (h b hb)
    have hframe : ∀ p, (pt.entries p).valid = true →
        (r.pt.entries p).frame_number
          = (pt.entries p).frame_number := by
      intro p hp
      by_cases hpa : p = get_page_number a
      · subst hpa
        exact (skeep hp).1
      · rw [sother p hpa]
    refine ⟨outs ++ [(r.physical_addr,
        r.fault)],
      r.pt,
      r.next_frame, ?_, ?_, ?_, ?_, ?_, ?_, ?_, ?_, ?_, ?_⟩
    · rw [run_simple_snoc, hrun, hr]
    · simp [hlen]
    · rw [ssize, hsize]
    · rw [List.countP_append, hcnt]
      cases hv : (pt.entries (get_page_number a)).valid with
      | true =>
        have hf : r.fault = false := by
          rw [sfault, hv]; rfl
        rw [(skeep hv).2, hf]
        simpa using hnfe
      | false =>
        have hf : r.fault = true := by
          rw [sfault, hv]; rfl
        rw [(snew hv).2, hf]
        simp only [if_true]
        omega
    · rw [sacc, hacc]; simp
    · rw [sfaults, hfl, List.countP_append]
      cases r.fault <;> simp [List.countP_cons]
    · rw [shits, hhit, List.countP_append]
      cases r.fault <;> simp [List.countP_cons]
    · intro p
      by_cases hpa : p = get_page_number a
      · subst hpa
        rw [svalid]
        simp only [true_iff]
        exact ⟨a, List.mem_append_right _ (List.mem_singleton.mpr rfl), rfl⟩
      · rw [sother p hpa, hval p]
        constructor
        · rintro ⟨b, hb, hpn⟩
          exact ⟨b, List.mem_append_left _ hb, hpn⟩
        · rintro ⟨b, hb, hpn⟩
          rcases List.mem_append.mp hb with hb | hb
          · exact ⟨b, hb, hpn⟩
          · rw [List.mem_singleton] at hb
            subst hb
            exact absurd hpn.symm hpa
    · intro p hp
      by_cases hpa : p = get_page_number a
      · subst hpa
        cases hv : (pt.entries (get_page_number a)).valid with
        | true => rw [(skeep hv).1]; exact hfr _ hv
        | false => rw [(snew hv).1]; omega
      · rw [sother p hpa] at hp ⊢
        exact hfr p hp
    · intro k x hk
      by_cases hlt : k < tr.length
      · rw [List.getElem?_append_left hlt] at hk
        obtain ⟨o, ho, hiff, hpa, hj⟩ := hidx k x hk
        have hxv : (pt.entries (get_page_number x)).valid = true :=
          (hval _).mpr ⟨x, List.mem_iff_getElem?.mpr ⟨k, hk⟩, rfl⟩
        refine ⟨o, ?_, ?_, ?_, ?_⟩
        · rw [List.getElem?_append_left (by omega)]
          exact ho
        · rw [List.take_append_of_le_length (by omega)]
          exact hiff
        · rw [hframe _ hxv]
          exact hpa
        · intro ho2
          rw [hframe _ hxv, List.take_append_of_le_length (by omega)]
          exact hj ho2
      · have hkl : k = tr.length := by
          have := (List.getElem?_eq_some.mp hk).1
          rw [List.length_append, List.length_singleton] at this
          omega
        subst hkl
        rw [List.getElem?_append_right (le_refl _)] at hk
        simp at hk
        subst hk
        refine ⟨(r.physical_addr, r.fault), ?_, ?_, spa, ?_⟩
        · rw [List.getElem?_append_right (by omega), hlen]
          simp
        · rw [List.take_append_of_le_length (le_refl _), List.take_length]
          exact hfresh
        · intro hf
          have hv : (pt.entries (get_page_number a)).valid = false := by
            have := sfault.symm.trans hf
            simpa using this
          rw [(snew hv).1, List.take_append_of_le_length (by omega), ← hlen,
            List.take_length, hnfe]

/-! ## C13, C14, C15: flat table -/

/-- C13. For every flat table with configured size `s` and every address
whose page number is at least `s`, `translate_simple_page_table` returns
physical address 0 with `fault = true`, adds 1 to `accesses` and to `faults`,
and leaves `hits`, `size`, every entry and the static frame counter
unchanged. -/
theorem simple_out_of_range (pt : SimplePageTable) (nf a : Nat)
    (h : pt.size ≤ get_page_number a) :
    (translate_simple_page_table pt nf a).physical_addr = 0 ∧
    (translate_simple_page_table pt nf a).fault = true ∧
    (translate_simple_page_table pt nf a).pt.accesses = pt.accesses + 1 ∧
    (translate_simple_page_table pt nf a).pt.faults = pt.faults + 1 ∧
    (translate_simple_page_table pt nf a).pt.hits = pt.hits ∧
    (translate_simple_page_table pt nf a).pt.entries = pt.entries ∧
    (translate_simple_page_table pt nf a).pt.size = pt.size ∧
    (translate_simple_page_table pt nf a).next_frame = nf := by
  rw [translate_simple_out_of_range pt nf a h]
  exact ⟨rfl, rfl, rfl, rfl, rfl, rfl, rfl, rfl⟩

theorem simple_out_of_range_witness :
    small_simple_page_table.size ≤ get_page_number 0x20000 ∧
    (translate_simple_page_table small_simple_page_table 5 0x20000).physical_addr = 0 ∧
    (translate_simple_page_table small_simple_page_table 5 0x20000).fault = true ∧
    (translate_simple_page_table small_simple_page_table 5 0x20000).pt.accesses
      = small_simple_page_table.accesses + 1 ∧
    (translate_simple_page_table small_simple_page_table 5 0x20000).pt.faults
      = small_simple_page_table.faults + 1 ∧
    (translate_simple_page_table small_simple_page_table 5 0x20000).pt.hits
      = small_simple_page_table.hits ∧
    (translate_simple_page_table small_simple_page_table 5 0x20000).pt.entries
      = small_simple_page_table.entries ∧
    (translate_simple_page_table small_simple_page_table 5 0x20000).pt.size
      = small_simple_page_table.size ∧
    (translate_simple_page_table small_simple_page_table 5 0x20000).next_frame = 5 :=
  ⟨by decide, simple_out_of_range small_simple_page_table 5 0x20000 (by decide)⟩

/-- C14. For every trace of 32-bit addresses through a freshly initialised
flat table (size `2 ^ 20`) with the static counter at 0: a faulting call on
`a` that has `j` faulting calls before it returns
`((j mod 256) << 12) | get_page_offset a`; a later call on the page of an
earlier call is a hit and returns the frame the earlier call returned;
`[0x1000, 0x2000, 0x1000, 0x3000]` returns `[0x0000, 0x1000, 0x0000, 0x2000]`
with faults `[true, true, false, true]`. -/
theorem simple_frame_assignment (tr : List Nat) (htr : ∀ b ∈ tr, b < 2 ^ 32) :
    ∃ outs pt nf,
      run_simple init_simple_page_table 0 tr = (outs, pt, nf) ∧
      init_simple_page_table.size = 2 ^ 20 ∧
      outs.length = tr.length ∧
      (∀ (k a : Nat) (o : Nat × Bool), tr[k]? = some a → outs[k]? = some o → o.2 = true →
        o.1 = (((outs.take k).countP (fun o => o.2) % 256) <<< 12) ||| get_page_offset a) ∧
      (∀ (j k aj ak : Nat) (oj ok : Nat × Bool), j < k → tr[j]? = some aj → tr[k]? = some ak →
        get_page_number aj = get_page_number ak →
        outs[j]? = some oj → outs[k]? = some ok →
          ok.2 = false ∧
          get_page_number ok.1 = get_page_number oj.1 ∧
          ok.1 = (get_page_number oj.1 <<< 12) ||| get_page_offset ak) ∧
      (run_simple init_simple_page_table 0 [0x1000, 0x2000, 0x1000, 0x3000]).1
        = [(0x0000, true), (0x1000, true), (0x0000, false), (0x2000, true)] := by
  obtain ⟨outs, pt, nf, hrun, hlen, _, _, _, _, _, hval, hfr, hidx⟩ :=
    run_simple_from_init 0 (by omega) tr htr
  refine ⟨outs, pt, nf, hrun, by decide, hlen, ?_, ?_, by decide⟩
  · intro k a o hk ho hf
    obtain ⟨o', ho', _, hpa, hj⟩ := hidx k a hk
    rw [ho] at ho'
    cases ho'
    rw [hpa, hj hf, shift_or_eq_make _ _ (by omega)]
    congr 1
    omega
  · intro j k aj ak oj ok hjk hj hk hpn hoj hok
    obtain ⟨oj', hoj', _, hpaj, _⟩ := hidx j aj hj
    obtain ⟨ok', hok', hiffk, hpak, _⟩ := hidx k ak hk
    rw [hoj] at hoj'
    rw [hok] at hok'
    cases hoj'
    cases hok'
    have hvalid : (pt.entries (get_page_number ak)).valid = true :=
      (hval _).mpr ⟨ak, List.mem_iff_getElem?.mpr ⟨k, hk⟩, rfl⟩
    have hlt := hfr _ hvalid
    have hfj : get_page_number oj.1 = (pt.entries (get_page_number ak)).frame_number := by
      rw [hpaj, hpn]
      exact get_page_number_make _ _ (by omega) (get_page_offset_lt _)
    have hfk : get_page_number ok.1 = (pt.entries (get_page_number ak)).frame_number := by
      rw [hpak]
      exact get_page_number_make _ _ (by omega) (get_page_offset_lt _)
    refine ⟨?_, hfk.trans hfj.symm, ?_⟩
    · cases hok2 : ok.2 with
      | false => rfl
      | true =>
        have hmem : aj ∈ tr.take k := by
          rw [List.mem_iff_getElem?]
          exact ⟨j, by rw [List.getElem?_take_of_lt hjk]; exact hj⟩
        exact absurd hpn (hiffk.mp hok2 aj hmem)
    · rw [hfj, shift_or_eq_make _ _ (by omega)]
      exact hpak

theorem simple_frame_assignment_witness :
    (∀ b ∈ [0x1000, 0x2000, 0x1000, 0x3000], b < 2 ^ 32) ∧
    ∃ outs pt nf,
      run_simple init_simple_page_table 0 [0x1000, 0x2000, 0x1000, 0x3000]
        = (outs, pt, nf) ∧
      init_simple_page_table.size = 2 ^ 20 ∧
      outs.length = [0x1000, 0x2000, 0x1000, 0x3000].length ∧
      (∀ (k a : Nat) (o : Nat × Bool), [0x1000, 0x2000, 0x1000, 0x3000][k]? = some a → outs[k]? = some o →
        o.2 = true →
        o.1 = (((outs.take k).countP (fun o => o.2) % 256) <<< 12) ||| get_page_offset a) ∧
      (∀ (j k aj ak : Nat) (oj ok : Nat × Bool), j < k → [0x1000, 0x2000, 0x1000, 0x3000][j]? = some aj →
        [0x1000, 0x2000, 0x1000, 0x3000][k]? = some ak →
        get_page_number aj = get_page_number ak →
        outs[j]? = some oj → outs[k]? = some ok →
          ok.2 = false ∧
          get_page_number ok.1 = get_page_number oj.1 ∧
          ok.1 = (get_page_number oj.1 <<< 12) ||| get_page_offset ak) ∧
      (run_simple init_simple_page_table 0 [0x1000, 0x2000, 0x1000, 0x3000]).1
        = [(0x0000, true), (0x1000, true), (0x0000, false), (0x2000, true)] :=
  ⟨by decide, simple_frame_assignment [0x1000, 0x2000, 0x1000, 0x3000] (by decide)⟩

/-- C15. For every trace of 32-bit addresses, a freshly initialised flat
table and a freshly initialised two-level table (whatever their static
counters) report the same fault flag at every step and end with equal
`accesses`, `hits` and `faults`. -/
theorem flat_two_level_agree (nf0 : Nat) (hnf : nf0 < 2 ^ 32) (st0 : TwoLevelStatics)
    (tr : List Nat) (htr : ∀ b ∈ tr, b < 2 ^ 32) :
    ∃ outs2 pt2 st2,
      run_two_level init_two_level_page_table st0 tr = some (outs2, pt2, st2) ∧
      (run_simple init_simple_page_table nf0 tr).1.map Prod.snd = outs2.map Prod.snd ∧
      (run_simple init_simple_page_table nf0 tr).2.1.accesses = pt2.accesses ∧
      (run_simple init_simple_page_table nf0 tr).2.1.hits = pt2.hits ∧
      (run_simple init_simple_page_table nf0 tr).2.1.faults = pt2.faults := by
  obtain ⟨outs1, pt1, nf1, hrun1, hlen1, _, _, hacc1, hfl1, hhit1, _, _, hidx1⟩ :=
    run_simple_from_init nf0 hnf tr htr
  obtain ⟨outs2, pt2, st2, hrun2, _, hlen2, hacc2, hfl2, hhit2, _, hidx2⟩ :=
    run_from_init st0 tr htr
  have hflags : outs1.map Prod.snd = outs2.map Prod.snd := by
    apply List.ext_getElem?
    intro k
    rw [List.getElem?_map, List.getElem?_map]
    cases hk : tr[k]? with
    | none =>
      have hge : tr.length ≤ k := List.getElem?_eq_none_iff.mp hk
      rw [List.getElem?_eq_none_iff.mpr (by omega), List.getElem?_eq_none_iff.mpr (by omega)]
    | some a =>
      obtain ⟨o1, ho1, hiff1, _⟩ := hidx1 k a hk
      obtain ⟨o2, ho2, hiff2⟩ := hidx2 k a hk
      rw [ho1, ho2]
      simp only [Option.map_some', Option.some.injEq]
      rw [Bool.eq_iff_iff, hiff1, hiff2]
  have hcf : outs1.countP (fun o => o.2) = outs2.countP (fun o => o.2) := by
    have h1 := List.countP_map (fun b : Bool => b) Prod.snd outs1
    have h2 := List.countP_map (fun b : Bool => b) Prod.snd outs2
    rw [hflags] at h1
    exact h1.symm.trans h2
  have hch : outs1.countP (fun o => !o.2) = outs2.countP (fun o => !o.2) := by
    have h1 := List.countP_map (fun b : Bool => !b) Prod.snd outs1
    have h2 := List.countP_map (fun b : Bool => !b) Prod.snd outs2
    rw [hflags] at h1
    exact h1.symm.trans h2
  refine ⟨outs2, pt2, st2, hrun2, ?_, ?_, ?_, ?_⟩
  · rw [hrun1]; exact hflags
  · rw [hrun1]; exact hacc1.trans hacc2.symm
  · rw [hrun1]; exact (hhit1.trans hch).trans hhit2.symm
  · rw [hrun1]; exact (hfl1.trans hcf).trans hfl2.symm

theorem flat_two_level_agree_witness :
    5 < 2 ^ 32 ∧
    (∀ b ∈ [0x00001000, 0x40002000, 0x00001000, 0x80003000, 0x40002000], b < 2 ^ 32) ∧
    ∃ outs2 pt2 st2,
      run_two_level init_two_level_page_table statics_at_start
          [0x00001000, 0x40002000, 0x00001000, 0x80003000, 0x40002000]
        = some (outs2, pt2, st2) ∧
      (run_simple init_simple_page_table 5
          [0x00001000, 0x40002000, 0x00001000, 0x80003000, 0x40002000]).1.map Prod.snd
        = outs2.map Prod.snd ∧
      (run_simple init_simple_page_table 5
          [0x00001000, 0x40002000, 0x00001000, 0x80003000, 0x40002000]).2.1.accesses
        = pt2.accesses ∧
      (run_simple init_simple_page_table 5
          [0x00001000, 0x40002000, 0x00001000, 0x80003000, 0x40002000]).2.1.hits
        = pt2.hits ∧
      (run_simple init_simple_page_table 5
          [0x00001000, 0x40002000, 0x00001000, 0x80003000, 0x40002000]).2.1.faults
        = pt2.faults :=
  ⟨by decide, by decide,
    flat_two_level_agree 5 (by decide) statics_at_start
      [0x00001000, 0x40002000, 0x00001000, 0x80003000, 0x40002000] (by decide)⟩

/-! ## C11, C12: the frame counters of the two-level table -/

/-- C11 (the code at the failing input). On a freshly initialised table with
both statics at 0, the trace `[0x0000, 0x1000]` (pages 0 and 1) faults twice;
the second faulting call (`j = 1`) is served by the static of the L2 branch
and gets frame 0 like the first one, not frame `1 mod 256`: two of the first
256 distinct pages share a frame. -/
theorem second_fault_gets_frame_zero :
    get_page_number 0x0000 ≠ get_page_number 0x1000 ∧
    (run_two_level init_two_level_page_table statics_at_start [0x0000, 0x1000]).map
        (fun x => (x.1, mapped_frame x.2.1 0 0, mapped_frame x.2.1 0 1))
      = some ([(0x0000, true), (0x0000, true)], some 0, some 0) ∧
    (run_two_level init_two_level_page_table statics_at_start [0x0000, 0x1000]).map
        (fun x => (x.2.2.next_frame_l1, x.2.2.next_frame_l2))
      = some (1, 1) := by
  refine ⟨by decide, by decide, by decide⟩

/-- C12 (the code at the failing input). A table initialised at program start
maps the page of `0x1000` to frame 0. A table initialised after another
instance has translated `0x1000` starts from the statics that instance left
behind: its first faulting call gets frame 1 and the same address translates
to `0x1000` instead of `0x0000`. -/
theorem new_table_inherits_statics :
    (run_two_level init_two_level_page_table statics_at_start [0x1000]).map
        (fun x => (x.1, x.2.2.next_frame_l1, x.2.2.next_frame_l2))
      = some ([(0x0000, true)], 1, 0) ∧
    ((run_two_level init_two_level_page_table statics_at_start [0x1000]).bind
        (fun x => run_two_level init_two_level_page_table x.2.2 [0x1000])).map
        (fun y => (y.1, mapped_frame y.2.1 0 1))
      = some ([(0x1000, true)], some 1) := by
  refine ⟨by decide, by decide⟩

/-! ## C20: sparsity of the L1 directory -/

/-- The slots and entries a returning call can touch, on any table. -/
theorem translate_footprint (pt : TwoLevelPageTable) (st : TwoLevelStatics) (a : Nat)
    (r : TranslateResult) (h : translate_two_level_page_table pt st a = some r) :
    (∀ i, i ≠ get_l1_index a →
      r.pt.l1_valid i = pt.l1_valid i ∧ r.pt.l1_table i = pt.l1_table i) ∧
    r.pt.l1_valid (get_l1_index a) = true ∧
    ∃ block1, r.pt.l1_table (get_l1_index a) = some block1 ∧
      (pt.l1_valid (get_l1_index a) = true →
        ∃ block, pt.l1_table (get_l1_index a) = some block ∧
          ∀ j, j ≠ get_l2_index a → block1 j = block j) ∧
      (pt.l1_valid (get_l1_index a) = false →
        ∀ j, j ≠ get_l2_index a → block1 j = zeroed_pte) := by
  by_cases h1 : pt.l1_valid (get_l1_index a) = true
  · cases h2 : pt.l1_table (get_l1_index a) with
    | none => simp [translate_two_level_page_table, h1, h2] at h
    | some block =>
      by_cases h3 : (block (get_l2_index a)).valid = true
      · rw [translate_hit pt st a block h1 h2 h3] at h
        cases h
        refine ⟨fun i hi => ⟨rfl, by simp [hi]⟩, h1,
          fun j => if j = get_l2_index a then
            { block (get_l2_index a) with referenced := true } else block j,
          by simp, fun _ => ⟨block, rfl, ?_⟩, fun hf => ?_⟩
        · intro j hj; simp [hj]
        · rw [h1] at hf; cases hf
      · have h3f : (block (get_l2_index a)).valid = false := by simpa using h3
        rw [translate_l2_invalid pt st a block h1 h2 h3f] at h
        cases h
        refine ⟨fun i hi => ⟨rfl, by simp [hi]⟩, h1,
          fun j => if j = get_l2_index a then
            { frame_number := st.next_frame_l2 % NUM_PHYSICAL_FRAMES, valid := true,
              referenced := true, dirty := false } else block j,
          by simp, fun _ => ⟨block, rfl, ?_⟩, fun hf => ?_⟩
        · intro j hj; simp [hj]
        · rw [h1] at hf; cases hf
  · have h1f : pt.l1_valid (get_l1_index a) = false := by simpa using h1
    rw [translate_l1_absent pt st a h1f] at h
    cases h
    refine ⟨fun i hi => ⟨by simp [hi], by simp [hi]⟩, by simp,
      fun j => if j = get_l2_index a then
        { frame_number := st.next_frame_l1 % NUM_PHYSICAL_FRAMES, valid := true,
          referenced := true, dirty := false } else zeroed_pte,
      by simp, fun ht => ?_, fun _ => ?_⟩
    · exact absurd ht h1
    · intro j hj; simp [hj]

/-- The L1 slots present after a trace from `init_two_level_page_table` are
the L1 indices of the trace, and a slot is flagged exactly when it holds a
block. -/
theorem l1_slots_of_trace (st0 : TwoLevelStatics) (tr : List Nat) :
    ∃ outs pt st,
      run_two_level init_two_level_page_table st0 tr = some (outs, pt, st) ∧
      pt.wf ∧
      ∀ i, (pt.l1_valid i = true ↔ ∃ a ∈ tr, get_l1_index a = i) ∧
        (pt.l1_valid i = true ↔ (pt.l1_table i).isSome = true) := by
  induction tr using List.reverseRecOn with
  | nil =>
    refine ⟨[], init_two_level_page_table, st0, rfl, history_inv_init.1, fun i => ?_⟩
    simp [init_two_level_page_table]
  | append_singleton tr a ih =>
    obtain ⟨outs, pt, st, hrun, hwf, hslots⟩ := ih
    obtain ⟨r, hr, hwf1, _⟩ := translate_step pt st a hwf
    obtain ⟨hother, hflag, block1, hblock, _⟩ := translate_footprint pt st a r hr
    refine ⟨outs ++ [(r.physical_addr, r.fault)], r.pt, r.statics, ?_, hwf1, fun i => ?_⟩
    · rw [run_two_level_snoc, hrun]
      simp only [hr]
    · by_cases hi : i = get_l1_index a
      · subst hi
        rw [hflag, hblock]
        simp only [true_iff, Option.isSome_some, and_true]
        exact ⟨a, List.mem_append_right _ (List.mem_singleton.mpr rfl), rfl⟩
      · rw [(hother i hi).1, (hother i hi).2, (hslots i).1]
        refine ⟨?_, ?_⟩
        · constructor
          · rintro ⟨b, hb, hidx⟩
            exact ⟨b, List.mem_append_left _ hb, hidx⟩
          · rintro ⟨b, hb, hidx⟩
            rcases List.mem_append.mp hb with hb | hb
            · exact ⟨b, hb, hidx⟩
            · rw [List.mem_singleton] at hb
              subst hb
              exact absurd hidx.symm hi
        · rw [← (hslots i).1]
          exact (hslots i).2

/-- C20. After any trace through a freshly initialised two-level table, L1
slot `i` is flagged in `l1_valid` and holds an L2 block iff some address of
the trace has `get_l1_index = i` (an unflagged slot holds `NULL`). A call of
`translate_two_level_page_table` on `a` that returns changes neither the flag
nor the block of any slot other than `get_l1_index a`; in the addressed slot,
a block that was present changes at most in the entry `get_l2_index a`, and a
block that was absent is created all-zero except for that entry. -/
theorem l1_sparsity :
    (∀ (st0 : TwoLevelStatics) (tr : List Nat),
      ∃ outs pt st,
        run_two_level init_two_level_page_table st0 tr = some (outs, pt, st) ∧
        ∀ i, ((pt.l1_valid i = true ∧ (pt.l1_table i).isSome = true) ↔
            ∃ a ∈ tr, get_l1_index a = i) ∧
          (pt.l1_valid i = false → pt.l1_table i = none)) ∧
    (∀ (pt : TwoLevelPageTable) (st : TwoLevelStatics) (a : Nat) (r : TranslateResult),
      translate_two_level_page_table pt st a = some r →
        (∀ i, i ≠ get_l1_index a →
          r.pt.l1_valid i = pt.l1_valid i ∧ r.pt.l1_table i = pt.l1_table i) ∧
        r.pt.l1_valid (get_l1_index a) = true ∧
        ∃ block1, r.pt.l1_table (get_l1_index a) = some block1 ∧
          (pt.l1_valid (get_l1_index a) = true →
            ∃ block, pt.l1_table (get_l1_index a) = some block ∧
              ∀ j, j ≠ get_l2_index a → block1 j = block j) ∧
          (pt.l1_valid (get_l1_index a) = false →
            ∀ j, j ≠ get_l2_index a → block1 j = zeroed_pte)) := by
  refine ⟨fun st0 tr => ?_, translate_footprint⟩
  obtain ⟨outs, pt, st, hrun, _, hslots⟩ := l1_slots_of_trace st0 tr
  refine ⟨outs, pt, st, hrun, fun i => ⟨?_, fun hf => ?_⟩⟩
  · rw [← (hslots i).1]
    exact ⟨fun h => h.1, fun h => ⟨h, (hslots i).2.mp h⟩⟩
  · cases ht : pt.l1_table i with
    | none => rfl
    | some block =>
      have : pt.l1_valid i = true := (hslots i).2.mpr (by rw [ht]; rfl)
      rw [hf] at this
      cases this

/-! ## MMU: one call -/

theorem mmu_translate_of_tlb_hit (m : MMU) (st : TwoLevelStatics) (a f : Nat) (t1 : TLB)
    (h : tlb_lookup m.tlb (get_page_number a) = (some f, t1)) :
    mmu_translate m st a = some
      { physical_addr := make_physical_addr f (get_page_offset a)
        mmu := { m with tlb := t1, total_cycles := m.total_cycles + 1 }
        statics := st } := by
  simp only [mmu_translate, h, TLB_HIT_TIME]

theorem mmu_translate_of_tlb_miss (m : MMU) (st : TwoLevelStatics) (a : Nat) (t1 : TLB)
    (r : TranslateResult)
    (h : tlb_lookup m.tlb (get_page_number a) = (none, t1))
    (hr : translate_two_level_page_table m.page_table st a = some r)
    (hcur : t1.next_replace < t1.size) :
    mmu_translate m st a = some
      { physical_addr := r.physical_addr
        mmu := { m with
          tlb := tlb_insert t1 (get_page_number a) (get_page_number r.physical_addr)
          page_table := r.pt
          total_cycles := m.total_cycles + (if r.fault then 1000 else 10) }
        statics := r.statics } := by
  simp only [mmu_translate, h, hr, tlb_insert_checked, hcur, if_true]
  cases r.fault
  · simp only [PAGE_TABLE_ACCESS_TIME, Bool.false_eq_true, if_false]
  · simp only [PAGE_FAULT_TIME, if_true]

/-- The address returned by a page-table walk is rebuilt unchanged from its
own frame and the offset of the translated address. -/
theorem make_physical_addr_round_trip (f a : Nat) :
    make_physical_addr (get_page_number (make_physical_addr f (get_page_offset a)))
      (get_page_offset a) = make_physical_addr f (get_page_offset a) := by
  have ho := get_page_offset_lt a
  have h1 := make_physical_addr_mod f _ ho
  have h2 : get_page_number (make_physical_addr f (get_page_offset a)) = f % 2 ^ 20 := by
    rw [h1, get_page_number_eq_div]; omega
  rw [h2, make_physical_addr_mod _ _ ho, h1]
  omega

theorem tlb_lookup_loop_congr (e1 e2 : Nat → TLBEntry) (vp : Nat)
    (h : ∀ j, (e1 j).valid = (e2 j).valid ∧ (e1 j).virtual_page = (e2 j).virtual_page) :
    ∀ n i, tlb_lookup_loop e1 vp i n = tlb_lookup_loop e2 vp i n := by
  intro n
  induction n with
  | zero => intro i; rfl
  | succ n ih =>
    intro i
    rw [tlb_lookup_loop, tlb_lookup_loop, (h i).1, (h i).2, ih]

/-- A lookup that hits leaves a TLB on which the same lookup hits again with
the same frame. -/
theorem tlb_lookup_again (t : TLB) (vp f : Nat) (h : (tlb_lookup t vp).1 = some f) :
    (tlb_lookup (tlb_lookup t vp).2 vp).1 = some f := by
  cases hl : tlb_lookup_loop t.entries vp 0 t.size with
  | none =>
    rw [tlb_lookup_of_loop_none t vp hl] at h
    cases h
  | some i =>
    obtain ⟨_, _, hsz, hfr⟩ := tlb_lookup_frame t vp
    have hl2 : tlb_lookup_loop (tlb_lookup t vp).2.entries vp 0 (tlb_lookup t vp).2.size
        = some i := by
      rw [hsz, ← hl]
      exact tlb_lookup_loop_congr _ _ vp (fun j => ⟨(hfr j).1, (hfr j).2.1⟩) _ _
    rw [tlb_lookup_of_loop_some _ vp i hl2]
    rw [tlb_lookup_of_loop_some t vp i hl] at h
    simp only [Option.some.injEq] at h ⊢
    rw [← h]
    exact (hfr i).2.2.1

/-- After a miss on `vp` and the insertion of `(vp, f)` at a cursor inside
the array, a lookup of `vp` hits with frame `f`. -/
theorem tlb_lookup_after_insert (t : TLB) (vp f : Nat)
    (hmiss : (tlb_lookup t vp).1 = none)
    (hcur : t.next_replace < t.size) (hsize : t.size < 2 ^ 32) :
    (tlb_lookup (tlb_insert (tlb_lookup t vp).2 vp f) vp).1 = some f := by
  obtain ⟨hnone, _, _, hent⟩ := (tlb_lookup_result t vp).2 hmiss
  obtain ⟨_, hnr, hsz, _⟩ := tlb_lookup_frame t vp
  have hcur1 : (tlb_lookup t vp).2.next_replace < (tlb_lookup t vp).2.size := by
    rw [hnr, hsz]; exact hcur
  obtain ⟨e1, e2, _, _, _, e6, _, _⟩ :=
    tlb_insert_effect (tlb_lookup t vp).2 vp f hcur1 (by rw [hsz]; exact hsize)
  cases hres : (tlb_lookup (tlb_insert (tlb_lookup t vp).2 vp f) vp).1 with
  | none =>
    have := ((tlb_lookup_result _ vp).2 hres).1 (tlb_lookup t vp).2.next_replace
      (by rw [e6]; exact hcur1)
    rw [e1] at this
    exact absurd ⟨rfl, rfl⟩ this
  | some g =>
    obtain ⟨i, hi, hv, htag, _, hg, _⟩ := (tlb_lookup_result _ vp).1 g hres
    by_cases hic : i = (tlb_lookup t vp).2.next_replace
    · rw [hic, e1] at hg
      rw [hg]
    · rw [e2 i hic, hent] at hv htag
      rw [e6, hsz] at hi
      exact absurd ⟨hv, htag⟩ (hnone i hi)

/-- One call of `mmu_translate` on an MMU satisfying `mmu_inv`: it returns,
the invariant is kept, the same address then hits the TLB with the returned
address, and the counters move as a TLB hit or as a miss. -/
theorem mmu_translate_step (m : MMU) (st : TwoLevelStatics) (a : Nat) (hinv : mmu_inv m) :
    ∃ r, mmu_translate m st a = some r ∧
      mmu_inv r.mmu ∧
      (∃ f, (tlb_lookup r.mmu.tlb (get_page_number a)).1 = some f ∧
        make_physical_addr f (get_page_offset a) = r.physical_addr) ∧
      (((tlb_lookup m.tlb (get_page_number a)).1.isSome = true ∧
          r.mmu.tlb.hits = m.tlb.hits + 1 ∧
          r.mmu.page_table.faults = m.page_table.faults ∧
          r.mmu.total_cycles = m.total_cycles + 1) ∨
        ((tlb_lookup m.tlb (get_page_number a)).1 = none ∧
          r.mmu.tlb.hits = m.tlb.hits ∧
          ∃ r1, translate_two_level_page_table m.page_table st a = some r1 ∧
            r.mmu.page_table.faults = m.page_table.faults + (if r1.fault then 1 else 0) ∧
            r.mmu.total_cycles = m.total_cycles + (if r1.fault then 1000 else 10))) := by
  obtain ⟨hsz, hcur, hwf⟩ := hinv
  obtain ⟨_, hnr, hsize, _⟩ := tlb_lookup_frame m.tlb (get_page_number a)
  cases hl : (tlb_lookup m.tlb (get_page_number a)).1 with
  | some f =>
    have hp : tlb_lookup m.tlb (get_page_number a)
        = (some f, (tlb_lookup m.tlb (get_page_number a)).2) := by
      rw [← hl]
    obtain ⟨_, _, _, _, _, _, _, hhits, _⟩ :=
      (tlb_lookup_result m.tlb (get_page_number a)).1 f hl
    refine ⟨_, mmu_translate_of_tlb_hit m st a f _ hp, ⟨?_, ?_, hwf⟩, ⟨f, ?_, rfl⟩, Or.inl ?_⟩
    · exact hsize.trans hsz
    · show (tlb_lookup m.tlb (get_page_number a)).2.next_replace < 8
      rw [hnr]; exact hcur
    · exact tlb_lookup_again m.tlb _ f hl
    · exact ⟨rfl, hhits, rfl, rfl⟩
  | none =>
    have hp : tlb_lookup m.tlb (get_page_number a)
        = (none, (tlb_lookup m.tlb (get_page_number a)).2) := by
      rw [← hl]
    obtain ⟨r1, hr1, hwf1, _, _, _, rfaults, _, ⟨g, _, hpa, _⟩, _⟩ :=
      translate_step m.page_table st a hwf
    obtain ⟨_, _, hhits, _⟩ := (tlb_lookup_result m.tlb (get_page_number a)).2 hl
    have hcur1 : (tlb_lookup m.tlb (get_page_number a)).2.next_replace
        < (tlb_lookup m.tlb (get_page_number a)).2.size := by
      rw [hnr, hsize, hsz]; exact hcur
    obtain ⟨_, _, _, ihits, _, isz, _, icur⟩ :=
      tlb_insert_effect (tlb_lookup m.tlb (get_page_number a)).2 (get_page_number a)
        (get_page_number r1.physical_addr) hcur1 (by rw [hsize, hsz]; omega)
    refine ⟨_, mmu_translate_of_tlb_miss m st a _ r1 hp hr1 hcur1, ⟨?_, ?_, hwf1⟩,
      ⟨get_page_number r1.physical_addr, ?_, ?_⟩,
      Or.inr ⟨rfl, ?_, r1, hr1, rfaults, rfl⟩⟩
    · exact (isz.trans hsize).trans hsz
    · have := icur
      rw [hsize, hsz] at this
      exact this
    · exact tlb_lookup_after_insert m.tlb _ _ hl (by rw [hsz]; exact hcur) (by rw [hsz]; omega)
    · rw [hpa]
      exact make_physical_addr_round_trip g a
    · exact ihits.trans hhits

/-! ## MMU: sequences of calls -/

theorem mmu_inv_init : mmu_inv init_mmu :=
  ⟨rfl, by decide, history_inv_init.1⟩

theorem mmu_ops_inv (ops : List MMUOp) :
    ∀ (m : MMU) (st : TwoLevelStatics), mmu_inv m →
      ∃ m1 st1, mmu_ops m st ops = some (m1, st1) ∧ mmu_inv m1 := by
  induction ops with
  | nil => intro m st h; exact ⟨m, st, rfl, h⟩
  | cons op ops ih =>
    intro m st h
    cases op with
    | translate a =>
      obtain ⟨r, hr, hinv, _⟩ := mmu_translate_step m st a h
      obtain ⟨m1, st1, hrun, hinv1⟩ := ih r.mmu r.statics hinv
      refine ⟨m1, st1, ?_, hinv1⟩
      simp only [mmu_ops, hr]
      exact hrun
    | invalidate_tlb =>
      have hinv : mmu_inv { m with tlb := tlb_invalidate_all m.tlb } := ⟨h.1, h.2.1, h.2.2⟩
      obtain ⟨m1, st1, hrun, hinv1⟩ := ih _ st hinv
      exact ⟨m1, st1, hrun, hinv1⟩

/-- A call of `mmu_translate` on an address that the TLB already resolves to
`pa`: it returns `pa`, costs one cycle, leaves page table and statics alone,
and the TLB still resolves the address to `pa`. -/
theorem mmu_translate_cached (m : MMU) (st : TwoLevelStatics) (a pa : Nat)
    (hinv : mmu_inv m)
    (hhit : ∃ f, (tlb_lookup m.tlb (get_page_number a)).1 = some f ∧
      make_physical_addr f (get_page_offset a) = pa) :
    ∃ r, mmu_translate m st a = some r ∧
      r.physical_addr = pa ∧
      r.mmu.total_cycles = m.total_cycles + 1 ∧
      r.statics = st ∧
      mmu_inv r.mmu ∧
      ∃ f, (tlb_lookup r.mmu.tlb (get_page_number a)).1 = some f ∧
        make_physical_addr f (get_page_offset a) = pa := by
  obtain ⟨f, hl, hpa⟩ := hhit
  obtain ⟨_, hnr, hsize, _⟩ := tlb_lookup_frame m.tlb (get_page_number a)
  have hp : tlb_lookup m.tlb (get_page_number a)
      = (some f, (tlb_lookup m.tlb (get_page_number a)).2) := by
    rw [← hl]
  refine ⟨_, mmu_translate_of_tlb_hit m st a f _ hp, hpa, rfl, rfl, ⟨?_, ?_, hinv.2.2⟩,
    f, tlb_lookup_again m.tlb _ f hl, hpa⟩
  · exact hsize.trans hinv.1
  · show (tlb_lookup m.tlb (get_page_number a)).2.next_replace < 8
    rw [hnr]; exact hinv.2.1

theorem mmu_run_cached (a pa : Nat) :
    ∀ (n : Nat) (m : MMU) (st : TwoLevelStatics), mmu_inv m →
      (∃ f, (tlb_lookup m.tlb (get_page_number a)).1 = some f ∧
        make_physical_addr f (get_page_offset a) = pa) →
      ∃ outs m1 st1, mmu_run m st (List.replicate n a) = some (outs, m1, st1) ∧
        outs = List.replicate n pa ∧
        m1.total_cycles = m.total_cycles + n ∧
        mmu_inv m1 ∧
        ∃ f, (tlb_lookup m1.tlb (get_page_number a)).1 = some f ∧
          make_physical_addr f (get_page_offset a) = pa := by
  intro n
  induction n with
  | zero => intro m st hinv hhit; exact ⟨[], m, st, rfl, rfl, rfl, hinv, hhit⟩
  | succ n ih =>
    intro m st hinv hhit
    obtain ⟨r, hr, hpa, hcyc, _, hinv1, hhit1⟩ := mmu_translate_cached m st a pa hinv hhit
    obtain ⟨outs, m1, st1, hrun, houts, hcyc1, hinv2, hhit2⟩ := ih r.mmu r.statics hinv1 hhit1
    refine ⟨r.physical_addr :: outs, m1, st1, ?_, ?_, ?_, hinv2, hhit2⟩
    · simp only [List.replicate_succ, mmu_run, hr, hrun]
    · rw [houts, hpa, List.replicate_succ]
    · rw [hcyc1, hcyc]; omega

/-- A batch of `mmu_translate` calls from an MMU satisfying `mmu_inv`: every
call returns; TLB hits and page faults only grow, by at most one per call in
total; the cycles grow by at most 1000 per call. -/
theorem mmu_run_counters (tr : List Nat) :
    ∀ (m : MMU) (st : TwoLevelStatics), mmu_inv m →
      ∃ outs m1 st1, mmu_run m st tr = some (outs, m1, st1) ∧
        mmu_inv m1 ∧
        outs.length = tr.length ∧
        m.tlb.hits ≤ m1.tlb.hits ∧
        m.page_table.faults ≤ m1.page_table.faults ∧
        (m1.tlb.hits - m.tlb.hits) + (m1.page_table.faults - m.page_table.faults)
          ≤ tr.length ∧
        m.total_cycles ≤ m1.total_cycles ∧
        m1.total_cycles - m.total_cycles ≤ 1000 * tr.length := by
  induction tr with
  | nil =>
    intro m st h
    exact ⟨[], m, st, rfl, h, rfl, le_refl _, le_refl _, by simp, le_refl _, by simp⟩
  | cons a tr ih =>
    intro m st h
    obtain ⟨r, hr, hinv, _, hcase⟩ := mmu_translate_step m st a h
    obtain ⟨outs, m1, st1, hrun, hinv1, hlen, hh, hf, hsum, hc, hcb⟩ :=
      ih r.mmu r.statics hinv
    have hstep : (r.mmu.tlb.hits = m.tlb.hits + 1 ∧
          r.mmu.page_table.faults = m.page_table.faults ∧
          r.mmu.total_cycles = m.total_cycles + 1) ∨
        (r.mmu.tlb.hits = m.tlb.hits ∧
          m.page_table.faults ≤ r.mmu.page_table.faults ∧
          r.mmu.page_table.faults ≤ m.page_table.faults + 1 ∧
          m.total_cycles ≤ r.mmu.total_cycles ∧
          r.mmu.total_cycles ≤ m.total_cycles + 1000) := by
      rcases hcase with ⟨_, e1, e2, e3⟩ | ⟨_, e1, r1, _, e2, e3⟩
      · exact Or.inl ⟨e1, e2, e3⟩
      · refine Or.inr ⟨e1, ?_, ?_, ?_, ?_⟩
        · rw [e2]; exact Nat.le_add_right _ _
        · rw [e2]; cases r1.fault <;> simp
        · rw [e3]; exact Nat.le_add_right _ _
        · rw [e3]; cases r1.fault <;> simp
    have hl : (a :: tr).length = tr.length + 1 := List.length_cons a tr
    refine ⟨r.physical_addr :: outs, m1, st1, ?_, hinv1, ?_, ?_, ?_, ?_, ?_, ?_⟩
    · simp only [mmu_run, hr, hrun]
    · simp [hlen]
    all_goals
      try rw [hl]
      rcases hstep with ⟨e1, e2, e3⟩ | ⟨e1, e2, e3, e4, e5⟩ <;> omega

/-! ## C16, C17: `mmu_translate` -/

/-- C17. In every MMU state reached from `init_mmu` by `mmu_translate` and
`tlb_invalidate_all` calls, for every address `a`: call 1 of `mmu_translate`
on `a` returns; if it misses the TLB it costs 10 cycles when the page table
hits and 1000 when it faults; and after any number `n` of further calls on
`a`, each of which returned the address of call 1 for one cycle, the next
call on `a` again returns the address of call 1 and adds exactly 1 to
`total_cycles`. -/
theorem repeated_address (st0 : TwoLevelStatics) (ops : List MMUOp) (a : Nat) :
    ∃ m st, mmu_ops init_mmu st0 ops = some (m, st) ∧
      ∃ r1, mmu_translate m st a = some r1 ∧
        ((tlb_lookup m.tlb (get_page_number a)).1 = none →
          ∃ rt, translate_two_level_page_table m.page_table st a = some rt ∧
            (rt.fault = false → r1.mmu.total_cycles = m.total_cycles + 10) ∧
            (rt.fault = true → r1.mmu.total_cycles = m.total_cycles + 1000)) ∧
        ∀ n, ∃ outs mn stn,
          mmu_run r1.mmu r1.statics (List.replicate n a) = some (outs, mn, stn) ∧
          outs = List.replicate n r1.physical_addr ∧
          mn.total_cycles = r1.mmu.total_cycles + n ∧
          ∃ r, mmu_translate mn stn a = some r ∧
            r.physical_addr = r1.physical_addr ∧
            r.mmu.total_cycles = mn.total_cycles + 1 := by
  obtain ⟨m, st, hops, hinv⟩ := mmu_ops_inv ops init_mmu st0 mmu_inv_init
  obtain ⟨r1, hr1, hinv1, hhit1, hcase⟩ := mmu_translate_step m st a hinv
  refine ⟨m, st, hops, r1, hr1, fun hmiss => ?_, fun n => ?_⟩
  · rcases hcase with ⟨hsome, _⟩ | ⟨_, _, rt, hrt, _, hcyc⟩
    · rw [hmiss] at hsome; cases hsome
    · refine ⟨rt, hrt, fun hf => ?_, fun hf => ?_⟩
      · rw [hcyc, hf]; rfl
      · rw [hcyc, hf]; rfl
  · obtain ⟨outs, mn, stn, hrun, houts, hcyc, hinvn, hhitn⟩ :=
      mmu_run_cached a r1.physical_addr n r1.mmu r1.statics hinv1 hhit1
    obtain ⟨r, hr, hpa, hc, _⟩ := mmu_translate_cached mn stn a r1.physical_addr hinvn hhitn
    exact ⟨outs, mn, stn, hrun, houts, hcyc, r, hr, hpa, hc⟩

/-! ## C18, C19: statistics of `run_simulation` -/

/-- C18 (the code at the failing input). With `count = 0` `run_simulation`
returns without calling `mmu_translate`, all six integer statistics are 0,
and each of the three rates is the quotient `0.0 / 0`: the division by zero
is performed and the results are not numbers, not 0. -/
theorem zero_count_rates (m : MMU) (st : TwoLevelStatics) :
    (run_simulation m st []).map
        (fun x => (x.1.total_accesses, x.1.tlb_hits, x.1.tlb_misses, x.1.page_hits,
          x.1.page_faults, x.1.total_cycles))
      = some (0, 0, 0, 0, 0, 0) ∧
    (run_simulation m st []).map
        (fun x => (x.1.tlb_hit_rate, x.1.page_hit_rate, x.1.avg_access_time))
      = some (none, none, none) ∧
    double_div 0 0 = none := by
  have hsub : ∀ x, uint64_sub x x = 0 := by
    intro x
    simp only [uint64_sub, UINT64_MOD]
    omega
  have h0 : uint64_sub 0 0 = 0 := hsub 0
  refine ⟨?_, ?_, ?_⟩
  · simp [run_simulation, mmu_run, compute_stats, hsub, h0]
  · simp [run_simulation, mmu_run, compute_stats, double_div, h0]
  · simp [double_div]

theorem uint64_sub_eq (a b : Nat) (h : b ≤ a) (hlt : a - b < 2 ^ 64) :
    uint64_sub a b = a - b := by
  simp only [uint64_sub, UINT64_MOD]
  omega

theorem double_div_pos (x : ℚ) (n : Nat) (hn : 1 ≤ n) :
    double_div x (n : ℚ) = some (x / n) := by
  have : (n : ℚ) ≠ 0 := by
    have : 0 < n := hn
    exact_mod_cast this.ne'
  simp [double_div, this]

/-- C19. For every MMU state reached from `init_mmu` by `mmu_translate` and
`tlb_invalidate_all` calls and every trace of `N` addresses, `1 ≤ N < 2^31`
(`count` is an `int`), `run_simulation` returns with `total_accesses = N`,
`tlb_hits`, `page_faults` and `total_cycles` the increases of `tlb.hits`,
`page_table.faults` and `mmu.total_cycles`, `tlb_misses = N - tlb_hits` and
`page_hits = N - page_faults`, where `tlb_hits + page_faults ≤ N` so that
neither subtraction wraps; and, the `double` operations taken as exact,
`tlb_hit_rate = tlb_hits / N * 100`,
`page_hit_rate = (N - page_faults) / N * 100` and
`avg_access_time = total_cycles / N`. -/
theorem batch_statistics (st0 : TwoLevelStatics) (ops : List MMUOp) (tr : List Nat)
    (h1 : 1 ≤ tr.length) (h2 : tr.length < 2 ^ 31) :
    ∃ m st, mmu_ops init_mmu st0 ops = some (m, st) ∧
      ∃ stats m1 st1, run_simulation m st tr = some (stats, m1, st1) ∧
        stats.total_accesses = tr.length ∧
        m.tlb.hits ≤ m1.tlb.hits ∧
        stats.tlb_hits = m1.tlb.hits - m.tlb.hits ∧
        m.page_table.faults ≤ m1.page_table.faults ∧
        stats.page_faults = m1.page_table.faults - m.page_table.faults ∧
        m.total_cycles ≤ m1.total_cycles ∧
        stats.total_cycles = m1.total_cycles - m.total_cycles ∧
        stats.tlb_hits + stats.page_faults ≤ tr.length ∧
        stats.tlb_misses = tr.length - stats.tlb_hits ∧
        stats.page_hits = tr.length - stats.page_faults ∧
        stats.tlb_hit_rate = some ((stats.tlb_hits : ℚ) / (tr.length : ℚ) * 100) ∧
        stats.page_hit_rate
          = some (((tr.length : ℚ) - (stats.page_faults : ℚ)) / (tr.length : ℚ) * 100) ∧
        stats.avg_access_time = some ((stats.total_cycles : ℚ) / (tr.length : ℚ)) := by
  obtain ⟨m, st, hops, hinv⟩ := mmu_ops_inv ops init_mmu st0 mmu_inv_init
  obtain ⟨outs, m1, st1, hrun, _, _, hh, hf, hsum, hc, hcb⟩ := mmu_run_counters tr m st hinv
  have ehits : uint64_sub m1.tlb.hits m.tlb.hits = m1.tlb.hits - m.tlb.hits :=
    uint64_sub_eq _ _ hh (by omega)
  have efaults : uint64_sub m1.page_table.faults m.page_table.faults
      = m1.page_table.faults - m.page_table.faults :=
    uint64_sub_eq _ _ hf (by omega)
  have ecycles : uint64_sub m1.total_cycles m.total_cycles
      = m1.total_cycles - m.total_cycles :=
    uint64_sub_eq _ _ hc (by omega)
  have emiss : uint64_sub tr.length (m1.tlb.hits - m.tlb.hits)
      = tr.length - (m1.tlb.hits - m.tlb.hits) :=
    uint64_sub_eq _ _ (by omega) (by omega)
  have ephits : uint64_sub tr.length (m1.page_table.faults - m.page_table.faults)
      = tr.length - (m1.page_table.faults - m.page_table.faults) :=
    uint64_sub_eq _ _ (by omega) (by omega)
  have hrs : run_simulation m st tr = some (compute_stats m m1 tr.length, m1, st1) := by
    simp only [run_simulation, hrun]
  refine ⟨m, st, hops, compute_stats m m1 tr.length, m1, st1, hrs, rfl, hh, ehits, hf, efaults,
    hc, ecycles, ?_, ?_, ?_, ?_, ?_, ?_⟩
  · show uint64_sub _ _ + uint64_sub _ _ ≤ _
    rw [ehits, efaults]; exact hsum
  · show uint64_sub _ (uint64_sub _ _) = _ - uint64_sub _ _
    rw [ehits, emiss]
  · show uint64_sub _ (uint64_sub _ _) = _ - uint64_sub _ _
    rw [efaults, ephits]
  · show (double_div _ _).map _ = _
    rw [double_div_pos _ _ h1]
    rfl
  · show (double_div ((uint64_sub _ (uint64_sub _ _) : Nat) : ℚ) _).map _
      = some (((_ : ℚ) - ((uint64_sub _ _ : Nat) : ℚ)) / _ * 100)
    rw [double_div_pos _ _ h1, efaults, ephits, Nat.cast_sub (by omega)]
    rfl
  · show double_div _ _ = _
    rw [double_div_pos _ _ h1]
    rfl

theorem batch_statistics_witness :
    1 ≤ [0x1000, 0x1004, 0x2000, 0x1000].length ∧
    [0x1000, 0x1004, 0x2000, 0x1000].length < 2 ^ 31 ∧
    ∃ m st, mmu_ops init_mmu statics_at_start [.translate 0x5000, .invalidate_tlb]
        = some (m, st) ∧
      ∃ stats m1 st1,
        run_simulation m st [0x1000, 0x1004, 0x2000, 0x1000] = some (stats, m1, st1) ∧
        stats.total_accesses = [0x1000, 0x1004, 0x2000, 0x1000].length ∧
        m.tlb.hits ≤ m1.tlb.hits ∧
        stats.tlb_hits = m1.tlb.hits - m.tlb.hits ∧
        m.page_table.faults ≤ m1.page_table.faults ∧
        stats.page_faults = m1.page_table.faults - m.page_table.faults ∧
        m.total_cycles ≤ m1.total_cycles ∧
        stats.total_cycles = m1.total_cycles - m.total_cycles ∧
        stats.tlb_hits + stats.page_faults ≤ [0x1000, 0x1004, 0x2000, 0x1000].length ∧
        stats.tlb_misses = [0x1000, 0x1004, 0x2000, 0x1000].length - stats.tlb_hits ∧
        stats.page_hits = [0x1000, 0x1004, 0x2000, 0x1000].length - stats.page_faults ∧
        stats.tlb_hit_rate = some ((stats.tlb_hits : ℚ)
          / ([0x1000, 0x1004, 0x2000, 0x1000].length : ℚ) * 100) ∧
        stats.page_hit_rate
          = some ((([0x1000, 0x1004, 0x2000, 0x1000].length : ℚ) - (stats.page_faults : ℚ))
            / ([0x1000, 0x1004, 0x2000, 0x1000].length : ℚ) * 100) ∧
        stats.avg_access_time = some ((stats.total_cycles : ℚ)
          / ([0x1000, 0x1004, 0x2000, 0x1000].length : ℚ)) :=
  ⟨by decide, by decide,
    batch_statistics statics_at_start [.translate 0x5000, .invalidate_tlb]
      [0x1000, 0x1004, 0x2000, 0x1000] (by decide) (by decide)⟩

/-! ## Two-level table: what a call allocates and keeps -/

/-- The address and the statics a returning call produces, by branch: a new
L1 slot draws from `next_frame_l1`, a new entry in an existing block draws
from `next_frame_l2`, a mapped page returns its frame and leaves the statics
alone. -/
theorem translate_allocation (pt : TwoLevelPageTable) (st : TwoLevelStatics) (a : Nat)
    (hwf : pt.wf) (r : TranslateResult)
    (h : translate_two_level_page_table pt st a = some r) :
    (pt.l1_valid (get_l1_index a) = false →
      r.physical_addr = make_physical_addr (st.next_frame_l1 % 256) (get_page_offset a) ∧
      r.statics = { st with next_frame_l1 := (st.next_frame_l1 + 1) % 2 ^ 32 }) ∧
    (pt.l1_valid (get_l1_index a) = true →
      mapped_frame pt (get_l1_index a) (get_l2_index a) = none →
      r.physical_addr = make_physical_addr (st.next_frame_l2 % 256) (get_page_offset a) ∧
      r.statics = { st with next_frame_l2 := (st.next_frame_l2 + 1) % 2 ^ 32 }) ∧
    (∀ f, mapped_frame pt (get_l1_index a) (get_l2_index a) = some f →
      r.physical_addr = make_physical_addr f (get_page_offset a) ∧ r.statics = st) := by
  by_cases h1 : pt.l1_valid (get_l1_index a) = true
  · obtain ⟨block, h2⟩ := Option.isSome_iff_exists.mp (hwf _ h1)
    by_cases h3 : (block (get_l2_index a)).valid = true
    · rw [translate_hit pt st a block h1 h2 h3] at h
      cases h
      refine ⟨fun hf => ?_, fun _ hn => ?_, fun f hf => ?_⟩
      · rw [h1] at hf; cases hf
      · simp [mapped_frame, h1, h2, h3] at hn
      · simp [mapped_frame, h1, h2, h3] at hf
        rw [← hf]
        exact ⟨rfl, rfl⟩
    · have h3f : (block (get_l2_index a)).valid = false := by simpa using h3
      rw [translate_l2_invalid pt st a block h1 h2 h3f] at h
      cases h
      refine ⟨fun hf => ?_, fun _ _ => ⟨rfl, rfl⟩, fun f hf => ?_⟩
      · rw [h1] at hf; cases hf
      · simp [mapped_frame, h1, h2, h3f] at hf
  · have h1f : pt.l1_valid (get_l1_index a) = false := by simpa using h1
    rw [translate_l1_absent pt st a h1f] at h
    cases h
    refine ⟨fun _ => ⟨rfl, rfl⟩, fun ht => absurd ht h1, fun f hf => ?_⟩
    simp [mapped_frame, h1f] at hf

/-- The entry a returning call addresses, on any table: afterwards its slot
is flagged and holds a block, the entry is valid, and the returned address is
built from its frame number. -/
theorem translate_addressed_entry (pt : TwoLevelPageTable) (st : TwoLevelStatics) (a : Nat)
    (r : TranslateResult) (h : translate_two_level_page_table pt st a = some r) :
    ∃ block, r.pt.l1_table (get_l1_index a) = some block ∧
      r.pt.l1_valid (get_l1_index a) = true ∧
      (block (get_l2_index a)).valid = true ∧
      r.physical_addr
        = make_physical_addr (block (get_l2_index a)).frame_number (get_page_offset a) := by
  by_cases h1 : pt.l1_valid (get_l1_index a) = true
  · cases h2 : pt.l1_table (get_l1_index a) with
    | none => simp [translate_two_level_page_table, h1, h2] at h
    | some block =>
      by_cases h3 : (block (get_l2_index a)).valid = true
      · rw [translate_hit pt st a block h1 h2 h3] at h
        cases h
        exact ⟨fun j => if j = get_l2_index a then
            { block (get_l2_index a) with referenced := true } else block j,
          by simp, h1, by simp [h3], by simp⟩
      · have h3f : (block (get_l2_index a)).valid = false := by simpa using h3
        rw [translate_l2_invalid pt st a block h1 h2 h3f] at h
        cases h
        exact ⟨fun j => if j = get_l2_index a then
            { frame_number := st.next_frame_l2 % NUM_PHYSICAL_FRAMES, valid := true,
              referenced := true, dirty := false } else block j,
          by simp, h1, by simp, by simp⟩
  · have h1f : pt.l1_valid (get_l1_index a) = false := by simpa using h1
    rw [translate_l1_absent pt st a h1f] at h
    cases h
    exact ⟨fun j => if j = get_l2_index a then
        { frame_number := st.next_frame_l1 % NUM_PHYSICAL_FRAMES, valid := true,
          referenced := true, dirty := false } else zeroed_pte,
      by simp, by simp, by simp, by simp⟩

/-- A returning call keeps the frame bound. -/
theorem frames_bounded_step (pt : TwoLevelPageTable) (st : TwoLevelStatics) (a : Nat)
    (r : TranslateResult) (h : translate_two_level_page_table pt st a = some r)
    (hb : frames_bounded pt) : frames_bounded r.pt := by
  have hmod : ∀ n : Nat, n % NUM_PHYSICAL_FRAMES < NUM_PHYSICAL_FRAMES :=
    fun n => Nat.mod_lt _ (by decide)
  by_cases h1 : pt.l1_valid (get_l1_index a) = true
  · cases h2 : pt.l1_table (get_l1_index a) with
    | none => simp [translate_two_level_page_table, h1, h2] at h
    | some block =>
      by_cases h3 : (block (get_l2_index a)).valid = true
      · rw [translate_hit pt st a block h1 h2 h3] at h
        cases h
        intro i blk j hblk hv
        by_cases hi : i = get_l1_index a
        · subst hi
          simp only [if_true, Option.some.injEq] at hblk
          subst hblk
          by_cases hj : j = get_l2_index a
          · subst hj
            simpa using hb _ block _ h2 h3
          · simp only [hj, if_false] at hv ⊢
            exact hb _ block j h2 hv
        · simp only [hi, if_false] at hblk
          exact hb i blk j hblk hv
      · have h3f : (block (get_l2_index a)).valid = false := by simpa using h3
        rw [translate_l2_invalid pt st a block h1 h2 h3f] at h
        cases h
        intro i blk j hblk hv
        by_cases hi : i = get_l1_index a
        · subst hi
          simp only [if_true, Option.some.injEq] at hblk
          subst hblk
          by_cases hj : j = get_l2_index a
          · subst hj
            simpa using hmod _
          · simp only [hj, if_false] at hv ⊢
            exact hb _ block j h2 hv
        · simp only [hi, if_false] at hblk
          exact hb i blk j hblk hv
  · have h1f : pt.l1_valid (get_l1_index a) = false := by simpa using h1
    rw [translate_l1_absent pt st a h1f] at h
    cases h
    intro i blk j hblk hv
    by_cases hi : i = get_l1_index a
    · subst hi
      simp only [if_true, Option.some.injEq] at hblk
      subst hblk
      by_cases hj : j = get_l2_index a
      · subst hj
        simpa using hmod _
      · simp [hj, zeroed_pte] at hv
    · simp only [hi, if_false] at hblk
      exact hb i blk j hblk hv

theorem frames_bounded_init : frames_bounded init_two_level_page_table := by
  intro i block j h
  simp [init_two_level_page_table] at h

/-- A mapped frame of a table with bounded frames is below 256. -/
theorem mapped_frame_lt (pt : TwoLevelPageTable) (hb : frames_bounded pt) (i j f : Nat)
    (h : mapped_frame pt i j = some f) : f < 256 := by
  unfold mapped_frame at h
  split at h
  · split at h
    · rename_i block hblock
      split at h
      · rename_i hv
        simp only [Option.some.injEq] at h
        rw [← h]
        exact hb i block j hblock hv
      · cases h
    · cases h
  · cases h

/-- A trace from any table without dangling slots returns, keeps that
property and the frame bound, and keeps every mapping it found. -/
theorem run_two_level_keeps (tr : List Nat) :
    ∀ (pt : TwoLevelPageTable) (st : TwoLevelStatics), pt.wf →
      ∃ outs pt1 st1, run_two_level pt st tr = some (outs, pt1, st1) ∧
        pt1.wf ∧
        (frames_bounded pt → frames_bounded pt1) ∧
        ∀ i j f, mapped_frame pt i j = some f → mapped_frame pt1 i j = some f := by
  induction tr with
  | nil => intro pt st h; exact ⟨[], pt, st, rfl, h, fun hb => hb, fun _ _ _ hm => hm⟩
  | cons a tr ih =>
    intro pt st hwf
    obtain ⟨r, hr, hwf1, _, _, _, _, _, ⟨f1, hf1, _, hsame⟩, hother⟩ :=
      translate_step pt st a hwf
    obtain ⟨outs, pt1, st1, hrun, hwf2, hb2, hkeep⟩ := ih r.pt r.statics hwf1
    refine ⟨(r.physical_addr, r.fault) :: outs, pt1, st1, ?_, hwf2, ?_, ?_⟩
    · simp only [run_two_level, hr, hrun]
    · intro hb
      exact hb2 (frames_bounded_step pt st a r hr hb)
    · intro i j f hm
      apply hkeep
      by_cases hij : i = get_l1_index a ∧ j = get_l2_index a
      · rw [hij.1, hij.2] at hm ⊢
        rw [hf1, hsame f hm]
      · rw [hother i j hij]
        exact hm


/-! ## C21, C22: permanence of mappings, frame range -/

/-- C21. Let a table be reached from `init_two_level_page_table` by any
trace, and let the entry for the page of the 32-bit address `b` be valid with
frame `f` there. After any further trace the entry for that page is still
valid with frame `f`, and translating any 32-bit address `a` of that page
reports no fault, returns `(f << 12) | get_page_offset a` and leaves the
entry valid with frame `f`. -/
theorem mapping_permanent (st0 : TwoLevelStatics) (tr1 tr2 : List Nat) (a b f : Nat)
    (ha : a < 2 ^ 32) (hb : b < 2 ^ 32)
    (hpage : get_page_number a = get_page_number b) :
    ∃ outs1 pt1 st1,
      run_two_level init_two_level_page_table st0 tr1 = some (outs1, pt1, st1) ∧
      (mapped_frame pt1 (get_l1_index b) (get_l2_index b) = some f →
        ∃ outs2 pt2 st2, run_two_level pt1 st1 tr2 = some (outs2, pt2, st2) ∧
          mapped_frame pt2 (get_l1_index b) (get_l2_index b) = some f ∧
          ∃ r, translate_two_level_page_table pt2 st2 a = some r ∧
            r.fault = false ∧
            r.physical_addr = (f <<< 12) ||| get_page_offset a ∧
            mapped_frame r.pt (get_l1_index b) (get_l2_index b) = some f) := by
  obtain ⟨outs1, pt1, st1, hrun1, hwf1, hb1, _⟩ :=
    run_two_level_keeps tr1 init_two_level_page_table st0 history_inv_init.1
  refine ⟨outs1, pt1, st1, hrun1, fun hm => ?_⟩
  obtain ⟨outs2, pt2, st2, hrun2, hwf2, hb2, hkeep⟩ := run_two_level_keeps tr2 pt1 st1 hwf1
  have hm2 := hkeep _ _ f hm
  have hidx := (same_indices_iff_same_page b a hb ha).mpr hpage
  obtain ⟨r, hr, _, hfault, _, _, _, _, ⟨g, hg, hpa, hsame⟩, _⟩ :=
    translate_step pt2 st2 a hwf2
  rw [hidx.1, hidx.2] at hfault hg hsame
  have hgf : g = f := hsame f hm2
  have hlt : f < 256 := mapped_frame_lt pt2 (hb2 (hb1 frames_bounded_init)) _ _ f hm2
  refine ⟨outs2, pt2, st2, hrun2, hm2, r, hr, ?_, ?_, ?_⟩
  · rw [hfault, hm2]; rfl
  · rw [hpa, hgf, shift_or_eq_make f _ (by omega)]
  · rw [hg, hgf]

theorem mapping_permanent_witness :
    0x1234 < 2 ^ 32 ∧ 0x1000 < 2 ^ 32 ∧
    get_page_number 0x1234 = get_page_number 0x1000 ∧
    ∃ outs1 pt1 st1,
      run_two_level init_two_level_page_table statics_at_start [0x2000, 0x1000]
        = some (outs1, pt1, st1) ∧
      (mapped_frame pt1 (get_l1_index 0x1000) (get_l2_index 0x1000) = some 0 →
        ∃ outs2 pt2 st2,
          run_two_level pt1 st1 [0x3000, 0x40002000, 0x1000] = some (outs2, pt2, st2) ∧
          mapped_frame pt2 (get_l1_index 0x1000) (get_l2_index 0x1000) = some 0 ∧
          ∃ r, translate_two_level_page_table pt2 st2 0x1234 = some r ∧
            r.fault = false ∧
            r.physical_addr = (0 <<< 12) ||| get_page_offset 0x1234 ∧
            mapped_frame r.pt (get_l1_index 0x1000) (get_l2_index 0x1000) = some 0) :=
  ⟨by decide, by decide, by decide,
    mapping_permanent statics_at_start [0x2000, 0x1000] [0x3000, 0x40002000, 0x1000]
      0x1234 0x1000 0 (by decide) (by decide) (by decide)⟩

/-- C22. In every table reached from `init_two_level_page_table` by a trace,
every valid entry of every L2 block has `frame_number < 256`; and every call
of `translate_two_level_page_table` on such a table returns
`r = (frame_number << 12) | get_page_offset a` for the entry it addressed
(valid after the call), so that `r < 2 ^ 20`, `get_page_offset r` is
`get_page_offset a` and `get_page_number r` is that frame number. -/
theorem frame_range_and_result_shape (st0 : TwoLevelStatics) (tr : List Nat) (a : Nat) :
    ∃ outs pt st,
      run_two_level init_two_level_page_table st0 tr = some (outs, pt, st) ∧
      (∀ i block j, pt.l1_table i = some block → (block j).valid = true →
        (block j).frame_number < 256) ∧
      ∃ r block, translate_two_level_page_table pt st a = some r ∧
        r.pt.l1_table (get_l1_index a) = some block ∧
        (block (get_l2_index a)).valid = true ∧
        (block (get_l2_index a)).frame_number < 256 ∧
        r.physical_addr
          = ((block (get_l2_index a)).frame_number <<< 12) ||| get_page_offset a ∧
        r.physical_addr < 2 ^ 20 ∧
        get_page_offset r.physical_addr = get_page_offset a ∧
        get_page_number r.physical_addr = (block (get_l2_index a)).frame_number := by
  obtain ⟨outs, pt, st, hrun, hwf, hb, _⟩ :=
    run_two_level_keeps tr init_two_level_page_table st0 history_inv_init.1
  have hbd := hb frames_bounded_init
  obtain ⟨r, hr, _⟩ := translate_step pt st a hwf
  obtain ⟨block, hblock, _, hv, hpa⟩ := translate_addressed_entry pt st a r hr
  have hlt : (block (get_l2_index a)).frame_number < 256 :=
    frames_bounded_step pt st a r hr hbd _ block _ hblock hv
  have ho := get_page_offset_lt a
  have hsum := make_physical_addr_eq (block (get_l2_index a)).frame_number
    (get_page_offset a) (by omega) ho
  refine ⟨outs, pt, st, hrun, hbd, r, block, hr, hblock, hv, hlt, ?_, ?_, ?_, ?_⟩
  · rw [hpa, shift_or_eq_make _ _ (by omega)]
  · rw [hpa, hsum]; omega
  · rw [hpa, hsum, get_page_offset_eq_mod, get_page_offset_eq_mod]
    rw [get_page_offset_eq_mod] at ho
    omega
  · rw [hpa]
    exact get_page_number_make _ _ (by omega) ho


/-! ## MMU: the two outcomes of a call, coherence -/

/-- On an MMU satisfying `mmu_inv` a call of `mmu_translate` is a TLB hit or
a TLB miss followed by a page-table walk that returns; the result is given in
both cases. -/
theorem mmu_translate_cases (m : MMU) (st : TwoLevelStatics) (a : Nat) (hinv : mmu_inv m) :
    (∃ f, (tlb_lookup m.tlb (get_page_number a)).1 = some f ∧
      mmu_translate m st a = some
        { physical_addr := make_physical_addr f (get_page_offset a)
          mmu := { m with
            tlb := (tlb_lookup m.tlb (get_page_number a)).2
            total_cycles := m.total_cycles + 1 }
          statics := st }) ∨
    (∃ rt, (tlb_lookup m.tlb (get_page_number a)).1 = none ∧
      translate_two_level_page_table m.page_table st a = some rt ∧
      mmu_translate m st a = some
        { physical_addr := rt.physical_addr
          mmu := { m with
            tlb := tlb_insert (tlb_lookup m.tlb (get_page_number a)).2 (get_page_number a)
              (get_page_number rt.physical_addr)
            page_table := rt.pt
            total_cycles := m.total_cycles + (if rt.fault then 1000 else 10) }
          statics := rt.statics }) := by
  cases hl : (tlb_lookup m.tlb (get_page_number a)).1 with
  | some f =>
    have hp : tlb_lookup m.tlb (get_page_number a)
        = (some f, (tlb_lookup m.tlb (get_page_number a)).2) := by
      rw [← hl]
    exact Or.inl ⟨f, rfl, mmu_translate_of_tlb_hit m st a f _ hp⟩
  | none =>
    have hp : tlb_lookup m.tlb (get_page_number a)
        = (none, (tlb_lookup m.tlb (get_page_number a)).2) := by
      rw [← hl]
    obtain ⟨rt, hrt, _⟩ := translate_step m.page_table st a hinv.2.2
    obtain ⟨_, hnr, hsize, _⟩ := tlb_lookup_frame m.tlb (get_page_number a)
    have hcur1 : (tlb_lookup m.tlb (get_page_number a)).2.next_replace
        < (tlb_lookup m.tlb (get_page_number a)).2.size := by
      rw [hnr, hsize, hinv.1]; exact hinv.2.1
    exact Or.inr ⟨rt, rfl, hrt, mmu_translate_of_tlb_miss m st a _ rt hp hrt hcur1⟩

theorem mapped_frame_some (pt : TwoLevelPageTable) (i j f : Nat) :
    mapped_frame pt i j = some f ↔
      pt.l1_valid i = true ∧
      ∃ block, pt.l1_table i = some block ∧ (block j).valid = true ∧
        (block j).frame_number = f := by
  unfold mapped_frame
  constructor
  · intro h
    split at h
    · rename_i hv
      split at h
      · rename_i block hblock
        split at h
        · rename_i hval
          simp only [Option.some.injEq] at h
          exact ⟨hv, block, hblock, hval, h⟩
        · cases h
      · cases h
    · cases h
  · rintro ⟨hv, block, hblock, hval, hf⟩
    simp [hv, hblock, hval, hf]

/-- The indices of a 32-bit address in terms of its page number. -/
theorem indices_of_page_number (a : Nat) (ha : a < 2 ^ 32) :
    get_page_number a < 2 ^ 20 ∧
    get_l1_index a = get_page_number a / 1024 ∧
    get_l2_index a = get_page_number a % 1024 := by
  rw [get_page_number_eq_div, get_l1_index_eq, get_l2_index_eq]
  omega

theorem mmu_inv_of_coherent (m : MMU) (h : tlb_coherent m) : mmu_inv m :=
  ⟨h.1, h.2.1, h.2.2.1⟩

theorem tlb_coherent_init : tlb_coherent init_mmu := by
  refine ⟨rfl, by decide, history_inv_init.1, frames_bounded_init, ?_, ?_⟩
  · intro k1 k2 _ _ h1
    simp [init_mmu, init_tlb, zeroed_tlb_entry] at h1
  · intro k _ h1
    simp [init_mmu, init_tlb, zeroed_tlb_entry] at h1

theorem tlb_coherent_invalidate (m : MMU) (h : tlb_coherent m) :
    tlb_coherent { m with tlb := tlb_invalidate_all m.tlb } := by
  obtain ⟨hsz, hcur, hwf, hfb, _, _⟩ := h
  have key : ∀ k, k < 8 → ((tlb_invalidate_all m.tlb).entries k).valid = false := by
    intro k hk
    have hin : 0 ≤ k ∧ k < 0 + m.tlb.size := by omega
    have := tlb_invalidate_loop_apply m.tlb.size m.tlb.entries 0 k
    rw [if_pos hin] at this
    show (tlb_invalidate_loop m.tlb.entries 0 m.tlb.size k).valid = false
    rw [this]
  refine ⟨hsz, hcur, hwf, hfb, ?_, ?_⟩
  · intro k1 k2 hk1 _ h1
    have := key k1 hk1
    rw [this] at h1
    cases h1
  · intro k hk h1
    have := key k hk
    rw [this] at h1
    cases h1

/-- A call of `mmu_translate` on a 32-bit address keeps the MMU coherent. -/
theorem tlb_coherent_step (m : MMU) (st : TwoLevelStatics) (a : Nat) (ha : a < 2 ^ 32)
    (h : tlb_coherent m) :
    ∃ r, mmu_translate m st a = some r ∧ tlb_coherent r.mmu := by
  obtain ⟨hsz, hcur, hwf, hfb, hnodup, hcoh⟩ := h
  obtain ⟨_, hnr, hsize, hfr⟩ := tlb_lookup_frame m.tlb (get_page_number a)
  rcases mmu_translate_cases m st a ⟨hsz, hcur, hwf⟩ with ⟨f, _, hr⟩ | ⟨rt, hl, hrt, hr⟩
  · refine ⟨_, hr, hsize.trans hsz, ?_, hwf, hfb, ?_, ?_⟩
    · show (tlb_lookup m.tlb (get_page_number a)).2.next_replace < 8
      rw [hnr]; exact hcur
    · intro k1 k2 hk1 hk2 h1 h2 htag
      have e1 := hfr k1
      have e2 := hfr k2
      exact hnodup k1 k2 hk1 hk2 (e1.1.symm.trans h1) (e2.1.symm.trans h2)
        ((e1.2.1.symm.trans htag).trans e2.2.1)
    · intro k hk h1
      have e := hfr k
      have := hcoh k hk (e.1.symm.trans h1)
      show ((tlb_lookup m.tlb (get_page_number a)).2.entries k).virtual_page < 2 ^ 20 ∧
        mapped_frame m.page_table
            (((tlb_lookup m.tlb (get_page_number a)).2.entries k).virtual_page / 1024)
            (((tlb_lookup m.tlb (get_page_number a)).2.entries k).virtual_page % 1024)
          = some ((tlb_lookup m.tlb (get_page_number a)).2.entries k).physical_frame
      rw [e.2.1, e.2.2.1]
      exact this
  · obtain ⟨hnone, _, _, hent⟩ := (tlb_lookup_result m.tlb (get_page_number a)).2 hl
    have hcur1 : (tlb_lookup m.tlb (get_page_number a)).2.next_replace
        < (tlb_lookup m.tlb (get_page_number a)).2.size := by
      rw [hnr, hsize, hsz]; exact hcur
    obtain ⟨e1, e2, _, _, _, e6, _, e8⟩ :=
      tlb_insert_effect (tlb_lookup m.tlb (get_page_number a)).2 (get_page_number a)
        (get_page_number rt.physical_addr) hcur1 (by rw [hsize, hsz]; omega)
    rw [hnr] at e1 e2
    rw [hent] at e2
    obtain ⟨r0, hr0, hwf1, _, _, _, _, _, ⟨g, hg, hpa, hsame⟩, hother⟩ :=
      translate_step m.page_table st a hwf
    have hrr : rt = r0 := Option.some.inj (hrt.symm.trans hr0)
    subst hrr
    have hfb1 := frames_bounded_step m.page_table st a rt hrt hfb
    have hg256 : g < 256 := mapped_frame_lt rt.pt hfb1 _ _ g hg
    obtain ⟨hvp, hl1, hl2⟩ := indices_of_page_number a ha
    have hkeep : ∀ i j f, mapped_frame m.page_table i j = some f →
        mapped_frame rt.pt i j = some f := by
      intro i j f hm
      by_cases hij : i = get_l1_index a ∧ j = get_l2_index a
      · rw [hij.1, hij.2] at hm ⊢
        rw [hg, hsame f hm]
      · rw [hother i j hij]; exact hm
    refine ⟨_, hr, (e6.trans hsize).trans hsz, ?_, hwf1, hfb1, ?_, ?_⟩
    · have := e8
      rw [hsize, hsz] at this
      exact this
    · intro k1 k2 hk1 hk2 h1 h2 htag
      change ((tlb_insert _ _ _).entries k1).valid = true at h1
      change ((tlb_insert _ _ _).entries k2).valid = true at h2
      change ((tlb_insert _ _ _).entries k1).virtual_page
        = ((tlb_insert _ _ _).entries k2).virtual_page at htag
      by_cases hc1 : k1 = m.tlb.next_replace
      · by_cases hc2 : k2 = m.tlb.next_replace
        · rw [hc1, hc2]
        · rw [e2 k2 hc2] at h2 htag
          rw [hc1, e1] at htag
          exact absurd ⟨h2, htag.symm⟩ (hnone k2 (by rw [hsz]; exact hk2))
      · by_cases hc2 : k2 = m.tlb.next_replace
        · rw [e2 k1 hc1] at h1 htag
          rw [hc2, e1] at htag
          exact absurd ⟨h1, htag⟩ (hnone k1 (by rw [hsz]; exact hk1))
        · rw [e2 k1 hc1] at h1 htag
          rw [e2 k2 hc2] at h2 htag
          exact hnodup k1 k2 hk1 hk2 h1 h2 htag
    · intro k hk h1
      change ((tlb_insert _ _ _).entries k).valid = true at h1
      show ((tlb_insert _ _ _).entries k).virtual_page < 2 ^ 20 ∧
        mapped_frame rt.pt (((tlb_insert _ _ _).entries k).virtual_page / 1024)
            (((tlb_insert _ _ _).entries k).virtual_page % 1024)
          = some ((tlb_insert _ _ _).entries k).physical_frame
      by_cases hc : k = m.tlb.next_replace
      · rw [hc, e1]
        refine ⟨hvp, ?_⟩
        show mapped_frame rt.pt (get_page_number a / 1024) (get_page_number a % 1024)
          = some (get_page_number rt.physical_addr)
        rw [← hl1, ← hl2, hg, hpa,
          get_page_number_make g _ (by omega) (get_page_offset_lt a)]
      · rw [e2 k hc] at h1 ⊢
        obtain ⟨c1, c2⟩ := hcoh k hk h1
        exact ⟨c1, hkeep _ _ _ c2⟩

theorem mmu_ops_coherent (ops : List MMUOp) :
    ∀ (m : MMU) (st : TwoLevelStatics), tlb_coherent m →
      (∀ a ∈ translated_addresses ops, a < 2 ^ 32) →
      ∃ m1 st1, mmu_ops m st ops = some (m1, st1) ∧ tlb_coherent m1 := by
  induction ops with
  | nil => intro m st h _; exact ⟨m, st, rfl, h⟩
  | cons op ops ih =>
    intro m st h hops
    cases op with
    | translate a =>
      have ha : a < 2 ^ 32 := hops a (by simp [translated_addresses])
      obtain ⟨r, hr, hcoh⟩ := tlb_coherent_step m st a ha h
      obtain ⟨m1, st1, hrun, hcoh1⟩ := ih r.mmu r.statics hcoh
        (fun b hb => hops b (by simp [translated_addresses, hb]))
      refine ⟨m1, st1, ?_, hcoh1⟩
      simp only [mmu_ops, hr]
      exact hrun
    | invalidate_tlb =>
      obtain ⟨m1, st1, hrun, hcoh1⟩ := ih _ st (tlb_coherent_invalidate m h)
        (fun b hb => hops b (by simpa [translated_addresses] using hb))
      exact ⟨m1, st1, hrun, hcoh1⟩


/-! ## C24, C25: TLB coherence, accounting -/

/-- C24. In every MMU state reached from `init_mmu` by `mmu_translate` calls
on 32-bit addresses and `tlb_invalidate_all` calls: (a) no two valid TLB
entries (below `size = 8`) have the same `virtual_page`; (b) for every valid
TLB entry `(vp, f)`, `vp` is a 20-bit page number and the page-table entry
for page `vp` - L1 slot `vp / 1024` flagged and holding a block, entry
`vp mod 1024` of the block, which is the entry addressed by every 32-bit
address of page `vp` - is valid with `frame_number = f`; (c)
`next_replace < 8`. -/
theorem tlb_coherence (st0 : TwoLevelStatics) (ops : List MMUOp)
    (hops : ∀ a ∈ translated_addresses ops, a < 2 ^ 32) :
    ∃ m st, mmu_ops init_mmu st0 ops = some (m, st) ∧
      m.tlb.size = 8 ∧
      (∀ k1 k2, k1 < m.tlb.size → k2 < m.tlb.size →
        (m.tlb.entries k1).valid = true → (m.tlb.entries k2).valid = true →
        (m.tlb.entries k1).virtual_page = (m.tlb.entries k2).virtual_page → k1 = k2) ∧
      (∀ k, k < m.tlb.size → (m.tlb.entries k).valid = true →
        (m.tlb.entries k).virtual_page < 2 ^ 20 ∧
        (∃ block,
          m.page_table.l1_valid ((m.tlb.entries k).virtual_page / 1024) = true ∧
          m.page_table.l1_table ((m.tlb.entries k).virtual_page / 1024) = some block ∧
          (block ((m.tlb.entries k).virtual_page % 1024)).valid = true ∧
          (block ((m.tlb.entries k).virtual_page % 1024)).frame_number
            = (m.tlb.entries k).physical_frame) ∧
        ∀ a, a < 2 ^ 32 → get_page_number a = (m.tlb.entries k).virtual_page →
          mapped_frame m.page_table (get_l1_index a) (get_l2_index a)
            = some (m.tlb.entries k).physical_frame) ∧
      m.tlb.next_replace < 8 := by
  obtain ⟨m, st, hrun, hsz, hcur, _, _, hnodup, hcoh⟩ :=
    mmu_ops_coherent ops init_mmu st0 tlb_coherent_init hops
  refine ⟨m, st, hrun, hsz, ?_, ?_, hcur⟩
  · intro k1 k2 hk1 hk2
    rw [hsz] at hk1 hk2
    exact hnodup k1 k2 hk1 hk2
  · intro k hk hv
    rw [hsz] at hk
    obtain ⟨c1, c2⟩ := hcoh k hk hv
    obtain ⟨hflag, block, hblock, hval, hfn⟩ := (mapped_frame_some _ _ _ _).mp c2
    refine ⟨c1, ⟨block, hflag, hblock, hval, hfn⟩, fun a ha hpn => ?_⟩
    obtain ⟨_, hl1, hl2⟩ := indices_of_page_number a ha
    rw [hl1, hl2, hpn]
    exact c2

theorem tlb_coherence_witness :
    (∀ a ∈ translated_addresses
        [.translate 0x1000, .translate 0x40002000, .invalidate_tlb, .translate 0x1004],
      a < 2 ^ 32) ∧
    ∃ m st, mmu_ops init_mmu statics_at_start
        [.translate 0x1000, .translate 0x40002000, .invalidate_tlb, .translate 0x1004]
        = some (m, st) ∧
      m.tlb.size = 8 ∧
      (∀ k1 k2, k1 < m.tlb.size → k2 < m.tlb.size →
        (m.tlb.entries k1).valid = true → (m.tlb.entries k2).valid = true →
        (m.tlb.entries k1).virtual_page = (m.tlb.entries k2).virtual_page → k1 = k2) ∧
      (∀ k, k < m.tlb.size → (m.tlb.entries k).valid = true →
        (m.tlb.entries k).virtual_page < 2 ^ 20 ∧
        (∃ block,
          m.page_table.l1_valid ((m.tlb.entries k).virtual_page / 1024) = true ∧
          m.page_table.l1_table ((m.tlb.entries k).virtual_page / 1024) = some block ∧
          (block ((m.tlb.entries k).virtual_page % 1024)).valid = true ∧
          (block ((m.tlb.entries k).virtual_page % 1024)).frame_number
            = (m.tlb.entries k).physical_frame) ∧
        ∀ a, a < 2 ^ 32 → get_page_number a = (m.tlb.entries k).virtual_page →
          mapped_frame m.page_table (get_l1_index a) (get_l2_index a)
            = some (m.tlb.entries k).physical_frame) ∧
      m.tlb.next_replace < 8 :=
  ⟨by decide,
    tlb_coherence statics_at_start
      [.translate 0x1000, .translate 0x40002000, .invalidate_tlb, .translate 0x1004]
      (by decide)⟩

theorem accounting_init : accounting init_mmu := by
  refine ⟨rfl, rfl, rfl, rfl⟩

/-- A call of `mmu_translate` keeps the counter identities. -/
theorem accounting_step (m : MMU) (st : TwoLevelStatics) (a : Nat) (hinv : mmu_inv m)
    (hacc : accounting m) :
    ∃ r, mmu_translate m st a = some r ∧ mmu_inv r.mmu ∧ accounting r.mmu := by
  obtain ⟨r, hr, hinv1, _⟩ := mmu_translate_step m st a hinv
  refine ⟨r, hr, hinv1, ?_⟩
  obtain ⟨a1, a2, a3, a4⟩ := hacc
  obtain ⟨hta, _, _, _⟩ := tlb_lookup_frame m.tlb (get_page_number a)
  simp only [TLB_HIT_TIME, PAGE_TABLE_ACCESS_TIME, PAGE_FAULT_TIME] at a4
  rcases mmu_translate_cases m st a hinv with ⟨f, hl, hr1⟩ | ⟨rt, hl, hrt, hr1⟩
  · have hrr : r = _ := Option.some.inj (hr.symm.trans hr1)
    obtain ⟨_, _, _, _, _, _, _, hhits, hmisses⟩ :=
      (tlb_lookup_result m.tlb (get_page_number a)).1 f hl
    rw [hrr]
    simp only [accounting, TLB_HIT_TIME, PAGE_TABLE_ACCESS_TIME, PAGE_FAULT_TIME]
    rw [hta, hhits, hmisses]
    refine ⟨?_, ?_, ?_, ?_⟩ <;> omega
  · have hrr : r = _ := Option.some.inj (hr.symm.trans hr1)
    obtain ⟨_, hmisses, hhits, _⟩ := (tlb_lookup_result m.tlb (get_page_number a)).2 hl
    obtain ⟨r0, hr0, _, _, racc, rhits, rfaults, _⟩ := translate_step m.page_table st a hinv.2.2
    have hr0t : rt = r0 := Option.some.inj (hrt.symm.trans hr0)
    subst hr0t
    rw [hrr]
    simp only [accounting, TLB_HIT_TIME, PAGE_TABLE_ACCESS_TIME, PAGE_FAULT_TIME]
    show (tlb_lookup m.tlb (get_page_number a)).2.accesses
        = (tlb_lookup m.tlb (get_page_number a)).2.hits
          + (tlb_lookup m.tlb (get_page_number a)).2.misses ∧
      rt.pt.accesses = (tlb_lookup m.tlb (get_page_number a)).2.misses ∧
      (tlb_lookup m.tlb (get_page_number a)).2.misses = rt.pt.hits + rt.pt.faults ∧
      m.total_cycles + (if rt.fault then 1000 else 10)
        = 1 * (tlb_lookup m.tlb (get_page_number a)).2.hits + 10 * rt.pt.hits
          + 1000 * rt.pt.faults
    rw [hta, hhits, hmisses, racc, rhits, rfaults]
    cases rt.fault <;> simp <;> refine ⟨?_, ?_, ?_, ?_⟩ <;> omega

theorem mmu_ops_accounting (ops : List MMUOp) :
    ∀ (m : MMU) (st : TwoLevelStatics), mmu_inv m → accounting m →
      ∃ m1 st1, mmu_ops m st ops = some (m1, st1) ∧ mmu_inv m1 ∧ accounting m1 := by
  induction ops with
  | nil => intro m st h1 h2; exact ⟨m, st, rfl, h1, h2⟩
  | cons op ops ih =>
    intro m st h1 h2
    cases op with
    | translate a =>
      obtain ⟨r, hr, hinv, hacc⟩ := accounting_step m st a h1 h2
      obtain ⟨m1, st1, hrun, hinv1, hacc1⟩ := ih r.mmu r.statics hinv hacc
      refine ⟨m1, st1, ?_, hinv1, hacc1⟩
      simp only [mmu_ops, hr]
      exact hrun
    | invalidate_tlb =>
      have hinv : mmu_inv { m with tlb := tlb_invalidate_all m.tlb } :=
        ⟨h1.1, h1.2.1, h1.2.2⟩
      have hacc : accounting { m with tlb := tlb_invalidate_all m.tlb } := h2
      obtain ⟨m1, st1, hrun, hinv1, hacc1⟩ := ih _ st hinv hacc
      exact ⟨m1, st1, hrun, hinv1, hacc1⟩

/-- C25. In every MMU state reached from `init_mmu` by `mmu_translate` calls
(and `tlb_invalidate_all` calls), the `uint64_t` counters taken as unbounded:
`tlb.accesses = tlb.hits + tlb.misses`,
`page_table.accesses = tlb.misses = page_table.hits + page_table.faults`, and
`total_cycles = 1 * tlb.hits + 10 * page_table.hits + 1000 * page_table.faults`. -/
theorem counter_accounting (st0 : TwoLevelStatics) (ops : List MMUOp) :
    ∃ m st, mmu_ops init_mmu st0 ops = some (m, st) ∧
      m.tlb.accesses = m.tlb.hits + m.tlb.misses ∧
      m.page_table.accesses = m.tlb.misses ∧
      m.tlb.misses = m.page_table.hits + m.page_table.faults ∧
      m.total_cycles
        = 1 * m.tlb.hits + 10 * m.page_table.hits + 1000 * m.page_table.faults ∧
      TLB_HIT_TIME = 1 ∧ PAGE_TABLE_ACCESS_TIME = 10 ∧ PAGE_FAULT_TIME = 1000 := by
  obtain ⟨m, st, hrun, _, a1, a2, a3, a4⟩ :=
    mmu_ops_accounting ops init_mmu st0 mmu_inv_init accounting_init
  exact ⟨m, st, hrun, a1, a2, a3, a4, rfl, rfl, rfl⟩


/-! ## C23: the TLB is transparent -/

theorem same_mapping_init : same_mapping init_mmu init_two_level_page_table :=
  ⟨tlb_coherent_init, history_inv_init.1, frames_bounded_init, fun _ => rfl, fun _ _ => rfl⟩

/-- Two tables without dangling slots, with bounded frames, the same flagged
slots and the same mapping: a call on the same address with the same statics
returns the same address and statics on both, and leaves them so related. -/
theorem translate_same_mapping (pt1 pt2 : TwoLevelPageTable) (st : TwoLevelStatics) (a : Nat)
    (hwf1 : pt1.wf) (hwf2 : pt2.wf) (hb1 : frames_bounded pt1) (hb2 : frames_bounded pt2)
    (hflag : ∀ i, pt1.l1_valid i = pt2.l1_valid i)
    (hmap : ∀ i j, mapped_frame pt1 i j = mapped_frame pt2 i j) :
    ∃ r1 r2, translate_two_level_page_table pt1 st a = some r1 ∧
      translate_two_level_page_table pt2 st a = some r2 ∧
      r1.physical_addr = r2.physical_addr ∧
      r1.statics = r2.statics ∧
      (∀ i, r1.pt.l1_valid i = r2.pt.l1_valid i) ∧
      ∀ i j, mapped_frame r1.pt i j = mapped_frame r2.pt i j := by
  obtain ⟨r1, hr1, _, _, _, _, _, _, ⟨g1, hg1, hpa1, _⟩, hother1⟩ :=
    translate_step pt1 st a hwf1
  obtain ⟨r2, hr2, _, _, _, _, _, _, ⟨g2, hg2, hpa2, _⟩, hother2⟩ :=
    translate_step pt2 st a hwf2
  obtain ⟨al1, al2, al3⟩ := translate_allocation pt1 st a hwf1 r1 hr1
  obtain ⟨bl1, bl2, bl3⟩ := translate_allocation pt2 st a hwf2 r2 hr2
  obtain ⟨fo1, ff1, _⟩ := translate_footprint pt1 st a r1 hr1
  obtain ⟨fo2, ff2, _⟩ := translate_footprint pt2 st a r2 hr2
  have hres : r1.physical_addr = r2.physical_addr ∧ r1.statics = r2.statics := by
    cases hv : pt1.l1_valid (get_l1_index a) with
    | false =>
      have hv2 : pt2.l1_valid (get_l1_index a) = false := by rw [← hflag]; exact hv
      obtain ⟨p1, s1⟩ := al1 hv
      obtain ⟨p2, s2⟩ := bl1 hv2
      exact ⟨p1.trans p2.symm, s1.trans s2.symm⟩
    | true =>
      have hv2 : pt2.l1_valid (get_l1_index a) = true := by rw [← hflag]; exact hv
      cases hm : mapped_frame pt1 (get_l1_index a) (get_l2_index a) with
      | none =>
        have hm2 : mapped_frame pt2 (get_l1_index a) (get_l2_index a) = none := by
          rw [← hmap]; exact hm
        obtain ⟨p1, s1⟩ := al2 hv hm
        obtain ⟨p2, s2⟩ := bl2 hv2 hm2
        exact ⟨p1.trans p2.symm, s1.trans s2.symm⟩
      | some f =>
        have hm2 : mapped_frame pt2 (get_l1_index a) (get_l2_index a) = some f := by
          rw [← hmap]; exact hm
        obtain ⟨p1, s1⟩ := al3 f hm
        obtain ⟨p2, s2⟩ := bl3 f hm2
        exact ⟨p1.trans p2.symm, s1.trans s2.symm⟩
  have hg1lt : g1 < 256 :=
    mapped_frame_lt r1.pt (frames_bounded_step pt1 st a r1 hr1 hb1) _ _ g1 hg1
  have hg2lt : g2 < 256 :=
    mapped_frame_lt r2.pt (frames_bounded_step pt2 st a r2 hr2 hb2) _ _ g2 hg2
  have hgg : g1 = g2 := by
    have e1 := get_page_number_make g1 (get_page_offset a) (by omega) (get_page_offset_lt a)
    have e2 := get_page_number_make g2 (get_page_offset a) (by omega) (get_page_offset_lt a)
    rw [← hpa1] at e1
    rw [← hpa2, ← hres.1] at e2
    exact e1.symm.trans e2
  refine ⟨r1, r2, hr1, hr2, hres.1, hres.2, fun i => ?_, fun i j => ?_⟩
  · by_cases hi : i = get_l1_index a
    · rw [hi, ff1, ff2]
    · rw [(fo1 i hi).1, (fo2 i hi).1, hflag]
  · by_cases hij : i = get_l1_index a ∧ j = get_l2_index a
    · rw [hij.1, hij.2, hg1, hg2, hgg]
    · rw [hother1 i j hij, hother2 i j hij, hmap]

/-- One address through the MMU and through the bare table, from related
states with the same statics: same returned address, same statics, related
states. -/
theorem same_mapping_step (m : MMU) (pt : TwoLevelPageTable) (st : TwoLevelStatics) (a : Nat)
    (ha : a < 2 ^ 32) (h : same_mapping m pt) :
    ∃ r rt, mmu_translate m st a = some r ∧
      translate_two_level_page_table pt st a = some rt ∧
      r.physical_addr = rt.physical_addr ∧
      r.statics = rt.statics ∧
      same_mapping r.mmu rt.pt := by
  obtain ⟨hcoh, hwf, hfb, hflag, hmap⟩ := h
  obtain ⟨r, hr, hcoh1⟩ := tlb_coherent_step m st a ha hcoh
  obtain ⟨hsz, hcur, hwfm, hfbm, _, hc⟩ := hcoh
  obtain ⟨_, hl1, hl2⟩ := indices_of_page_number a ha
  rcases mmu_translate_cases m st a ⟨hsz, hcur, hwfm⟩ with ⟨f, hl, hr1⟩ | ⟨rm, hl, hrm, hr1⟩
  · have hrr : r = _ := Option.some.inj (hr.symm.trans hr1)
    obtain ⟨k, hk, hv, htag, _, hf, _⟩ := (tlb_lookup_result m.tlb (get_page_number a)).1 f hl
    rw [hsz] at hk
    have hmf : mapped_frame pt (get_l1_index a) (get_l2_index a) = some f := by
      have := (hc k hk hv).2
      rw [htag, ← hl1, ← hl2, ← hf, hmap] at this
      exact this
    obtain ⟨rt, hrt, hwft, _, _, _, _, _, ⟨g, hg, _, hsame⟩, hother⟩ :=
      translate_step pt st a hwf
    obtain ⟨_, _, al3⟩ := translate_allocation pt st a hwf rt hrt
    obtain ⟨fo, ff, _⟩ := translate_footprint pt st a rt hrt
    obtain ⟨p, s⟩ := al3 f hmf
    have hpv : pt.l1_valid (get_l1_index a) = true := ((mapped_frame_some _ _ _ _).mp hmf).1
    refine ⟨r, rt, hr, hrt, ?_, ?_, hcoh1, hwft, frames_bounded_step pt st a rt hrt hfb, ?_, ?_⟩
    · rw [hrr, p]
    · rw [hrr, s]
    · intro i
      rw [hrr]
      show m.page_table.l1_valid i = rt.pt.l1_valid i
      by_cases hi : i = get_l1_index a
      · rw [hi, ff, hflag, hpv]
      · rw [(fo i hi).1, hflag]
    · intro i j
      rw [hrr]
      show mapped_frame m.page_table i j = mapped_frame rt.pt i j
      by_cases hij : i = get_l1_index a ∧ j = get_l2_index a
      · rw [hij.1, hij.2, hg, hsame f hmf, hmap, hmf]
      · rw [hother i j hij, hmap]
  · have hrr : r = _ := Option.some.inj (hr.symm.trans hr1)
    obtain ⟨r1, r2, h1, h2, hpa, hst, hflag1, hmap1⟩ :=
      translate_same_mapping m.page_table pt st a hwfm hwf hfbm hfb hflag hmap
    have hr1m : rm = r1 := Option.some.inj (hrm.symm.trans h1)
    subst hr1m
    obtain ⟨r0, hr0, hwft, _⟩ := translate_step pt st a hwf
    have hr02 : r2 = r0 := Option.some.inj (h2.symm.trans hr0)
    subst hr02
    refine ⟨r, r2, hr, h2, ?_, ?_, hcoh1, hwft, frames_bounded_step pt st a r2 h2 hfb, ?_, ?_⟩
    · rw [hrr]; exact hpa
    · rw [hrr]; exact hst
    · intro i; rw [hrr]; exact hflag1 i
    · intro i j; rw [hrr]; exact hmap1 i j

theorem same_mapping_invalidate (m : MMU) (pt : TwoLevelPageTable) (h : same_mapping m pt) :
    same_mapping { m with tlb := tlb_invalidate_all m.tlb } pt :=
  ⟨tlb_coherent_invalidate m h.1, h.2.1, h.2.2.1, h.2.2.2.1, h.2.2.2.2⟩

theorem mmu_trace_same_mapping (ops : List MMUOp) :
    ∀ (m : MMU) (pt : TwoLevelPageTable) (st : TwoLevelStatics), same_mapping m pt →
      (∀ a ∈ translated_addresses ops, a < 2 ^ 32) →
      ∃ outs m1 st1 outs2 pt2,
        mmu_trace m st ops = some (outs, m1, st1) ∧
        run_two_level pt st (translated_addresses ops) = some (outs2, pt2, st1) ∧
        outs = outs2.map Prod.fst ∧
        same_mapping m1 pt2 := by
  induction ops with
  | nil => intro m pt st h _; exact ⟨[], m, st, [], pt, rfl, rfl, rfl, h⟩
  | cons op ops ih =>
    intro m pt st h hops
    cases op with
    | translate a =>
      have ha : a < 2 ^ 32 := hops a (by simp [translated_addresses])
      obtain ⟨r, rt, hr, hrt, hpa, hst, hsim⟩ := same_mapping_step m pt st a ha h
      obtain ⟨outs, m1, st1, outs2, pt2, hrun, hrun2, houts, hsim1⟩ :=
        ih r.mmu rt.pt r.statics hsim
          (fun b hb => hops b (by simp [translated_addresses, hb]))
      rw [hst] at hrun2
      refine ⟨r.physical_addr :: outs, m1, st1, (rt.physical_addr, rt.fault) :: outs2, pt2,
        ?_, ?_, ?_, hsim1⟩
      · simp only [mmu_trace, hr, hrun]
      · simp only [translated_addresses, run_two_level, hrt, hrun2]
      · rw [houts, hpa]; rfl
    | invalidate_tlb =>
      obtain ⟨outs, m1, st1, outs2, pt2, hrun, hrun2, houts, hsim1⟩ :=
        ih _ pt st (same_mapping_invalidate m pt h)
          (fun b hb => hops b (by simpa [translated_addresses] using hb))
      exact ⟨outs, m1, st1, outs2, pt2, hrun, hrun2, houts, hsim1⟩

/-- C23. For every sequence of `mmu_translate` calls on 32-bit addresses with
`tlb_invalidate_all` calls interleaved anywhere, on a freshly initialised
MMU: all calls return, and the address returned at each step is the address
`translate_two_level_page_table` returns at the same step when the same
addresses are fed to a freshly initialised two-level table starting from the
same statics; the statics end equal as well. -/
theorem tlb_transparent (st0 : TwoLevelStatics) (ops : List MMUOp)
    (hops : ∀ a ∈ translated_addresses ops, a < 2 ^ 32) :
    ∃ outs m st outs2 pt,
      mmu_trace init_mmu st0 ops = some (outs, m, st) ∧
      run_two_level init_two_level_page_table st0 (translated_addresses ops)
        = some (outs2, pt, st) ∧
      outs.length = (translated_addresses ops).length ∧
      outs = outs2.map Prod.fst := by
  obtain ⟨outs, m, st, outs2, pt, hrun, hrun2, houts, _⟩ :=
    mmu_trace_same_mapping ops init_mmu init_two_level_page_table st0 same_mapping_init hops
  obtain ⟨_, _, _, hrun3, _, hlen, _⟩ := run_from_init st0 (translated_addresses ops) hops
  rw [hrun2] at hrun3
  cases hrun3
  exact ⟨outs, m, st, outs2, pt, hrun, hrun2, by rw [houts, List.length_map, hlen], houts⟩

theorem tlb_transparent_witness :
    (∀ a ∈ translated_addresses
        [.translate 0x1000, .translate 0x2000, .translate 0x1004, .invalidate_tlb,
          .translate 0x1008, .translate 0x40002000],
      a < 2 ^ 32) ∧
    ∃ outs m st outs2 pt,
      mmu_trace init_mmu statics_at_start
          [.translate 0x1000, .translate 0x2000, .translate 0x1004, .invalidate_tlb,
            .translate 0x1008, .translate 0x40002000]
        = some (outs, m, st) ∧
      run_two_level init_two_level_page_table statics_at_start
          (translated_addresses
            [.translate 0x1000, .translate 0x2000, .translate 0x1004, .invalidate_tlb,
              .translate 0x1008, .translate 0x40002000])
        = some (outs2, pt, st) ∧
      outs.length = (translated_addresses
        [.translate 0x1000, .translate 0x2000, .translate 0x1004, .invalidate_tlb,
          .translate 0x1008, .translate 0x40002000]).length ∧
      outs = outs2.map Prod.fst :=
  ⟨by decide,
    tlb_transparent statics_at_start
      [.translate 0x1000, .translate 0x2000, .translate 0x1004, .invalidate_tlb,
        .translate 0x1008, .translate 0x40002000]
      (by decide)⟩

end CachingTLB
